import Mathlib

/-!
# HI_VarWidthReduce: bit-width narrowing pass

A shallow embedding of `src/Implementations/HI_VarWidthReduce/HI_VarWidthReduce.cc`.

Machine integers (`llvm::APInt`) are a bit width together with the unsigned value of the
stored bit pattern.  LLVM library classes used by the pass (`APInt`, `ConstantRange`,
`Instruction`, ...) are not part of the repository sources; the parts of them the pass calls
are modelled here, each next to the call it serves.
-/

namespace HI_VarWidthReduce

/-! ## Arbitrary-precision integers -/

/-- Modelled from the spec: an integer of a fixed bit width (`llvm::APInt`, declared outside
`src/`).  `VAL` is the unsigned value of the stored bit pattern. -/
structure APInt where
  BitWidth : Nat
  VAL : Nat
deriving DecidableEq, Repr

/-- Number of zero bits above the highest set bit among the low `w` bits of `v`. -/
def countLeadingZerosAux : Nat → Nat → Nat
  | 0, _ => 0
  | w + 1, v => if v.testBit w then 0 else countLeadingZerosAux w v + 1

/-- Number of consecutive one bits starting at bit `w - 1` of `v` and going down. -/
def countLeadingOnesAux : Nat → Nat → Nat
  | 0, _ => 0
  | w + 1, v => if v.testBit w then countLeadingOnesAux w v + 1 else 0

namespace APInt

/-- A stored bit pattern fits its width, and the width is at least one bit. -/
def WF (a : APInt) : Prop := 0 < a.BitWidth ∧ a.VAL < 2 ^ a.BitWidth

instance (a : APInt) : Decidable a.WF := by unfold WF; exact inferInstance

/-- Sign bit set (`APInt::isNegative`). -/
def isNegative (a : APInt) : Bool := a.VAL.testBit (a.BitWidth - 1)

/-- Sign bit clear (`APInt::isNonNegative`). -/
def isNonNegative (a : APInt) : Bool := !a.isNegative

/-- All bits set (`APInt::isMaxValue`). -/
def isMaxValue (a : APInt) : Bool := a.VAL == 2 ^ a.BitWidth - 1

/-- All bits clear (`APInt::isMinValue`). -/
def isMinValue (a : APInt) : Bool := a.VAL == 0

def countLeadingZeros (a : APInt) : Nat := countLeadingZerosAux a.BitWidth a.VAL

def countLeadingOnes (a : APInt) : Nat := countLeadingOnesAux a.BitWidth a.VAL

/-- Modelled from the spec: `active_bits(v)` is the position of the highest set bit of `v`
plus one (`APInt::getActiveBits`, computed as the width minus the leading zeros). -/
def getActiveBits (a : APInt) : Nat := a.BitWidth - a.countLeadingZeros

/-- Modelled from the spec: `min_signed_bits(v)` is the minimum two's-complement width able to
represent `v`, including the sign bit (`APInt::getMinSignedBits`). -/
def getMinSignedBits (a : APInt) : Nat :=
  if a.isNegative then a.BitWidth - a.countLeadingOnes + 1 else a.getActiveBits + 1

/-- Keep the low `width` bits (`APInt::trunc`). -/
def trunc (a : APInt) (width : Nat) : APInt := ⟨width, a.VAL % 2 ^ width⟩

/-- Widen with zero bits (`APInt::zext`). -/
def zext (a : APInt) (width : Nat) : APInt := ⟨width, a.VAL⟩

/-- Widen by copying the sign bit (`APInt::sext`). -/
def sext (a : APInt) (width : Nat) : APInt :=
  if a.isNegative then ⟨width, a.VAL + (2 ^ width - 2 ^ a.BitWidth)⟩ else ⟨width, a.VAL⟩

/-- Unsigned comparisons (`APInt::ule`, `APInt::ult`, `APInt::ugt`). -/
def ule (a b : APInt) : Bool := decide (a.VAL ≤ b.VAL)

def ult (a b : APInt) : Bool := decide (a.VAL < b.VAL)

def ugt (a b : APInt) : Bool := decide (b.VAL < a.VAL)

/-- The number a bit pattern stands for when read as two's complement. -/
def toInt (a : APInt) : Int :=
  if a.isNegative then (a.VAL : Int) - 2 ^ a.BitWidth else a.VAL

/-- The smallest signed value of a width (`APInt::getSignedMinValue`). -/
def getSignedMinValue (w : Nat) : APInt := ⟨w, 2 ^ (w - 1)⟩

/-- The largest signed value of a width (`APInt::getSignedMaxValue`). -/
def getSignedMaxValue (w : Nat) : APInt := ⟨w, 2 ^ (w - 1) - 1⟩

end APInt

/-! ## Constant ranges -/

/-- Modelled from the spec: a value range tagged with a bit width (`llvm::ConstantRange`,
declared outside `src/`).  The stored pair denotes the values from `Lower` up to, but not
including, `Upper`, going round through the top of the width when `Upper` is below `Lower`;
equal bounds denote the full set (both all-ones) or the empty set (both zero). -/
structure ConstantRange where
  Lower : APInt
  Upper : APInt
deriving DecidableEq, Repr

namespace ConstantRange

/-- What the `ConstantRange(Lower, Upper)` constructor asserts of its arguments. -/
def WF (CR : ConstantRange) : Prop :=
  CR.Lower.WF ∧ CR.Upper.WF ∧ CR.Lower.BitWidth = CR.Upper.BitWidth ∧
  (CR.Lower.VAL = CR.Upper.VAL → CR.Lower.isMaxValue = true ∨ CR.Lower.isMinValue = true)

instance (CR : ConstantRange) : Decidable CR.WF := by unfold WF; exact inferInstance

def getLower (CR : ConstantRange) : APInt := CR.Lower

def getUpper (CR : ConstantRange) : APInt := CR.Upper

def getBitWidth (CR : ConstantRange) : Nat := CR.Lower.BitWidth

/-- Both bounds equal and all-ones (`ConstantRange::isFullSet`). -/
def isFullSet (CR : ConstantRange) : Bool := CR.Lower == CR.Upper && CR.Lower.isMaxValue

/-- Both bounds equal and zero (`ConstantRange::isEmptySet`). -/
def isEmptySet (CR : ConstantRange) : Bool := CR.Lower == CR.Upper && CR.Lower.isMinValue

/-- The stored upper bound is below the stored lower bound (`ConstantRange::isUpperWrapped`). -/
def isUpperWrapped (CR : ConstantRange) : Bool := CR.Lower.ugt CR.Upper

/-- Membership of a value of the range's width (`ConstantRange::contains`). -/
def contains (CR : ConstantRange) (V : APInt) : Bool :=
  if CR.Lower == CR.Upper then CR.isFullSet
  else if !CR.isUpperWrapped then CR.Lower.ule V && V.ult CR.Upper
  else CR.Lower.ule V || V.ult CR.Upper

/-- The full set of a width (`ConstantRange(BitWidth, /*isFullSet=*/true)`). -/
def full (w : Nat) : ConstantRange := ⟨⟨w, 2 ^ w - 1⟩, ⟨w, 2 ^ w - 1⟩⟩

/-- The single-element range (`ConstantRange(APInt)`): from `V` to `V + 1`. -/
def single (V : APInt) : ConstantRange := ⟨V, ⟨V.BitWidth, (V.VAL + 1) % 2 ^ V.BitWidth⟩⟩

end ConstantRange

/-! ## Bit-width derivation -/

/-- The source's `HI_VarWidthReduce::bitNeededFor` (lines 329-355). -/
def bitNeededFor (CR : ConstantRange) : Nat :=
  if CR.isFullSet then CR.getBitWidth
  else if CR.getLower.isNonNegative then
    let lowerNeedBits := CR.getLower.getActiveBits
    let upperNeedBits := CR.getUpper.getActiveBits
    if lowerNeedBits > upperNeedBits then lowerNeedBits else upperNeedBits
  else
    let lowerNeedBits := CR.getLower.getMinSignedBits
    let upperNeedBits := CR.getUpper.getMinSignedBits
    if lowerNeedBits > upperNeedBits then lowerNeedBits else upperNeedBits

/-- A value fits `w` bits: unsigned when `signed` is false, two's complement otherwise. -/
def representable (signed : Bool) (w : Nat) (V : APInt) : Prop :=
  if signed then -(2 : Int) ^ (w - 1) ≤ V.toInt ∧ V.toInt < 2 ^ (w - 1) ∧ 0 < w
  else V.VAL < 2 ^ w

instance (s : Bool) (w : Nat) (V : APInt) : Decidable (representable s w V) := by
  unfold representable; exact inferInstance

/-- Re-widening used by the round trip: zero-extension when the lower bound of the range is
non-negative, sign-extension otherwise. -/
def rewiden (CR : ConstantRange) (a : APInt) (W : Nat) : APInt :=
  if CR.getLower.isNonNegative then a.zext W else a.sext W


/-! ## Range analysis adapter -/

/-- The n-ary expression shapes `HI_getSignedRangeRef` folds over. -/
inductive SCEVNAry where
  | Add
  | Mul
  | SMax
  | UMax
deriving DecidableEq, Repr

/-- The width-changing expression shapes. -/
inductive SCEVCast where
  | ZeroExtend
  | SignExtend
  | Truncate
deriving DecidableEq, Repr

/-- Modelled from the spec: the symbolic expression tree of the external range-analysis engine
(`llvm::SCEV`, declared outside `src/`).  `key` stands for the expression's identity (its
address, under which the range cache stores it), `BitWidth` for
`SE->getTypeSizeInBits(S->getType())`.  An n-ary expression has operand 0 and the operands
after it. -/
inductive SCEV where
  | Constant (key : Nat) (V : APInt)
  | NAry (key : Nat) (kind : SCEVNAry) (BitWidth : Nat) (op0 : SCEV) (ops : List SCEV)
  | UDiv (key : Nat) (BitWidth : Nat) (LHS RHS : SCEV)
  | Cast (key : Nat) (kind : SCEVCast) (BitWidth : Nat) (op : SCEV)
  | AddRec (key : Nat) (BitWidth : Nat)
  | Unknown (key : Nat) (BitWidth : Nat) (isPtrToInt : Bool)

namespace SCEV

def key : SCEV → Nat
  | Constant k _ => k
  | NAry k _ _ _ _ => k
  | UDiv k _ _ _ => k
  | Cast k _ _ _ => k
  | AddRec k _ => k
  | Unknown k _ _ => k

def getTypeSizeInBits : SCEV → Nat
  | Constant _ V => V.BitWidth
  | NAry _ _ w _ _ => w
  | UDiv _ w _ _ => w
  | Cast _ _ w _ => w
  | AddRec _ w => w
  | Unknown _ w _ => w

end SCEV

/-- Modelled from the spec: the external collaborators of the pass -- the symbolic
range-analysis service (`ScalarEvolution`: expression of an instruction, conservative range
and trailing-zero count of an expression) and the interval operations of
`llvm::ConstantRange`.  They are parameters of the embedding. -/
structure Services where
  getSCEV : Nat → SCEV
  getSignedRange : SCEV → ConstantRange
  GetMinTrailingZeros : SCEV → Nat
  add : ConstantRange → ConstantRange → ConstantRange
  multiply : ConstantRange → ConstantRange → ConstantRange
  smax : ConstantRange → ConstantRange → ConstantRange
  umax : ConstantRange → ConstantRange → ConstantRange
  udiv : ConstantRange → ConstantRange → ConstantRange
  zeroExtend : ConstantRange → Nat → ConstantRange
  signExtend : ConstantRange → Nat → ConstantRange
  truncate : ConstantRange → Nat → ConstantRange
  intersectWith : ConstantRange → ConstantRange → ConstantRange

/-- The range cache `SignedRanges`, keyed by expression identity. -/
abbrev RangeCache := List (Nat × ConstantRange)

/-- The source's `HI_VarWidthReduce::setRange` (lines 766-774): store, overwriting an entry
already present, and return the stored range. -/
def setRange (S : SCEV) (CR : ConstantRange) (Cache : RangeCache) : ConstantRange × RangeCache :=
  (CR, (S.key, CR) :: Cache.filter (fun p => p.1 != S.key))

/-- The source's `HI_VarWidthReduce::bypassPTI` (lines 778-787). -/
def bypassPTI : SCEV → Bool
  | .Unknown _ _ isPtrToInt => isPtrToInt
  | _ => false

/-- The conservative result of lines 644-655: the full set, tightened when the expression has
known trailing zero bits to the range from the signed minimum up to one past the signed
maximum with its low `TZ` bits cleared. -/
def conservativeResult (BitWidth TZ : Nat) : ConstantRange :=
  if TZ != 0 then
    ⟨APInt.getSignedMinValue BitWidth,
     ⟨BitWidth, ((((APInt.getSignedMaxValue BitWidth).VAL >>> TZ) <<< TZ) % 2 ^ BitWidth + 1)
        % 2 ^ BitWidth⟩⟩
  else ConstantRange.full BitWidth

/-- The interval operation an n-ary expression folds with. -/
def Services.naryOp (sv : Services) : SCEVNAry → ConstantRange → ConstantRange → ConstantRange
  | .Add => sv.add
  | .Mul => sv.multiply
  | .SMax => sv.smax
  | .UMax => sv.umax

/-- The width-changing interval operation of a cast expression. -/
def Services.castOp (sv : Services) : SCEVCast → ConstantRange → Nat → ConstantRange
  | .ZeroExtend => sv.zeroExtend
  | .SignExtend => sv.signExtend
  | .Truncate => sv.truncate

mutual
/-- The source's `HI_VarWidthReduce::HI_getSignedRangeRef` (lines 624-763), with the range
cache passed in and out. -/
def HI_getSignedRangeRef (sv : Services) (S : SCEV) (Cache : RangeCache) :
    ConstantRange × RangeCache :=
  let tmp_CR1 := sv.getSignedRange S
  if !tmp_CR1.isFullSet then (tmp_CR1, Cache)
  else
    match Cache.lookup S.key with
    | some r => (r, Cache)
    | none =>
      let ConservativeResult := conservativeResult S.getTypeSizeInBits (sv.GetMinTrailingZeros S)
      match S with
      | .Constant _ V => setRange S (ConstantRange.single V) Cache
      | .NAry _ kind _ op0 ops =>
        let X := HI_getSignedRangeRef sv op0 Cache
        let R := foldOperands sv (sv.naryOp kind) ops X.1 X.2
        setRange S (sv.intersectWith ConservativeResult R.1) R.2
      | .UDiv _ _ LHS RHS =>
        if bypassPTI LHS then (ConservativeResult, Cache)
        else if bypassPTI RHS then (ConservativeResult, Cache)
        else
          let X := HI_getSignedRangeRef sv LHS Cache
          let Y := HI_getSignedRangeRef sv RHS X.2
          setRange S (sv.intersectWith ConservativeResult (sv.udiv X.1 Y.1)) Y.2
      | .Cast _ kind BitWidth op =>
        if bypassPTI op then (ConservativeResult, Cache)
        else
          let X := HI_getSignedRangeRef sv op Cache
          setRange S (sv.intersectWith ConservativeResult (sv.castOp kind X.1 BitWidth)) X.2
      | .AddRec _ _ => setRange S ConservativeResult Cache
      | .Unknown _ _ _ => setRange S ConservativeResult Cache
/-- The operand loop of the n-ary cases (`for (i = 1; i != e; ++i)`): an operand that
`bypassPTI` accepts is skipped, any other is evaluated and folded into `X`. -/
def foldOperands (sv : Services) (f : ConstantRange → ConstantRange → ConstantRange) :
    List SCEV → ConstantRange → RangeCache → ConstantRange × RangeCache
  | [], X, Cache => (X, Cache)
  | op :: rest, X, Cache =>
    if bypassPTI op then foldOperands sv f rest X Cache
    else
      let R := HI_getSignedRangeRef sv op Cache
      foldOperands sv f rest (f X R.1) R.2
end

/-! ## IR data model -/

/-- Modelled from the spec: a result type is an integer bit width, or non-integer. -/
inductive Ty where
  | integer (BitWidth : Nat)
  | other
deriving DecidableEq, Repr

/-- Modelled from the spec: an operand reference.  The rewriter tells three cases apart:
a `ConstantInt`, an `Instruction` (referred to by its identity), and anything else (a function
argument, a global, another kind of constant), of which only the type matters. -/
inductive Value where
  | inst (id : Nat)
  | constInt (C : APInt)
  | other (ty : Ty)
deriving DecidableEq, Repr

/-- The cast opcodes the pass tells apart. -/
inductive CastOps where
  | Trunc
  | ZExt
  | SExt
  | PtrToInt
  | OtherCast
deriving DecidableEq, Repr

/-- Modelled from the spec: the kind tag of an instruction.  `PHI` carries its incoming blocks
(the incoming values are its operands); `Other` is any other kind, with whether it may read
from memory (a call, for instance). -/
inductive Kind where
  | BinaryOperator (opcode : Nat)
  | ICmp (predicate : Nat)
  | PHI (incomingBlocks : List Nat)
  | Cast (opcode : CastOps)
  | Load
  | Other (mayRead : Bool)
deriving DecidableEq, Repr

/-- Modelled from the spec: an instruction has an identity, a kind tag, a result type and an
ordered sequence of operand references (`llvm::Instruction`, declared outside `src/`). -/
structure Instruction where
  id : Nat
  kind : Kind
  ty : Ty
  operands : List Value
deriving DecidableEq, Repr

/-- A basic block is its ordered instruction sequence. -/
abbrev BasicBlock := List Instruction

/-- A function is its ordered sequence of basic blocks. -/
abbrev IRFunction := List BasicBlock

/-- Ways a run of the pass can fail to produce a result: an assertion of the LLVM library
fails (a `cast<IntegerType>` of a non-integer type, an integer type of width 0, an operand
index out of range, a constructor given operands of different types, a null insertion
point), a loop of the source never ends, or the fuel of a loop of this embedding ran out. -/
inductive Fault where
  | assertion
  | diverges
  | fuel
deriving DecidableEq, Repr

namespace Kind

/-- Whether `dyn_cast<CastInst>` succeeds. -/
def isCast : Kind → Bool
  | Cast _ => true
  | _ => false

/-- Modelled from the spec: a memory-read instruction (`Instruction::mayReadFromMemory`). -/
def mayReadFromMemory : Kind → Bool
  | Load => true
  | Other mayRead => mayRead
  | _ => false

end Kind

/-- The `cast<IntegerType>(T)->getBitWidth()` of the source: fails on a non-integer type. -/
def Ty.getIntegerBitWidth : Ty → Except Fault Nat
  | .integer w => .ok w
  | .other => .error .assertion

/-- The `IntegerType::get(Context, NumBits)` of LLVM, which asserts
`MIN_INT_BITS <= NumBits <= MAX_INT_BITS`. -/
def IntegerType_get (NumBits : Nat) : Except Fault Ty :=
  if 1 ≤ NumBits ∧ NumBits ≤ 16777215 then .ok (.integer NumBits) else .error .assertion

/-- All instructions of a function, in block order. -/
def allInsts (F : IRFunction) : List Instruction := F.flatten

/-- The instruction an identity refers to. -/
def getInst (F : IRFunction) (id : Nat) : Option Instruction :=
  (allInsts F).find? (fun I => I.id == id)

/-- The type of an operand (`Value::getType`). -/
def Value.getType (F : IRFunction) : Value → Except Fault Ty
  | .inst id =>
    match getInst F id with
    | some I => .ok I.ty
    | none => .error .assertion
  | .constInt C => .ok (.integer C.BitWidth)
  | .other ty => .ok ty

/-- The integer width of an operand: `cast<IntegerType>(V->getType())->getBitWidth()`. -/
def Value.width (F : IRFunction) (v : Value) : Except Fault Nat :=
  match v.getType F with
  | .ok ty => ty.getIntegerBitWidth
  | .error e => .error e

/-- The widths of all operands, in order. -/
def widths (F : IRFunction) : List Value → Except Fault (List Nat)
  | [] => .ok []
  | v :: vs =>
    match v.width F with
    | .error e => .error e
    | .ok w =>
      match widths F vs with
      | .error e => .error e
      | .ok ws => .ok (w :: ws)

/-- Whether `dyn_cast<PtrToIntInst>` of an operand succeeds. -/
def isPtrToIntInst (F : IRFunction) : Value → Bool
  | .inst id =>
    match getInst F id with
    | some I => I.kind == .Cast .PtrToInt
    | none => false
  | _ => false

/-- Read of the need table (`Instruction_BitNeeded[&I]`): a missing entry reads as 0. -/
def needOf (tbl : List (Nat × Nat)) (id : Nat) : Nat := (tbl.lookup id).getD 0

/-- Write of the need table (`Instruction_BitNeeded[&I] = v`). -/
def mapSet (id v : Nat) (tbl : List (Nat × Nat)) : List (Nat × Nat) :=
  (id, v) :: tbl.filter (fun p => p.1 != id)

/-- Insert `new` right after the instruction `id` in a block. -/
def insertAfterL (id : Nat) (new : Instruction) : List Instruction → List Instruction
  | [] => []
  | x :: xs => if x.id = id then x :: new :: xs else x :: insertAfterL id new xs

/-- Insert `new` right before the instruction `id` in a block. -/
def insertBeforeL (id : Nat) (new : Instruction) : List Instruction → List Instruction
  | [] => []
  | x :: xs => if x.id = id then new :: x :: xs else x :: insertBeforeL id new xs

def insertAfter (F : IRFunction) (id : Nat) (new : Instruction) : IRFunction :=
  F.map (insertAfterL id new)

def insertBefore (F : IRFunction) (id : Nat) (new : Instruction) : IRFunction :=
  F.map (insertBeforeL id new)

/-- Whether the instruction `id` has a successor in its block (`getNextNode()` is not null). -/
def hasNextL (id : Nat) : List Instruction → Bool
  | [] => false
  | [_] => false
  | x :: y :: xs => if x.id = id then true else hasNextL id (y :: xs)

def hasNextNode (F : IRFunction) (id : Nat) : Bool := F.any (hasNextL id)

/-- The `I.eraseFromParent()` of the source. -/
def eraseFromParent (F : IRFunction) (id : Nat) : IRFunction :=
  F.map (fun B => B.filter (fun I => I.id != id))

/-- Redirect every operand slot that references `frm` to `dst`. -/
def replaceUses (F : IRFunction) (frm : Nat) (dst : Value) : IRFunction :=
  F.map (fun B => B.map (fun I =>
    { I with operands := I.operands.map (fun v => if v = .inst frm then dst else v) }))

/-- Whether some operand slot references `frm` (`!from->use_empty()`). -/
def hasUses (F : IRFunction) (frm : Nat) : Bool :=
  (allInsts F).any (fun I => I.operands.contains (.inst frm))

/-- The source's `HI_VarWidthReduce::ReplaceUsesUnsafe` (lines 314-325): while `from` has a
use, set the first use to `dst` (the source's `to`).  When `dst` is `from` itself and there is a use, the loop never
ends. -/
def ReplaceUsesUnsafe (F : IRFunction) (frm : Nat) (dst : Value) : Except Fault IRFunction :=
  if dst = .inst frm ∧ hasUses F frm = true then .error .diverges
  else .ok (replaceUses F frm dst)

/-! ## Pass state -/

/-- Modelled from the spec: the per-invocation state of the pass, whose declaration
(`HI_VarWidthReduce.h`) is outside `src/`: the function under rewriting, the keys of the map
`Instruction_id` (the mapped counter values are never read), the bitwidth need table
`Instruction_BitNeeded`, the range cache `SignedRanges`, and the next fresh instruction
identity (an instruction the pass creates gets an identity no other instruction has). -/
structure PassState where
  F : IRFunction
  Instruction_id : List Nat
  Instruction_BitNeeded : List (Nat × Nat)
  SignedRanges : RangeCache
  nextId : Nat
deriving DecidableEq, Repr

/-! ## Analysis -/

/-- Body of the loop of `Bitwidth_Analysis` (lines 81-107) for one instruction. -/
def analyseInst (sv : Services) (st : PassState) (I : Instruction) : PassState :=
  match I.ty with
  | .integer BitWidth =>
    let tmp_CR2 := HI_getSignedRangeRef sv (sv.getSCEV I.id) st.SignedRanges
    { st with
      Instruction_id :=
        if I.id ∈ st.Instruction_id then st.Instruction_id else I.id :: st.Instruction_id
      SignedRanges := tmp_CR2.2
      Instruction_BitNeeded :=
        mapSet I.id
          (if I.kind.mayReadFromMemory then BitWidth else bitNeededFor tmp_CR2.1)
          st.Instruction_BitNeeded }
  | .other => st

/-- The analysis loop over a sequence of instructions. -/
def analyseInsts (sv : Services) (Is : List Instruction) (st : PassState) : PassState :=
  Is.foldl (analyseInst sv) st

/-- The source's `HI_VarWidthReduce::Bitwidth_Analysis` (lines 73-111). -/
def Bitwidth_Analysis (sv : Services) (st : PassState) : PassState :=
  analyseInsts sv (allInsts st.F) st

/-! ## Width-cast rewriter -/

/-- The first steps shared by `BOI_WidthCast`, `ICMP_WidthCast` and `PHI_WidthCast` (lines
361-378, 445-462, 536-552): recompute the range of the instruction, and when an operand is a
pointer-to-integer conversion overwrite the recorded need by the declared width.  Gives
whether the lower bound of the range is negative, the need to cast to, and the state. -/
def prepareCast (sv : Services) (st : PassState) (I : Instruction) :
    Except Fault (Bool × Nat × PassState) :=
  let tmp_CR := HI_getSignedRangeRef sv (sv.getSCEV I.id) st.SignedRanges
  let st1 : PassState := { st with SignedRanges := tmp_CR.2 }
  if I.operands.any (isPtrToIntInst st.F) then
    match I.ty.getIntegerBitWidth with
    | .error e => .error e
    | .ok w =>
      let st2 : PassState :=
        { st1 with Instruction_BitNeeded := mapSet I.id w st1.Instruction_BitNeeded }
      .ok (tmp_CR.1.getLower.isNegative, needOf st2.Instruction_BitNeeded I.id, st2)
  else .ok (tmp_CR.1.getLower.isNegative, needOf st1.Instruction_BitNeeded I.id, st1)

/-- One round of the operand loop (lines 380-422): a `ConstantInt` is re-created at the need
width from the low 64-bit word of its value; an instruction operand goes through
`CreateSExtOrTrunc` / `CreateZExtOrTrunc` with the builder placed at the operand's next node
(an extension when it is narrower than the need, a truncation when it is wider, the operand
itself when the widths agree); any other operand is left as it is. -/
def retargetOperand (isNeg : Bool) (need : Nat) (st : PassState) (v : Value) :
    Except Fault (Value × PassState) :=
  match v with
  | .constInt C =>
    match IntegerType_get need with
    | .error e => .error e
    | .ok _ => .ok (.constInt ⟨need, C.VAL % 2 ^ 64 % 2 ^ need⟩, st)
  | .inst id =>
    match getInst st.F id with
    | none => .error .assertion
    | some Op_I =>
      if hasNextNode st.F id = false then .error .assertion
      else
        match IntegerType_get need with
        | .error e => .error e
        | .ok NewTy_OP =>
          match Op_I.ty.getIntegerBitWidth with
          | .error e => .error e
          | .ok w =>
            if w < need then
              let ext : Instruction :=
                ⟨st.nextId, .Cast (if isNeg then .SExt else .ZExt), NewTy_OP, [v]⟩
              .ok (.inst st.nextId,
                { st with F := insertAfter st.F id ext, nextId := st.nextId + 1 })
            else if need < w then
              let tr : Instruction := ⟨st.nextId, .Cast .Trunc, NewTy_OP, [v]⟩
              .ok (.inst st.nextId,
                { st with F := insertAfter st.F id tr, nextId := st.nextId + 1 })
            else .ok (v, st)
  | .other _ => .ok (v, st)

/-- The operand loop (`for (i = 0; i < I.getNumOperands(); ++i)`): the operands
`I.setOperand(i, ..)` leaves in `I`, in order, and the state with the casts inserted. -/
def retargetOperands (isNeg : Bool) (need : Nat) :
    List Value → PassState → Except Fault (List Value × PassState)
  | [], st => .ok ([], st)
  | v :: vs, st =>
    match retargetOperand isNeg need st v with
    | .error e => .error e
    | .ok (v', st') =>
      match retargetOperands isNeg need vs st' with
      | .error e => .error e
      | .ok (vs', st'') => .ok (v' :: vs', st'')

/-- The last steps shared by the three rewrites: the new instruction is inserted before the
old one, the uses of the old one are redirected to it, the old one is erased. -/
def replaceInst (st : PassState) (I : Instruction) (new : Instruction) : Except Fault PassState :=
  match ReplaceUsesUnsafe (insertBefore st.F I.id new) I.id (.inst new.id) with
  | .error e => .error e
  | .ok F2 => .ok { st with F := eraseFromParent F2 I.id, nextId := st.nextId + 1 }

/-- The source's `HI_VarWidthReduce::BOI_WidthCast` (lines 359-438).  `BinaryOperator::Create`
gives the new instruction the type of operand 0 and asserts that both operands have the same
type. -/
def BOI_WidthCast (sv : Services) (st : PassState) (I : Instruction) (opcode : Nat) :
    Except Fault PassState :=
  match prepareCast sv st I with
  | .error e => .error e
  | .ok (isNeg, need, st1) =>
    match retargetOperands isNeg need I.operands st1 with
    | .error e => .error e
    | .ok (ops, st2) =>
      match ops with
      | [op0, op1] =>
        match op0.getType st2.F, op1.getType st2.F with
        | .ok t0, .ok t1 =>
          if t0 = t1 then
            replaceInst st2 I ⟨st2.nextId, .BinaryOperator opcode, t0, [op0, op1]⟩
          else .error .assertion
        | _, _ => .error .assertion
      | _ => .error .assertion

/-- The source's `HI_VarWidthReduce::ICMP_WidthCast` (lines 443-530).  The `ICmpInst`
constructor gives the new comparison the one-bit predicate type and asserts that both
operands have the same integer type. -/
def ICMP_WidthCast (sv : Services) (st : PassState) (I : Instruction) (predicate : Nat) :
    Except Fault PassState :=
  match prepareCast sv st I with
  | .error e => .error e
  | .ok (isNeg, need, st1) =>
    match retargetOperands isNeg need I.operands st1 with
    | .error e => .error e
    | .ok (ops, st2) =>
      match ops with
      | [op0, op1] =>
        match op0.getType st2.F, op1.getType st2.F with
        | .ok (.integer w0), .ok (.integer w1) =>
          if w0 = w1 then
            replaceInst st2 I ⟨st2.nextId, .ICmp predicate, .integer 1, [op0, op1]⟩
          else .error .assertion
        | _, _ => .error .assertion
      | _ => .error .assertion

/-- Whether every incoming value has the type of the new phi (asserted by `addIncoming`). -/
def allOfType (F : IRFunction) (ty : Ty) : List Value → Bool
  | [] => true
  | v :: vs =>
    match v.getType F with
    | .ok t => decide (t = ty) && allOfType F ty vs
    | .error _ => false

/-- The source's `HI_VarWidthReduce::PHI_WidthCast` (lines 534-620).  The log lines 599-600
read operands 0 and 1, so the node must have two operands; `addIncoming` asserts that each
incoming value has the type of the new node. -/
def PHI_WidthCast (sv : Services) (st : PassState) (I : Instruction) (blocks : List Nat) :
    Except Fault PassState :=
  match prepareCast sv st I with
  | .error e => .error e
  | .ok (isNeg, need, st1) =>
    match retargetOperands isNeg need I.operands st1 with
    | .error e => .error e
    | .ok (ops, st2) =>
      if ops.length < 2 then .error .assertion
      else
        match IntegerType_get need with
        | .error e => .error e
        | .ok NewTy_PHI =>
          if allOfType st2.F NewTy_PHI ops then
            replaceInst st2 I ⟨st2.nextId, .PHI blocks, NewTy_PHI, ops⟩
          else .error .assertion

/-- The test of lines 153-161: for a comparison, whether its two operands have the same
width; false for any other kind. -/
def sameWidthCmp (F : IRFunction) (I : Instruction) : Except Fault Bool :=
  match I.kind with
  | .ICmp _ =>
    match I.operands with
    | a :: b :: _ =>
      match a.width F, b.width F with
      | .ok wa, .ok wb => .ok (wa == wb)
      | _, _ => .error .assertion
    | _ => .error .assertion
  | _ => .ok false

/-- The test of lines 163-176: the need equals the result width and every operand has the
need as its width. -/
def allSameWidth (F : IRFunction) (need curBW : Nat) (I : Instruction) : Except Fault Bool :=
  if need = curBW then
    match widths F I.operands with
    | .error e => .error e
    | .ok ws => .ok (ws.all (fun w => w == need))
  else .ok false

/-- Body of the scan loop (lines 128-214) for one instruction: the state, the `changed` flag
and whether the scan breaks off (`take_action`). -/
def visit (sv : Services) (st : PassState) (changed : Bool) (I : Instruction) :
    Except Fault (PassState × Bool × Bool) :=
  if I.id ∈ st.Instruction_id then
    let st0 : PassState :=
      { st with Instruction_id := st.Instruction_id.filter (fun k => k != I.id) }
    if I.kind.isCast then .ok (st0, changed, false)
    else
      match I.ty with
      | .other => .ok (st0, changed, false)
      | .integer curBW =>
        if I.kind.mayReadFromMemory then .ok (st0, true, false)
        else
          match sameWidthCmp st0.F I with
          | .error e => .error e
          | .ok true => .ok (st0, true, false)
          | .ok false =>
            match allSameWidth st0.F (needOf st0.Instruction_BitNeeded I.id) curBW I with
            | .error e => .error e
            | .ok true => .ok (st0, true, false)
            | .ok false =>
              match I.kind with
              | .BinaryOperator opcode =>
                match BOI_WidthCast sv st0 I opcode with
                | .error e => .error e
                | .ok st1 => .ok (st1, true, true)
              | .ICmp predicate =>
                match ICMP_WidthCast sv st0 I predicate with
                | .error e => .error e
                | .ok st1 => .ok (st1, true, true)
              | .PHI blocks =>
                match PHI_WidthCast sv st0 I blocks with
                | .error e => .error e
                | .ok st1 => .ok (st1, true, true)
              | _ => .ok (st0, true, false)
  else .ok (st, changed, false)

/-- One scan of a block (`for (Instruction &I : B)`), up to the first `break`. -/
def scanBlock (sv : Services) :
    List Instruction → PassState → Bool → Except Fault (PassState × Bool × Bool)
  | [], st, changed => .ok (st, changed, false)
  | I :: rest, st, changed =>
    match visit sv st changed I with
    | .error e => .error e
    | .ok (st1, changed1, true) => .ok (st1, changed1, true)
    | .ok (st1, changed1, false) => scanBlock sv rest st1 changed1

/-- The `while (take_action)` loop on block number `b`. -/
def rewriteBlock (sv : Services) (b : Nat) :
    Nat → PassState → Bool → Except Fault (PassState × Bool)
  | 0, _, _ => .error .fuel
  | fuel + 1, st, changed =>
    match scanBlock sv (st.F.getD b []) st changed with
    | .error e => .error e
    | .ok (st1, changed1, true) => rewriteBlock sv b fuel st1 changed1
    | .ok (st1, changed1, false) => .ok (st1, changed1)

/-- The `for (BasicBlock &B : *F)` loop: `n` blocks from block number `b` on. -/
def rewriteBlocks (sv : Services) :
    Nat → Nat → PassState → Bool → Except Fault (PassState × Bool)
  | 0, _, st, changed => .ok (st, changed)
  | n + 1, b, st, changed =>
    match rewriteBlock sv b (st.Instruction_id.length + 1) st changed with
    | .error e => .error e
    | .ok (st1, changed1) => rewriteBlocks sv n (b + 1) st1 changed1

/-- The source's `HI_VarWidthReduce::InsturctionUpdate_WidthCast` (lines 115-221). -/
def InsturctionUpdate_WidthCast (sv : Services) (st : PassState) :
    Except Fault (PassState × Bool) :=
  rewriteBlocks sv st.F.length 0 st false

/-! ## Redundant-cast elimination -/

/-- The test of lines 238-246: a truncate / zero-extend / sign-extend cast whose result width
equals the width of its operand 0. -/
def isRedundantCast (F : IRFunction) (I : Instruction) : Except Fault Bool :=
  match I.kind with
  | .Cast opcode =>
    if opcode ≠ .Trunc ∧ opcode ≠ .ZExt ∧ opcode ≠ .SExt then .ok false
    else
      match I.ty.getIntegerBitWidth, I.operands with
      | .ok w, v :: _ =>
        match v.width F with
        | .ok wv => .ok (w == wv)
        | .error e => .error e
      | _, _ => .error .assertion
  | _ => .ok false

/-- One scan of a block in `RedundantCastRemove`: the function after the first removal, or
`none` when the scan finds nothing to remove. -/
def scanCasts (F : IRFunction) : List Instruction → Except Fault (Option IRFunction)
  | [] => .ok none
  | I :: rest =>
    match isRedundantCast F I with
    | .error e => .error e
    | .ok false => scanCasts F rest
    | .ok true =>
      match I.operands with
      | [] => .error .assertion
      | v :: _ =>
        match ReplaceUsesUnsafe F I.id v with
        | .error e => .error e
        | .ok F1 => .ok (some (eraseFromParent F1 I.id))

/-- The `while (rmflag)` loop on block number `b`. -/
def removeInBlock (b : Nat) : Nat → IRFunction → Bool → Except Fault (IRFunction × Bool)
  | 0, _, _ => .error .fuel
  | fuel + 1, F, changed =>
    match scanCasts F (F.getD b []) with
    | .error e => .error e
    | .ok (some F1) => removeInBlock b fuel F1 true
    | .ok none => .ok (F, changed)

/-- The `for (BasicBlock &B : *F)` loop: `n` blocks from block number `b` on. -/
def removeInBlocks : Nat → Nat → IRFunction → Bool → Except Fault (IRFunction × Bool)
  | 0, _, F, changed => .ok (F, changed)
  | n + 1, b, F, changed =>
    match removeInBlock b ((F.getD b []).length + 1) F changed with
    | .error e => .error e
    | .ok (F1, changed1) => removeInBlocks n (b + 1) F1 changed1

/-- The source's `HI_VarWidthReduce::RedundantCastRemove` (lines 225-262). -/
def RedundantCastRemove (F : IRFunction) : Except Fault (IRFunction × Bool) :=
  removeInBlocks F.length 0 F false

/-! ## The pass -/

/-- The source's `HI_VarWidthReduce::runOnFunction` (lines 27-57).
`VarWidthReduce_Validation` only writes to the log and is left out. -/
def runOnFunction (sv : Services) (st : PassState) : Except Fault (PassState × Bool) :=
  match InsturctionUpdate_WidthCast sv (Bitwidth_Analysis sv st) with
  | .error e => .error e
  | .ok (st2, changed1) =>
    match RedundantCastRemove st2.F with
    | .error e => .error e
    | .ok (F3, changed2) => .ok ({ st2 with F := F3 }, changed1 || changed2)

/-! ## Auxiliary notions for the frame properties -/

/-- The kinds and types of the instructions of a block that carry identity `j`. -/
def sel (j : Nat) (B : List Instruction) : List (Kind × Ty) :=
  (B.filter (fun X => X.id == j)).map (fun X => (X.kind, X.ty))

/-- Block by block, the kinds and types of the instructions that carry identity `j`. -/
def view (j : Nat) (F : IRFunction) : List (List (Kind × Ty)) := F.map (sel j)

/-- Every instruction that carries identity `j` may read from memory. -/
def Safe (j : Nat) (F : IRFunction) : Prop :=
  ∀ s ∈ view j F, ∀ p ∈ s, p.1.mayReadFromMemory = true


/-- Every instruction identity of the function is below `n`. -/
def Fresh (F : IRFunction) (n : Nat) : Prop := ∀ X ∈ allInsts F, X.id < n

/-- The number of instructions of the function that carry identity `k`. -/
def cnt (k : Nat) (F : IRFunction) : Nat := (view k F).flatten.length

/-- Instruction identities are unique, and all of them are below `n`. -/
def IdsOk (F : IRFunction) (n : Nat) : Prop :=
  (∀ k, cnt k F ≤ 1) ∧ (∀ k, n ≤ k → cnt k F = 0)

/-- No removable cast is left in the blocks before block number `b`: a scan of
`RedundantCastRemove` over any of them finds nothing. -/
def CleanUpTo (b : Nat) (F : IRFunction) : Prop :=
  ∀ i, i < b → scanCasts F (F.getD i []) = .ok none

/-- The operand redirection `ReplaceUsesUnsafe` applies to one instruction. -/
def redirect (frm : Nat) (dst : Value) (I : Instruction) : Instruction :=
  { I with operands := I.operands.map (fun v => if v = .inst frm then dst else v) }

/-- The instruction needs no rewrite: it is not integer-typed, or a cast, or a memory read;
or a comparison whose two operands have the same width (the test of lines 153-161); or a
binary operator or phi whose result width and operand widths all equal its recorded need (the
test of lines 163-176); or of any other kind, the width test raising no assertion. -/
def settled (F : IRFunction) (tbl : List (Nat × Nat)) (I : Instruction) : Bool :=
  match I.ty with
  | .other => true
  | .integer curBW =>
    match I.kind with
    | .Cast _ => true
    | .Load => true
    | .Other true => true
    | .Other false =>
      match allSameWidth F (needOf tbl I.id) curBW I with
      | .ok _ => true
      | .error _ => false
    | .ICmp _ =>
      match sameWidthCmp F I with
      | .ok true => true
      | _ => false
    | .BinaryOperator _ =>
      match allSameWidth F (needOf tbl I.id) curBW I with
      | .ok true => true
      | _ => false
    | .PHI _ =>
      match allSameWidth F (needOf tbl I.id) curBW I with
      | .ok true => true
      | _ => false

/-! ## Worked examples -/

/-- Services for the worked examples: the expression of an instruction is an opaque
`SCEVUnknown`, its range is read from a table (the full set of width `dflt` when the table
has no entry), and the interval operations, which no example reaches, return their first
argument. -/
def tableServices (tbl : List (Nat × ConstantRange)) (dflt : Nat) : Services where
  getSCEV := fun id =>
    .Unknown id (match tbl.lookup id with
      | some CR => CR.getBitWidth
      | none => dflt) false
  getSignedRange := fun S =>
    match tbl.lookup S.key with
    | some CR => CR
    | none => ConstantRange.full S.getTypeSizeInBits
  GetMinTrailingZeros := fun _ => 0
  add := fun a _ => a
  multiply := fun a _ => a
  smax := fun a _ => a
  umax := fun a _ => a
  udiv := fun a _ => a
  zeroExtend := fun a _ => a
  signExtend := fun a _ => a
  truncate := fun a _ => a
  intersectWith := fun a _ => a

/-- A block with a 32-bit load (1), an addition of the load and a constant (2) and a
terminator that uses the sum (3). -/
def loadAddF : IRFunction :=
  [[⟨1, .Load, .integer 32, [.other .other]⟩,
    ⟨2, .BinaryOperator 13, .integer 32, [.inst 1, .constInt ⟨32, 1⟩]⟩,
    ⟨3, .Other false, .other, [.inst 2]⟩]]

/-- Ranges for `loadAddF`: the load lies in `[0, 8)`, the sum in `[0, 16)`. -/
def loadAddSv : Services :=
  tableServices [(1, ⟨⟨32, 0⟩, ⟨32, 8⟩⟩), (2, ⟨⟨32, 0⟩, ⟨32, 16⟩⟩)] 32

/-- A state for `loadAddF` whose need table asks for 3 bits for the load and 5 for the sum. -/
def loadAddSt : PassState := ⟨loadAddF, [1, 2], [(1, 3), (2, 5)], [], 10⟩

/-- The function `loadAddF` after the rewriter: the load is truncated to 5 bits (10) and the
addition is rebuilt at 5 bits (11). -/
def loadAddF1 : IRFunction :=
  [[⟨1, .Load, .integer 32, [.other .other]⟩,
    ⟨10, .Cast .Trunc, .integer 5, [.inst 1]⟩,
    ⟨11, .BinaryOperator 13, .integer 5, [.inst 10, .constInt ⟨5, 1⟩]⟩,
    ⟨3, .Other false, .other, [.inst 11]⟩]]

/-- A block with an 8-bit load (1), its zero-extension to 32 bits (2), a 32-bit select-like
instruction of another kind that uses the extension (3), and a terminator (4). -/
def castF : IRFunction :=
  [[⟨1, .Load, .integer 8, [.other .other]⟩,
    ⟨2, .Cast .ZExt, .integer 32, [.inst 1]⟩,
    ⟨3, .Other false, .integer 32, [.other (.integer 1), .inst 2, .constInt ⟨32, 0⟩]⟩,
    ⟨4, .Other false, .other, [.inst 3]⟩]]

/-- Ranges for `castF`: all three values lie in `[0, 200)`. -/
def castSv : Services :=
  tableServices [(1, ⟨⟨8, 0⟩, ⟨8, 200⟩⟩), (2, ⟨⟨32, 0⟩, ⟨32, 200⟩⟩),
    (3, ⟨⟨32, 0⟩, ⟨32, 200⟩⟩)] 32

/-- Ranges for `loadAddF` and for the instructions the rewriter adds to it: the truncation
(10) has the full 5-bit range and the rebuilt sum (11) lies in `[0, 16)`. -/
def loadAddSv2 : Services :=
  tableServices [(1, ⟨⟨32, 0⟩, ⟨32, 8⟩⟩), (2, ⟨⟨32, 0⟩, ⟨32, 16⟩⟩),
    (10, ConstantRange.full 5), (11, ⟨⟨5, 0⟩, ⟨5, 16⟩⟩)] 32

/-- A loop: the entry block loads a 32-bit value (6); the loop header has a 32-bit phi (1) of
the loaded value and of the value (2), where (2) masks the phi with 15; a terminator ends
each block. -/
def phiLoopF : IRFunction :=
  [[⟨6, .Load, .integer 32, [.other .other]⟩,
    ⟨0, .Other false, .other, []⟩],
   [⟨1, .PHI [0, 1], .integer 32, [.inst 6, .inst 2]⟩,
    ⟨2, .BinaryOperator 28, .integer 32, [.inst 1, .constInt ⟨32, 15⟩]⟩,
    ⟨5, .Other false, .other, []⟩]]

/-- Ranges for `phiLoopF`: nothing is known of the load and the phi (full set), the masked
value lies in
`[0, 16)`, also after it is rebuilt at 5 bits (11); the truncation (10) has the full 5-bit
range. -/
def phiLoopSv : Services :=
  tableServices [(2, ⟨⟨32, 0⟩, ⟨32, 16⟩⟩), (10, ConstantRange.full 5),
    (11, ⟨⟨5, 0⟩, ⟨5, 16⟩⟩)] 32

/-- The function `phiLoopF` after one run of the pass body: the masked value is rebuilt at 5
bits (11) from a truncation of the phi (10), and the phi now takes the 5-bit value. -/
def phiLoopF1 : IRFunction :=
  [[⟨6, .Load, .integer 32, [.other .other]⟩,
    ⟨0, .Other false, .other, []⟩],
   [⟨1, .PHI [0, 1], .integer 32, [.inst 6, .inst 11]⟩,
    ⟨10, .Cast .Trunc, .integer 5, [.inst 1]⟩,
    ⟨11, .BinaryOperator 28, .integer 5, [.inst 10, .constInt ⟨5, 15⟩]⟩,
    ⟨5, .Other false, .other, []⟩]]

/-- The function after a second run: the phi is replaced by a new phi (13) fed by a
sign-extension (12) of the 5-bit value. -/
def phiLoopF2 : IRFunction :=
  [[⟨6, .Load, .integer 32, [.other .other]⟩,
    ⟨0, .Other false, .other, []⟩],
   [⟨13, .PHI [0, 1], .integer 32, [.inst 6, .inst 12]⟩,
    ⟨10, .Cast .Trunc, .integer 5, [.inst 13]⟩,
    ⟨11, .BinaryOperator 28, .integer 5, [.inst 10, .constInt ⟨5, 15⟩]⟩,
    ⟨12, .Cast .SExt, .integer 32, [.inst 11]⟩,
    ⟨5, .Other false, .other, []⟩]]

/-- A block with an 8-bit load (1), a 4-bit load (2), a comparison of the two (3) and a
terminator that uses the comparison (4). -/
def cmpF : IRFunction :=
  [[⟨1, .Load, .integer 8, [.other .other]⟩,
    ⟨2, .Load, .integer 4, [.other .other]⟩,
    ⟨3, .ICmp 40, .integer 1, [.inst 1, .inst 2]⟩,
    ⟨4, .Other false, .other, [.inst 3]⟩]]

/-- Services for `cmpF`: nothing is known of any value. -/
def cmpSv : Services := tableServices [] 1

/-- A state for `cmpF` in which the comparison is registered with a recorded need of 4. -/
def cmpSt : PassState := ⟨cmpF, [3], [(3, 4)], [], 10⟩

/-- The function `cmpF` after the comparison is rewritten: the 8-bit load is truncated to 4
bits (10) and the comparison is rebuilt (11) on the truncation and the 4-bit load. -/
def cmpF1 : IRFunction :=
  [[⟨1, .Load, .integer 8, [.other .other]⟩,
    ⟨10, .Cast .Trunc, .integer 4, [.inst 1]⟩,
    ⟨2, .Load, .integer 4, [.other .other]⟩,
    ⟨11, .ICmp 40, .integer 1, [.inst 10, .inst 2]⟩,
    ⟨4, .Other false, .other, [.inst 11]⟩]]

/-- A block with a pointer-to-integer conversion (1), a 64-bit addition of the conversion and
a constant (2) and a terminator that uses the sum (3). -/
def ptrF : IRFunction :=
  [[⟨1, .Cast .PtrToInt, .integer 64, [.other .other]⟩,
    ⟨2, .BinaryOperator 13, .integer 64, [.inst 1, .constInt ⟨64, 8⟩]⟩,
    ⟨3, .Other false, .other, [.inst 2]⟩]]

/-- Ranges for `ptrF`: the sum lies in `[0, 100)`. -/
def ptrSv : Services := tableServices [(2, ⟨⟨64, 0⟩, ⟨64, 100⟩⟩)] 64

/-- A state for `ptrF` in which the addition is registered with a recorded need of 7. -/
def ptrSt : PassState := ⟨ptrF, [2], [(2, 7)], [], 10⟩

/-- The function `ptrF` after the addition is rewritten: the addition is rebuilt (10) at 64
bits on the same operands, and no cast is inserted. -/
def ptrF1 : IRFunction :=
  [[⟨1, .Cast .PtrToInt, .integer 64, [.other .other]⟩,
    ⟨10, .BinaryOperator 13, .integer 64, [.inst 1, .constInt ⟨64, 8⟩]⟩,
    ⟨3, .Other false, .other, [.inst 10]⟩]]

/-- Services for `loadAddF` under which nothing is known of any value: every range is the
full 32-bit set, so every recorded need is 32. -/
def agreeSv : Services := tableServices [] 32

/-- A block in which a cast of eight bits to eight bits (1) takes itself as its operand. -/
def selfCastF : IRFunction :=
  [[⟨0, .Other false, .other, []⟩],
   [⟨1, .Cast .Trunc, .integer 8, [.inst 1]⟩,
    ⟨2, .Other false, .other, []⟩]]

/-- Scenario D: a block with an 8-bit load (1), a truncation of the load to 8 bits (2), an
addition that uses the truncation and the load (3) and a terminator (4). -/
def redCastF : IRFunction :=
  [[⟨1, .Load, .integer 8, [.other .other]⟩,
    ⟨2, .Cast .Trunc, .integer 8, [.inst 1]⟩,
    ⟨3, .BinaryOperator 13, .integer 8, [.inst 2, .inst 1]⟩,
    ⟨4, .Other false, .other, [.inst 3]⟩]]

/-- The function `redCastF` after the truncation is removed. -/
def redCastF1 : IRFunction :=
  [[⟨1, .Load, .integer 8, [.other .other]⟩,
    ⟨3, .BinaryOperator 13, .integer 8, [.inst 1, .inst 1]⟩,
    ⟨4, .Other false, .other, [.inst 3]⟩]]

/-- A block with an 8-bit load (1), an addition of the load and the constant -1 (2) and a
terminator that uses the sum (3). -/
def negF : IRFunction :=
  [[⟨1, .Load, .integer 8, [.other .other]⟩,
    ⟨2, .BinaryOperator 13, .integer 8, [.inst 1, .constInt ⟨8, 255⟩]⟩,
    ⟨3, .Other false, .other, [.inst 2]⟩]]

/-- Ranges for `negF`: the sum lies in `[-5, 5)`. -/
def negSv : Services := tableServices [(2, ⟨⟨8, 251⟩, ⟨8, 5⟩⟩)] 8

/-- A state for `negF` whose need table asks for 16 bits for the sum. -/
def negSt : PassState := ⟨negF, [2], [(2, 16)], [], 10⟩

/-- The function `negF` after the addition is rewritten at 16 bits: the load is sign-extended
(10), the constant is re-created with the value 255. -/
def negF1 : IRFunction :=
  [[⟨1, .Load, .integer 8, [.other .other]⟩,
    ⟨10, .Cast .SExt, .integer 16, [.inst 1]⟩,
    ⟨11, .BinaryOperator 13, .integer 16, [.inst 10, .constInt ⟨16, 255⟩]⟩,
    ⟨3, .Other false, .other, [.inst 11]⟩]]

/-- The function `loadAddF` after the first round of the operand loop on the addition: the
load is truncated to 5 bits right after it (10). -/
def loadAddFm : IRFunction :=
  [[⟨1, .Load, .integer 32, [.other .other]⟩,
    ⟨10, .Cast .Trunc, .integer 5, [.inst 1]⟩,
    ⟨2, .BinaryOperator 13, .integer 32, [.inst 1, .constInt ⟨32, 1⟩]⟩,
    ⟨3, .Other false, .other, [.inst 2]⟩]]

/-- A block with an 8-bit load (1), a truncation of the load to 8 bits (2), a zero-extension
of the truncation to 16 bits (3) and a terminator that uses the extension (4). -/
def mixCastF : IRFunction :=
  [[⟨1, .Load, .integer 8, [.other .other]⟩,
    ⟨2, .Cast .Trunc, .integer 8, [.inst 1]⟩,
    ⟨3, .Cast .ZExt, .integer 16, [.inst 2]⟩,
    ⟨4, .Other false, .other, [.inst 3]⟩]]

/-! ## The n-ary fold as the specification words it -/

/-- The fold the specification describes for an n-ary expression: the interval operation `f`
folded left to right over the ranges of exactly those operands that are not pointer-to-integer
conversions, a pointer-to-integer operand being skipped at every position, the first
included.  No range when every operand is skipped. -/
def specNAryFold (f : ConstantRange → ConstantRange → ConstantRange)
    (rangeOf : SCEV → ConstantRange) (operands : List SCEV) : Option ConstantRange :=
  match operands.filter (fun op => !bypassPTI op) with
  | [] => none
  | op :: rest => some (rest.foldl (fun X o => f X (rangeOf o)) (rangeOf op))

/-- Services for the n-ary example: the engine knows the range `[0, 16)` of the value with
identity 2 (a call result with range metadata) and nothing of any other expression; `add` is
the interval addition of `llvm::ConstantRange` (the full set when either side is the full
set, else the sums of the bounds); `intersectWith` is given for the case the example reaches,
where its left side is the full set. -/
def foldSv : Services where
  getSCEV := fun id => .Unknown id 64 false
  getSignedRange := fun S =>
    if S.key = 2 then ⟨⟨64, 0⟩, ⟨64, 16⟩⟩ else ConstantRange.full S.getTypeSizeInBits
  GetMinTrailingZeros := fun _ => 0
  add := fun a b =>
    if a.isFullSet || b.isFullSet then ConstantRange.full a.getBitWidth
    else ⟨⟨a.getBitWidth, (a.Lower.VAL + b.Lower.VAL) % 2 ^ a.getBitWidth⟩,
          ⟨a.getBitWidth, (a.Upper.VAL + b.Upper.VAL - 1) % 2 ^ a.getBitWidth⟩⟩
  multiply := fun a _ => a
  smax := fun a _ => a
  umax := fun a _ => a
  udiv := fun a _ => a
  zeroExtend := fun a _ => a
  signExtend := fun a _ => a
  truncate := fun a _ => a
  intersectWith := fun a b => if a.isFullSet then b else a

/-- The 64-bit sum of a pointer-to-integer conversion (operand 0, identity 1) and the value
with identity 2. -/
def foldS : SCEV := .NAry 0 .Add 64 (.Unknown 1 64 true) [.Unknown 2 64 false]

/-! ## Well-formedness of the casts of a function -/

/-- Truncate, zero-extend or sign-extend: the casts `RedundantCastRemove` looks at (the test
of lines 238-241). -/
def Kind.isWidthCast : Kind → Bool
  | .Cast .Trunc => true
  | .Cast .ZExt => true
  | .Cast .SExt => true
  | _ => false

/-- Every truncate / zero-extend / sign-extend of the function has an integer result type and
an operand 0 that has an integer width. -/
def CastsTyped (F : IRFunction) : Prop :=
  ∀ X ∈ allInsts F, X.kind.isWidthCast = true →
    ∃ w v rest wv, X.ty = .integer w ∧ X.operands = v :: rest ∧ v.width F = .ok wv

/-- No chain of casts leads back into itself: `rank` goes down from each truncate /
zero-extend / sign-extend to the instruction that is its operand 0, as the position of the
definition does where definitions come before their uses. -/
def CastsOrdered (rank : Nat → Nat) (F : IRFunction) : Prop :=
  ∀ X ∈ allInsts F, X.kind.isWidthCast = true →
    ∀ k rest, X.operands = .inst k :: rest → rank k < rank X.id

/-- An operand the operand loop can bring to the width `need`: an integer constant; an
instruction of integer type that has a next node in its block (where the cast is built); or
any other value that already has the integer type of width `need`. -/
def Castable (F : IRFunction) (need : Nat) : Value → Prop
  | .constInt _ => True
  | .inst id => hasNextNode F id = true ∧ ∃ w, (Value.inst id).getType F = .ok (.integer w)
  | .other ty => ty = .integer need

/-! ## Counting the replacements of the rewriter -/

/-- Whether a type is an integer type (`Type::isIntegerTy`). -/
def Ty.isIntegerTy : Ty → Bool
  | .integer _ => true
  | .other => false

/-- The number of instructions of a block that are registered: those whose identity is in the
pending set `ids` (the keys of `Instruction_id`). -/
def pendingIn (ids : List Nat) (B : List Instruction) : Nat :=
  (B.filter (fun X => decide (X.id ∈ ids))).length

/-- The `while (take_action)` loop on block number `b`, as `rewriteBlock`, with a count of the
scans that ended in a replacement (`take_action = 1`). -/
def rewriteBlockCount (sv : Services) (b : Nat) :
    Nat → PassState → Bool → Except Fault (PassState × Bool × Nat)
  | 0, _, _ => .error .fuel
  | fuel + 1, st, changed =>
    match scanBlock sv (st.F.getD b []) st changed with
    | .error e => .error e
    | .ok (st1, changed1, true) =>
      match rewriteBlockCount sv b fuel st1 changed1 with
      | .error e => .error e
      | .ok (st2, changed2, k) => .ok (st2, changed2, k + 1)
    | .ok (st1, changed1, false) => .ok (st1, changed1, 0)

/-- The `for (BasicBlock &B : *F)` loop, as `rewriteBlocks`, with the count of replacements
of each block, in block order. -/
def rewriteBlocksCount (sv : Services) :
    Nat → Nat → PassState → Bool → Except Fault (PassState × Bool × List Nat)
  | 0, _, st, changed => .ok (st, changed, [])
  | n + 1, b, st, changed =>
    match rewriteBlockCount sv b (st.Instruction_id.length + 1) st changed with
    | .error e => .error e
    | .ok (st1, changed1, k) =>
      match rewriteBlocksCount sv n (b + 1) st1 changed1 with
      | .error e => .error e
      | .ok (st2, changed2, ks) => .ok (st2, changed2, k :: ks)

/-! ## A binary operator on two function arguments -/

/-- A block with an addition of two 32-bit function arguments (2) and a terminator that uses
the sum (3). -/
def argAddF : IRFunction :=
  [[⟨2, .BinaryOperator 13, .integer 32, [.other (.integer 32), .other (.integer 32)]⟩,
    ⟨3, .Other false, .other, [.inst 2]⟩]]

/-- Ranges for `argAddF`: the sum lies in `[0, 16)`. -/
def argAddSv : Services := tableServices [(2, ⟨⟨32, 0⟩, ⟨32, 16⟩⟩)] 32

/-- The function `argAddF` after the rewriter: the addition is rebuilt under a new identity
(10) from the same two arguments, at their 32 bits. -/
def argAddF1 : IRFunction :=
  [[⟨10, .BinaryOperator 13, .integer 32, [.other (.integer 32), .other (.integer 32)]⟩,
    ⟨3, .Other false, .other, [.inst 10]⟩]]

/-! ## Lemmas on bit counts -/

theorem mod_succ_of_testBit_false (w v : Nat) (h : v.testBit w = false) :
    v % 2 ^ (w + 1) = v % 2 ^ w := by
  rw [Nat.mod_pow_succ]
  rw [Nat.testBit_to_div_mod] at h
  have : v / 2 ^ w % 2 = 0 := by
    have := Nat.mod_two_eq_zero_or_one (v / 2 ^ w)
    simp at h
    omega
  simp [this]

theorem mod_succ_of_testBit_true (w v : Nat) (h : v.testBit w = true) :
    v % 2 ^ (w + 1) = v % 2 ^ w + 2 ^ w := by
  rw [Nat.mod_pow_succ]
  rw [Nat.testBit_to_div_mod] at h
  simp at h
  simp [h]

theorem mod_lt_pow_sub_clz (w v : Nat) : v % 2 ^ w < 2 ^ (w - countLeadingZerosAux w v) := by
  induction w with
  | zero => simp [countLeadingZerosAux, Nat.mod_one]
  | succ w ih =>
    unfold countLeadingZerosAux
    by_cases h : v.testBit w = true
    · simp only [h, if_true, Nat.sub_zero]
      exact Nat.mod_lt _ (by positivity)
    · have h' : v.testBit w = false := by simpa using h
      simp only [h', Bool.false_eq_true, if_false, Nat.add_sub_add_right]
      rw [mod_succ_of_testBit_false w v h']
      exact ih

theorem pow_sub_clo_le_mod (w v : Nat) :
    2 ^ w - 2 ^ (w - countLeadingOnesAux w v) ≤ v % 2 ^ w := by
  induction w with
  | zero => simp [countLeadingOnesAux]
  | succ w ih =>
    unfold countLeadingOnesAux
    by_cases h : v.testBit w = true
    · simp only [h, if_true, Nat.add_sub_add_right]
      rw [mod_succ_of_testBit_true w v h, pow_succ]
      omega
    · have h' : v.testBit w = false := by simpa using h
      simp [h']

theorem clz_pos_of_testBit_false (w v : Nat) (h : v.testBit w = false) :
    0 < countLeadingZerosAux (w + 1) v := by
  simp [countLeadingZerosAux, h]

theorem clo_pos_of_testBit_true (w v : Nat) (h : v.testBit w = true) :
    0 < countLeadingOnesAux (w + 1) v := by
  simp [countLeadingOnesAux, h]

theorem clz_le (w v : Nat) : countLeadingZerosAux w v ≤ w := by
  induction w with
  | zero => simp [countLeadingZerosAux]
  | succ w ih => unfold countLeadingZerosAux; split <;> omega

theorem clo_le (w v : Nat) : countLeadingOnesAux w v ≤ w := by
  induction w with
  | zero => simp [countLeadingOnesAux]
  | succ w ih => unfold countLeadingOnesAux; split <;> omega

theorem APInt.lt_pow_getActiveBits (a : APInt) (h : a.WF) : a.VAL < 2 ^ a.getActiveBits := by
  have := mod_lt_pow_sub_clz a.BitWidth a.VAL
  rwa [Nat.mod_eq_of_lt h.2] at this

theorem APInt.getActiveBits_le (a : APInt) : a.getActiveBits ≤ a.BitWidth := by
  unfold APInt.getActiveBits; omega

theorem APInt.getMinSignedBits_le (a : APInt) (h : a.WF) : a.getMinSignedBits ≤ a.BitWidth := by
  obtain ⟨hw, _⟩ := h
  obtain ⟨w, hw'⟩ : ∃ w, a.BitWidth = w + 1 := ⟨a.BitWidth - 1, by omega⟩
  unfold APInt.getMinSignedBits APInt.getActiveBits APInt.countLeadingOnes APInt.countLeadingZeros
    APInt.isNegative
  rw [hw']
  simp only [Nat.add_sub_cancel]
  by_cases hb : a.VAL.testBit w = true
  · have := clo_pos_of_testBit_true w a.VAL hb
    simp only [hb, if_true]; omega
  · have hb' : a.VAL.testBit w = false := by simpa using hb
    have := clz_pos_of_testBit_false w a.VAL hb'
    simp only [hb', Bool.false_eq_true, if_false]; omega

theorem APInt.zext_trunc (a : APInt) (h : a.WF) (w : Nat) (hw : a.getActiveBits ≤ w) :
    (a.trunc w).zext a.BitWidth = a := by
  have h1 := a.lt_pow_getActiveBits h
  have h2 : 2 ^ a.getActiveBits ≤ 2 ^ w := Nat.pow_le_pow_right (by decide) hw
  cases a with
  | mk W v =>
    simp only [APInt.trunc, APInt.zext, APInt.mk.injEq, true_and]
    exact Nat.mod_eq_of_lt (by simp at h1; omega)

theorem APInt.sext_trunc (a : APInt) (h : a.WF) (w : Nat) (hw : a.getMinSignedBits ≤ w)
    (hW : w ≤ a.BitWidth) : (a.trunc w).sext a.BitWidth = a := by
  obtain ⟨hpos, hlt⟩ := h
  cases a with
  | mk W v =>
    simp only at hpos hlt hW
    obtain ⟨k, rfl⟩ : ∃ k, w = k + 1 := by
      refine ⟨w - 1, ?_⟩
      unfold APInt.getMinSignedBits at hw
      split at hw <;> omega
    unfold APInt.getMinSignedBits APInt.getActiveBits APInt.countLeadingOnes
      APInt.countLeadingZeros at hw
    simp only at hw
    by_cases hn : APInt.isNegative ⟨W, v⟩ = true
    · simp only [hn, if_true] at hw
      have hclo := pow_sub_clo_le_mod W v
      rw [Nat.mod_eq_of_lt hlt] at hclo
      have hle : 2 ^ (W - countLeadingOnesAux W v) ≤ 2 ^ k :=
        Nat.pow_le_pow_right (by decide) (by omega)
      have hkW : 2 ^ (k + 1) ≤ 2 ^ W := Nat.pow_le_pow_right (by decide) hW
      have hk2 : 2 ^ (k + 1) = 2 * 2 ^ k := by rw [pow_succ]; omega
      -- v = (2^W - 2^(k+1)) + r with 2^k ≤ r < 2^(k+1)
      have hdvd : 2 ^ (k + 1) ∣ 2 ^ W - 2 ^ (k + 1) :=
        Nat.dvd_sub' (pow_dvd_pow 2 hW) (dvd_refl _)
      obtain ⟨q, hq⟩ := hdvd
      have hmod : v % 2 ^ (k + 1) = v - (2 ^ W - 2 ^ (k + 1)) := by
        have hv : v = (v - (2 ^ W - 2 ^ (k + 1))) + 2 ^ (k + 1) * q := by omega
        conv_lhs => rw [hv]
        rw [Nat.add_mul_mod_self_left]
        exact Nat.mod_eq_of_lt (by omega)
      have hneg : APInt.isNegative ⟨k + 1, v % 2 ^ (k + 1)⟩ = true := by
        simp only [APInt.isNegative, Nat.add_sub_cancel]
        rw [Nat.testBit_to_div_mod, hmod]
        have : (v - (2 ^ W - 2 ^ (k + 1))) / 2 ^ k = 1 := by
          apply Nat.div_eq_of_lt_le <;> omega
        simp [this]
      simp only [APInt.trunc, APInt.sext, hneg, if_true, APInt.mk.injEq, true_and]
      rw [hmod]; omega
    · have hn' : APInt.isNegative ⟨W, v⟩ = false := by simpa using hn
      simp only [hn', Bool.false_eq_true, if_false] at hw
      have hclz := mod_lt_pow_sub_clz W v
      rw [Nat.mod_eq_of_lt hlt] at hclz
      have hle : 2 ^ (W - countLeadingZerosAux W v) ≤ 2 ^ k :=
        Nat.pow_le_pow_right (by decide) (by omega)
      have hk2 : 2 ^ (k + 1) = 2 * 2 ^ k := by rw [pow_succ]; omega
      have hmod : v % 2 ^ (k + 1) = v := Nat.mod_eq_of_lt (by omega)
      have hneg : APInt.isNegative ⟨k + 1, v % 2 ^ (k + 1)⟩ = false := by
        simp only [APInt.isNegative, Nat.add_sub_cancel]
        rw [hmod]
        exact Nat.testBit_lt_two_pow (by omega)
      simp only [APInt.trunc, APInt.sext, hneg, Bool.false_eq_true, if_false, APInt.mk.injEq,
        true_and]
      exact hmod

/-! ## Claims on `bitNeededFor` -/

/-- The body of `bitNeededFor` with its accessors unfolded. -/
theorem bitNeededFor_cases (CR : ConstantRange) :
    bitNeededFor CR =
      if CR.isFullSet then CR.getBitWidth
      else if CR.Lower.isNonNegative then
        (if CR.Lower.getActiveBits > CR.Upper.getActiveBits then CR.Lower.getActiveBits
         else CR.Upper.getActiveBits)
      else
        (if CR.Lower.getMinSignedBits > CR.Upper.getMinSignedBits then CR.Lower.getMinSignedBits
         else CR.Upper.getMinSignedBits) := rfl

/-- C1: `bitNeededFor` returns the range's bit width for the full set, otherwise the larger of
the active bits of the two stored bounds when the stored lower bound is non-negative, and
otherwise the larger of the minimum signed bits of the two stored bounds. -/
theorem C1_bitNeededFor_cases (CR : ConstantRange) :
    bitNeededFor CR =
      if CR.isFullSet then CR.getBitWidth
      else if CR.Lower.isNonNegative then max CR.Lower.getActiveBits CR.Upper.getActiveBits
      else max CR.Lower.getMinSignedBits CR.Upper.getMinSignedBits := by
  unfold bitNeededFor ConstantRange.getLower ConstantRange.getUpper
  by_cases hf : CR.isFullSet = true
  · simp [hf]
  · by_cases hn : CR.Lower.isNonNegative = true
    · simp only [hf, hn, if_true, Bool.false_eq_true, if_false]
      split <;> omega
    · simp only [hf, hn, Bool.false_eq_true, if_false]
      split <;> omega

theorem bitNeededFor_le (CR : ConstantRange) (h : CR.WF) : bitNeededFor CR ≤ CR.getBitWidth := by
  obtain ⟨hL, hU, hW, _⟩ := h
  have h1 := CR.Lower.getActiveBits_le
  have h2 := CR.Upper.getActiveBits_le
  have h3 := CR.Lower.getMinSignedBits_le hL
  have h4 := CR.Upper.getMinSignedBits_le hU
  unfold bitNeededFor ConstantRange.getLower ConstantRange.getUpper ConstantRange.getBitWidth
  simp only
  split
  · exact le_refl _
  · split <;> split <;> omega

/-- C2: round trip.  For a well-formed range of width `W` with `w = bitNeededFor CR`,
truncating either stored bound to `w` bits and widening it back to `W` bits (zero-extension
when the lower bound is non-negative, sign-extension otherwise) gives the bound back. -/
theorem C2_round_trip (CR : ConstantRange) (h : CR.WF) :
    rewiden CR (CR.Lower.trunc (bitNeededFor CR)) CR.getBitWidth = CR.Lower ∧
    rewiden CR (CR.Upper.trunc (bitNeededFor CR)) CR.getBitWidth = CR.Upper := by
  have hle := bitNeededFor_le CR h
  obtain ⟨hL, hU, hW, _⟩ := h
  have hc := bitNeededFor_cases CR
  unfold ConstantRange.getBitWidth at hle hc ⊢
  unfold rewiden ConstantRange.getLower
  by_cases hn : CR.Lower.isNonNegative = true
  · simp only [hn, if_true]
    have hb : CR.Lower.getActiveBits ≤ bitNeededFor CR ∧
        CR.Upper.getActiveBits ≤ bitNeededFor CR := by
      have h1 := CR.Lower.getActiveBits_le
      have h2 := CR.Upper.getActiveBits_le
      rw [hc]; simp only [hn, if_true]
      split
      · omega
      · split <;> omega
    refine ⟨CR.Lower.zext_trunc hL _ hb.1, ?_⟩
    rw [hW]
    exact CR.Upper.zext_trunc hU _ hb.2
  · simp only [hn, Bool.false_eq_true, if_false]
    have hb : CR.Lower.getMinSignedBits ≤ bitNeededFor CR ∧
        CR.Upper.getMinSignedBits ≤ bitNeededFor CR := by
      have h1 := CR.Lower.getMinSignedBits_le hL
      have h2 := CR.Upper.getMinSignedBits_le hU
      rw [hc]; simp only [hn, Bool.false_eq_true, if_false]
      split
      · omega
      · split <;> omega
    refine ⟨CR.Lower.sext_trunc hL _ hb.1 hle, ?_⟩
    rw [hW]
    exact CR.Upper.sext_trunc hU _ hb.2 (by omega)

/-- Witness of C2 on the 8-bit range stored as `[-8, 8)`: the derived width is 5. -/
theorem C2_round_trip_witness :
    (ConstantRange.mk ⟨8, 248⟩ ⟨8, 8⟩).WF ∧
    rewiden ⟨⟨8, 248⟩, ⟨8, 8⟩⟩ ((APInt.mk 8 248).trunc (bitNeededFor ⟨⟨8, 248⟩, ⟨8, 8⟩⟩)) 8
      = ⟨8, 248⟩ ∧
    rewiden ⟨⟨8, 248⟩, ⟨8, 8⟩⟩ ((APInt.mk 8 8).trunc (bitNeededFor ⟨⟨8, 248⟩, ⟨8, 8⟩⟩)) 8
      = ⟨8, 8⟩ :=
  ⟨by decide, C2_round_trip ⟨⟨8, 248⟩, ⟨8, 8⟩⟩ (by decide)⟩

/-- C3 (lossless), evaluated at the wrapped 8-bit range stored as lower 10, upper 5: it is
well formed and non-empty, its lower bound is non-negative, it contains 200, and
`bitNeededFor` gives 4, a width in which 200 is not representable as an unsigned number. -/
theorem C3_wrapped_range_not_lossless :
    (ConstantRange.mk ⟨8, 10⟩ ⟨8, 5⟩).WF ∧
    (ConstantRange.mk ⟨8, 10⟩ ⟨8, 5⟩).isEmptySet = false ∧
    (ConstantRange.mk ⟨8, 10⟩ ⟨8, 5⟩).isUpperWrapped = true ∧
    (ConstantRange.mk ⟨8, 10⟩ ⟨8, 5⟩).Lower.isNonNegative = true ∧
    (ConstantRange.mk ⟨8, 10⟩ ⟨8, 5⟩).contains ⟨8, 200⟩ = true ∧
    bitNeededFor ⟨⟨8, 10⟩, ⟨8, 5⟩⟩ = 4 ∧
    ¬ representable false (bitNeededFor ⟨⟨8, 10⟩, ⟨8, 5⟩⟩) ⟨8, 200⟩ := by
  decide

/-- C4 (minimal), evaluated at the 8-bit range stored as `[0, 16)`: every value it contains is
representable in 4 unsigned bits, yet `bitNeededFor` gives 5. -/
theorem C4_not_minimal_at_power_of_two :
    (ConstantRange.mk ⟨8, 0⟩ ⟨8, 16⟩).WF ∧
    (ConstantRange.mk ⟨8, 0⟩ ⟨8, 16⟩).isEmptySet = false ∧
    (ConstantRange.mk ⟨8, 0⟩ ⟨8, 16⟩).isFullSet = false ∧
    (ConstantRange.mk ⟨8, 0⟩ ⟨8, 16⟩).Lower.isNonNegative = true ∧
    (∀ V : APInt, (ConstantRange.mk ⟨8, 0⟩ ⟨8, 16⟩).contains V = true →
      representable false 4 V) ∧
    bitNeededFor ⟨⟨8, 0⟩, ⟨8, 16⟩⟩ = 5 := by
  refine ⟨by decide, by decide, by decide, by decide, ?_, by decide⟩
  intro V hV
  simp [ConstantRange.contains, ConstantRange.isUpperWrapped, APInt.ugt, APInt.ule,
    APInt.ult] at hV
  simp [representable]
  omega

/-- C5 (scenario A), evaluated: the range whose members are exactly the integers 0 through 15
is stored as `[0, 16)`, and `bitNeededFor` gives 5 for it at declared width 8 and at declared
width 32. -/
theorem C5_scenarioA_returns_5 :
    (∀ V : APInt, (ConstantRange.mk ⟨8, 0⟩ ⟨8, 16⟩).contains V = true ↔ V.VAL ≤ 15) ∧
    (∀ V : APInt, (ConstantRange.mk ⟨32, 0⟩ ⟨32, 16⟩).contains V = true ↔ V.VAL ≤ 15) ∧
    bitNeededFor ⟨⟨8, 0⟩, ⟨8, 16⟩⟩ = 5 ∧
    bitNeededFor ⟨⟨32, 0⟩, ⟨32, 16⟩⟩ = 5 := by
  refine ⟨?_, ?_, by decide, by decide⟩
  · intro V
    simp [ConstantRange.contains, ConstantRange.isUpperWrapped, APInt.ugt, APInt.ule,
      APInt.ult]
    omega
  · intro V
    simp [ConstantRange.contains, ConstantRange.isUpperWrapped, APInt.ugt, APInt.ule,
      APInt.ult]
    omega

/-- C6 (scenario B), evaluated: the 8-bit range whose members are exactly the integers -8
through 7 is stored as lower 248 (the pattern of -8), upper 8, and `bitNeededFor` gives 5
for it, because the minimum signed bits of the stored upper bound 8 is 5. -/
theorem C6_scenarioB_returns_5 :
    (∀ v : Nat, v < 2 ^ 8 → ((ConstantRange.mk ⟨8, 248⟩ ⟨8, 8⟩).contains ⟨8, v⟩ = true ↔
      (-8 ≤ (APInt.mk 8 v).toInt ∧ (APInt.mk 8 v).toInt ≤ 7))) ∧
    (APInt.mk 8 248).toInt = -8 ∧
    (APInt.mk 8 248).getMinSignedBits = 4 ∧
    (APInt.mk 8 8).getMinSignedBits = 5 ∧
    (APInt.mk 8 7).getMinSignedBits = 4 ∧
    bitNeededFor ⟨⟨8, 248⟩, ⟨8, 8⟩⟩ = 5 := by
  refine ⟨?_, by decide, by decide, by decide, by decide, by decide⟩
  intro v hv
  simp only [ConstantRange.contains, ConstantRange.isUpperWrapped, APInt.ugt, APInt.ule,
    APInt.ult, APInt.toInt, APInt.isNegative, Nat.testBit_to_div_mod]
  simp
  split <;> omega

/-! ## The need table after the analysis -/

theorem analyseInst_F (sv : Services) (st : PassState) (I : Instruction) :
    (analyseInst sv st I).F = st.F := by
  unfold analyseInst; split <;> rfl

theorem analyseInsts_F (sv : Services) (Is : List Instruction) (st : PassState) :
    (analyseInsts sv Is st).F = st.F := by
  induction Is generalizing st with
  | nil => rfl
  | cons I Is ih =>
    simp only [analyseInsts, List.foldl_cons] at ih ⊢
    rw [ih, analyseInst_F]

theorem analyseInsts_append (sv : Services) (xs ys : List Instruction) (st : PassState) :
    analyseInsts sv (xs ++ ys) st = analyseInsts sv ys (analyseInsts sv xs st) := by
  simp [analyseInsts, List.foldl_append]

theorem analyseInsts_cons (sv : Services) (I : Instruction) (Is : List Instruction)
    (st : PassState) :
    analyseInsts sv (I :: Is) st = analyseInsts sv Is (analyseInst sv st I) := rfl

theorem mapSet_filter_self (id v : Nat) (tbl : List (Nat × Nat)) :
    (mapSet id v tbl).filter (fun p => p.1 == id) = [(id, v)] := by
  simp only [mapSet, List.filter_cons, beq_self_eq_true, if_true, List.filter_filter]
  congr 1
  apply List.filter_eq_nil_iff.mpr
  intro p _
  by_cases h : p.1 = id <;> simp [h]

theorem mapSet_filter_other (id v k : Nat) (tbl : List (Nat × Nat)) (h : id ≠ k) :
    (mapSet id v tbl).filter (fun p => p.1 == k) = tbl.filter (fun p => p.1 == k) := by
  simp only [mapSet, List.filter_cons, List.filter_filter]
  have : ((id, v).1 == k) = false := by simpa using h
  simp only [this, Bool.false_eq_true, if_false]
  apply List.filter_congr
  intro p _
  by_cases hp : p.1 = k
  · subst hp; simp [Ne.symm h]
  · simp [hp]

theorem analyseInst_filter_other (sv : Services) (st : PassState) (J : Instruction) (k : Nat)
    (h : J.id ≠ k) :
    (analyseInst sv st J).Instruction_BitNeeded.filter (fun p => p.1 == k)
      = st.Instruction_BitNeeded.filter (fun p => p.1 == k) := by
  unfold analyseInst
  split
  · exact mapSet_filter_other _ _ _ _ h
  · rfl

theorem analyseInsts_filter_other (sv : Services) (Is : List Instruction) (st : PassState)
    (k : Nat) (h : ∀ J ∈ Is, J.id ≠ k) :
    (analyseInsts sv Is st).Instruction_BitNeeded.filter (fun p => p.1 == k)
      = st.Instruction_BitNeeded.filter (fun p => p.1 == k) := by
  induction Is generalizing st with
  | nil => rfl
  | cons J Is ih =>
    rw [analyseInsts_cons, ih _ (fun X hX => h X (List.mem_cons_of_mem _ hX)),
      analyseInst_filter_other _ _ _ _ (h J (List.mem_cons_self _ _))]

theorem analyseInst_mem_id (sv : Services) (st : PassState) (J : Instruction) (k : Nat)
    (h : k ∈ st.Instruction_id) : k ∈ (analyseInst sv st J).Instruction_id := by
  unfold analyseInst
  split
  · simp only
    split
    · exact h
    · exact List.mem_cons_of_mem _ h
  · exact h

theorem analyseInsts_mem_id (sv : Services) (Is : List Instruction) (st : PassState) (k : Nat)
    (h : k ∈ st.Instruction_id) : k ∈ (analyseInsts sv Is st).Instruction_id := by
  induction Is generalizing st with
  | nil => exact h
  | cons J Is ih => rw [analyseInsts_cons]; exact ih _ (analyseInst_mem_id _ _ _ _ h)

theorem lookup_of_filter_eq (k v : Nat) (tbl : List (Nat × Nat))
    (h : tbl.filter (fun p => p.1 == k) = [(k, v)]) : tbl.lookup k = some v := by
  induction tbl with
  | nil => simp at h
  | cons p tbl ih =>
    obtain ⟨a, b⟩ := p
    by_cases hk : a = k
    · subst hk
      simp only [List.filter_cons, beq_self_eq_true, if_true, List.cons.injEq, Prod.mk.injEq,
        true_and] at h
      simp [List.lookup, h.1]
    · have hk' : (k == a) = false := by simpa using Ne.symm hk
      have hk'' : (a == k) = false := by simpa using hk
      simp only [List.filter_cons, hk'', Bool.false_eq_true, if_false] at h
      simp only [List.lookup, hk']
      exact ih h

/-- C7: after `Bitwidth_Analysis`, every integer-typed instruction of the function has exactly
one entry in the need table; the entry is the declared width when the instruction may read
from memory, and otherwise `bitNeededFor` of the range `HI_getSignedRangeRef` returns for the
instruction's expression at its turn (with the cache as the preceding instructions left it).
The instruction is registered in `Instruction_id` and the function is not modified. -/
theorem C7_need_table_after_analysis (sv : Services) (st : PassState)
    (pre post : List Instruction) (I : Instruction) (w : Nat)
    (hF : allInsts st.F = pre ++ I :: post)
    (hnodup : ((allInsts st.F).map (fun J => J.id)).Nodup)
    (hty : I.ty = .integer w) :
    (Bitwidth_Analysis sv st).Instruction_BitNeeded.filter (fun p => p.1 == I.id)
      = [(I.id,
          if I.kind.mayReadFromMemory then w
          else bitNeededFor
            (HI_getSignedRangeRef sv (sv.getSCEV I.id)
              (analyseInsts sv pre st).SignedRanges).1)] ∧
    needOf (Bitwidth_Analysis sv st).Instruction_BitNeeded I.id
      = (if I.kind.mayReadFromMemory then w
          else bitNeededFor
            (HI_getSignedRangeRef sv (sv.getSCEV I.id)
              (analyseInsts sv pre st).SignedRanges).1) ∧
    I.id ∈ (Bitwidth_Analysis sv st).Instruction_id ∧
    (Bitwidth_Analysis sv st).F = st.F := by
  have hpost : ∀ J ∈ post, J.id ≠ I.id := by
    intro J hJ heq
    rw [hF, List.map_append, List.map_cons] at hnodup
    have h2 := (List.nodup_append.mp hnodup).2.1
    rw [List.nodup_cons] at h2
    exact h2.1 (heq ▸ List.mem_map_of_mem _ hJ)
  have hrun : Bitwidth_Analysis sv st
      = analyseInsts sv post (analyseInst sv (analyseInsts sv pre st) I) := by
    unfold Bitwidth_Analysis
    rw [hF, analyseInsts_append, analyseInsts_cons]
  have hstep : (analyseInst sv (analyseInsts sv pre st) I).Instruction_BitNeeded.filter
      (fun p => p.1 == I.id)
      = [(I.id,
          if I.kind.mayReadFromMemory then w
          else bitNeededFor
            (HI_getSignedRangeRef sv (sv.getSCEV I.id)
              (analyseInsts sv pre st).SignedRanges).1)] := by
    unfold analyseInst
    rw [hty]
    exact mapSet_filter_self _ _ _
  have hfilter := (analyseInsts_filter_other sv post _ I.id hpost).trans hstep
  have hmem : I.id ∈ (analyseInst sv (analyseInsts sv pre st) I).Instruction_id := by
    unfold analyseInst
    rw [hty]
    simp only
    split
    · assumption
    · exact List.mem_cons_self _ _
  refine ⟨?_, ?_, ?_, ?_⟩
  · rw [hrun]; exact hfilter
  · rw [hrun]; unfold needOf; rw [lookup_of_filter_eq _ _ _ hfilter]; rfl
  · rw [hrun]; exact analyseInsts_mem_id _ _ _ _ hmem
  · unfold Bitwidth_Analysis; exact analyseInsts_F _ _ _

/-- Witness of C7 on `loadAddF`: the addition (2), whose range is `[0, 16)`, gets exactly one
entry, with need 5. -/
theorem C7_need_table_after_analysis_witness :
    (Bitwidth_Analysis loadAddSv ⟨loadAddF, [], [], [], 10⟩).Instruction_BitNeeded.filter
        (fun p => p.1 == 2) = [(2, 5)] ∧
    needOf (Bitwidth_Analysis loadAddSv ⟨loadAddF, [], [], [], 10⟩).Instruction_BitNeeded 1
      = 32 :=
  ⟨(C7_need_table_after_analysis loadAddSv ⟨loadAddF, [], [], [], 10⟩
      [⟨1, .Load, .integer 32, [.other .other]⟩] [⟨3, .Other false, .other, [.inst 2]⟩]
      ⟨2, .BinaryOperator 13, .integer 32, [.inst 1, .constInt ⟨32, 1⟩]⟩ 32
      (by decide) (by decide) (by rfl)).1.trans (by decide),
   (C7_need_table_after_analysis loadAddSv ⟨loadAddF, [], [], [], 10⟩
      [] [⟨2, .BinaryOperator 13, .integer 32, [.inst 1, .constInt ⟨32, 1⟩]⟩,
          ⟨3, .Other false, .other, [.inst 2]⟩]
      ⟨1, .Load, .integer 32, [.other .other]⟩ 32
      (by decide) (by decide) (by rfl)).2.1.trans (by decide)⟩

/-! ## Frame lemmas: what the rewrites leave alone -/

theorem sel_cons (j : Nat) (X : Instruction) (B : List Instruction) :
    sel j (X :: B) = if X.id = j then (X.kind, X.ty) :: sel j B else sel j B := by
  unfold sel
  by_cases h : X.id = j
  · simp [h]
  · simp [h]

theorem sel_insertAfterL (j id : Nat) (new : Instruction) (h : new.id ≠ j)
    (B : List Instruction) : sel j (insertAfterL id new B) = sel j B := by
  induction B with
  | nil => rfl
  | cons X B ih =>
    unfold insertAfterL
    split
    · simp only [sel_cons, h, if_false]
    · simp only [sel_cons, ih]

theorem sel_insertBeforeL (j id : Nat) (new : Instruction) (h : new.id ≠ j)
    (B : List Instruction) : sel j (insertBeforeL id new B) = sel j B := by
  induction B with
  | nil => rfl
  | cons X B ih =>
    unfold insertBeforeL
    split
    · simp only [sel_cons, h, if_false]
    · simp only [sel_cons, ih]

theorem sel_erase (j i : Nat) (h : i ≠ j) (B : List Instruction) :
    sel j (B.filter (fun I => I.id != i)) = sel j B := by
  induction B with
  | nil => rfl
  | cons X B ih =>
    by_cases hX : X.id = i
    · have : X.id ≠ j := by rw [hX]; exact h
      simp only [List.filter_cons, hX, bne_self_eq_false, Bool.false_eq_true, if_false, ih]
      rw [sel_cons, if_neg (by rw [hX]; exact h)]
    · have hb : (X.id != i) = true := by simpa using hX
      simp only [List.filter_cons, hb, if_true, sel_cons, ih]

theorem sel_map (j : Nat) (f : Instruction → Instruction)
    (hf : ∀ X, (f X).id = X.id ∧ (f X).kind = X.kind ∧ (f X).ty = X.ty)
    (B : List Instruction) : sel j (B.map f) = sel j B := by
  induction B with
  | nil => rfl
  | cons X B ih =>
    simp only [List.map_cons, sel_cons, ih, (hf X).1, (hf X).2.1, (hf X).2.2]

theorem view_insertAfter (j id : Nat) (new : Instruction) (h : new.id ≠ j) (F : IRFunction) :
    view j (insertAfter F id new) = view j F := by
  unfold view insertAfter
  rw [List.map_map]
  exact List.map_congr_left (fun B _ => sel_insertAfterL j id new h B)

theorem view_insertBefore (j id : Nat) (new : Instruction) (h : new.id ≠ j) (F : IRFunction) :
    view j (insertBefore F id new) = view j F := by
  unfold view insertBefore
  rw [List.map_map]
  exact List.map_congr_left (fun B _ => sel_insertBeforeL j id new h B)

theorem view_eraseFromParent (j i : Nat) (h : i ≠ j) (F : IRFunction) :
    view j (eraseFromParent F i) = view j F := by
  unfold view eraseFromParent
  rw [List.map_map]
  exact List.map_congr_left (fun B _ => sel_erase j i h B)

theorem view_replaceUses (j frm : Nat) (dst : Value) (F : IRFunction) :
    view j (replaceUses F frm dst) = view j F := by
  unfold view replaceUses
  rw [List.map_map]
  exact List.map_congr_left (fun B _ => sel_map j
    (fun I => { I with operands := I.operands.map (fun v => if v = .inst frm then dst else v) })
    (fun X => ⟨rfl, rfl, rfl⟩) B)

theorem view_ReplaceUsesUnsafe (j frm : Nat) (dst : Value) (F F1 : IRFunction)
    (h : ReplaceUsesUnsafe F frm dst = .ok F1) : view j F1 = view j F := by
  unfold ReplaceUsesUnsafe at h
  split at h
  · cases h
  · cases h; exact view_replaceUses j frm dst F

theorem mem_sel_of_mem (j : Nat) (B : List Instruction) (X : Instruction) (hX : X ∈ B)
    (hj : X.id = j) : (X.kind, X.ty) ∈ sel j B := by
  unfold sel
  exact List.mem_map.mpr ⟨X, List.mem_filter.mpr ⟨hX, by simpa using hj⟩, rfl⟩

theorem exists_of_mem_sel (j : Nat) (B : List Instruction) (p : Kind × Ty)
    (hp : p ∈ sel j B) : ∃ X ∈ B, X.id = j ∧ X.kind = p.1 ∧ X.ty = p.2 := by
  unfold sel at hp
  obtain ⟨X, hX, rfl⟩ := List.mem_map.mp hp
  obtain ⟨hXB, hid⟩ := List.mem_filter.mp hX
  exact ⟨X, hXB, by simpa using hid, rfl, rfl⟩

theorem view_getD (j : Nat) (F : IRFunction) (b : Nat) :
    (view j F).getD b [] = sel j (F.getD b []) := by
  unfold view
  simp only [List.getD_eq_getElem?_getD, List.getElem?_map]
  cases F[b]? <;> rfl

/-- An instruction of a block that cannot read memory does not carry a safe identity. -/
theorem Safe.ne_of_mem {j : Nat} {F : IRFunction} (hs : Safe j F) (b : Nat) (I : Instruction)
    (hI : I ∈ F.getD b []) (hk : I.kind.mayReadFromMemory = false) : I.id ≠ j := by
  intro hj
  have hmem := mem_sel_of_mem j _ I hI hj
  rw [← view_getD] at hmem
  have hb : b < (view j F).length := by
    by_contra hge
    rw [List.getD_eq_default _ _ (by omega)] at hmem
    cases hmem
  have hin : (view j F).getD b [] ∈ view j F := by
    rw [List.getD_eq_getElem _ _ hb]
    exact List.getElem_mem _
  have := hs _ hin _ hmem
  simp [hk] at this

theorem Safe.of_view_eq {j : Nat} {F F1 : IRFunction} (hs : Safe j F)
    (h : view j F1 = view j F) : Safe j F1 := by
  unfold Safe; rw [h]; exact hs

theorem prepareCast_F (sv : Services) (st st1 : PassState) (I : Instruction) (isNeg : Bool)
    (need : Nat) (h : prepareCast sv st I = .ok (isNeg, need, st1)) :
    st1.F = st.F ∧ st1.nextId = st.nextId := by
  unfold prepareCast at h
  simp only at h
  split at h
  · split at h
    · cases h
    · cases h; exact ⟨rfl, rfl⟩
  · cases h; exact ⟨rfl, rfl⟩

theorem retargetOperand_view (j : Nat) (isNeg : Bool) (need : Nat) (st st1 : PassState)
    (v v1 : Value) (hj : j < st.nextId)
    (h : retargetOperand isNeg need st v = .ok (v1, st1)) :
    view j st1.F = view j st.F ∧ st.nextId ≤ st1.nextId := by
  unfold retargetOperand at h
  split at h
  · split at h
    · cases h
    · cases h; exact ⟨rfl, le_refl _⟩
  · split at h
    · cases h
    · split at h
      · cases h
      · split at h
        · cases h
        · split at h
          · cases h
          · split at h
            · cases h
              exact ⟨view_insertAfter j _ _ (by simp only; omega) _, Nat.le_succ _⟩
            · split at h
              · cases h
                exact ⟨view_insertAfter j _ _ (by simp only; omega) _, Nat.le_succ _⟩
              · cases h; exact ⟨rfl, le_refl _⟩
  · cases h; exact ⟨rfl, le_refl _⟩

theorem retargetOperands_view (j : Nat) (isNeg : Bool) (need : Nat) (vs vs1 : List Value)
    (st st1 : PassState) (hj : j < st.nextId)
    (h : retargetOperands isNeg need vs st = .ok (vs1, st1)) :
    view j st1.F = view j st.F ∧ st.nextId ≤ st1.nextId := by
  induction vs generalizing st vs1 with
  | nil =>
    unfold retargetOperands at h
    cases h; exact ⟨rfl, le_refl _⟩
  | cons v vs ih =>
    unfold retargetOperands at h
    split at h
    · cases h
    · rename_i v' st' hv
      split at h
      · cases h
      · rename_i vs' st'' hvs
        cases h
        have h1 := retargetOperand_view j isNeg need st st' v v' hj hv
        have h1' := h1.2
        have h2 := ih _ _ (by omega) hvs
        exact ⟨h2.1.trans h1.1, by omega⟩

theorem replaceInst_view (j : Nat) (st st1 : PassState) (I new : Instruction)
    (hnew : new.id ≠ j) (hI : I.id ≠ j) (h : replaceInst st I new = .ok st1) :
    view j st1.F = view j st.F ∧ st.nextId ≤ st1.nextId := by
  unfold replaceInst at h
  split at h
  · cases h
  · rename_i F2 hF2
    cases h
    refine ⟨?_, Nat.le_succ _⟩
    simp only
    rw [view_eraseFromParent j _ hI, view_ReplaceUsesUnsafe j _ _ _ _ hF2,
      view_insertBefore j _ _ hnew]

theorem BOI_WidthCast_view (j : Nat) (sv : Services) (st st1 : PassState) (I : Instruction)
    (opcode : Nat) (hj : j < st.nextId) (hI : I.id ≠ j)
    (h : BOI_WidthCast sv st I opcode = .ok st1) :
    view j st1.F = view j st.F ∧ st.nextId ≤ st1.nextId := by
  unfold BOI_WidthCast at h
  split at h
  · cases h
  · rename_i isNeg need sta hprep
    obtain ⟨hF, hn⟩ := prepareCast_F _ _ _ _ _ _ hprep
    split at h
    · cases h
    · rename_i ops stb hops
      have h1 := retargetOperands_view j isNeg need _ _ sta stb (by omega) hops
      split at h
      · split at h
        · split at h
          · have h2 := replaceInst_view j stb st1 I _ (by simp only; omega) hI h
            exact ⟨by rw [h2.1, h1.1, hF], by omega⟩
          · cases h
        · cases h
      · cases h

theorem ICMP_WidthCast_view (j : Nat) (sv : Services) (st st1 : PassState) (I : Instruction)
    (predicate : Nat) (hj : j < st.nextId) (hI : I.id ≠ j)
    (h : ICMP_WidthCast sv st I predicate = .ok st1) :
    view j st1.F = view j st.F ∧ st.nextId ≤ st1.nextId := by
  unfold ICMP_WidthCast at h
  split at h
  · cases h
  · rename_i isNeg need sta hprep
    obtain ⟨hF, hn⟩ := prepareCast_F _ _ _ _ _ _ hprep
    split at h
    · cases h
    · rename_i ops stb hops
      have h1 := retargetOperands_view j isNeg need _ _ sta stb (by omega) hops
      split at h
      · split at h
        · split at h
          · have h2 := replaceInst_view j stb st1 I _ (by simp only; omega) hI h
            exact ⟨by rw [h2.1, h1.1, hF], by omega⟩
          · cases h
        · cases h
      · cases h

theorem PHI_WidthCast_view (j : Nat) (sv : Services) (st st1 : PassState) (I : Instruction)
    (blocks : List Nat) (hj : j < st.nextId) (hI : I.id ≠ j)
    (h : PHI_WidthCast sv st I blocks = .ok st1) :
    view j st1.F = view j st.F ∧ st.nextId ≤ st1.nextId := by
  unfold PHI_WidthCast at h
  split at h
  · cases h
  · rename_i isNeg need sta hprep
    obtain ⟨hF, hn⟩ := prepareCast_F _ _ _ _ _ _ hprep
    split at h
    · cases h
    · rename_i ops stb hops
      have h1 := retargetOperands_view j isNeg need _ _ sta stb (by omega) hops
      split at h
      · cases h
      · split at h
        · cases h
        · split at h
          · have h2 := replaceInst_view j stb st1 I _ (by simp only; omega) hI h
            exact ⟨by rw [h2.1, h1.1, hF], by omega⟩
          · cases h

theorem visit_view (j : Nat) (sv : Services) (st st1 : PassState) (changed changed1 brk : Bool)
    (I : Instruction) (hj : j < st.nextId)
    (hI : I.kind.mayReadFromMemory = false → I.id ≠ j)
    (h : visit sv st changed I = .ok (st1, changed1, brk)) :
    view j st1.F = view j st.F ∧ st.nextId ≤ st1.nextId := by
  unfold visit at h
  simp only at h
  split at h
  · split at h
    · cases h; exact ⟨rfl, le_refl _⟩
    · split at h
      · cases h; exact ⟨rfl, le_refl _⟩
      · split at h
        · cases h; exact ⟨rfl, le_refl _⟩
        · rename_i hread
          have hne : I.id ≠ j := hI (by simpa using hread)
          split at h
          · cases h
          · cases h; exact ⟨rfl, le_refl _⟩
          · split at h
            · cases h
            · cases h; exact ⟨rfl, le_refl _⟩
            · split at h
              · split at h
                · cases h
                · rename_i st2 hb
                  cases h
                  exact BOI_WidthCast_view j sv
                    { st with Instruction_id := st.Instruction_id.filter (fun k => k != I.id) }
                    _ I _ hj hne hb
              · split at h
                · cases h
                · rename_i st2 hb
                  cases h
                  exact ICMP_WidthCast_view j sv
                    { st with Instruction_id := st.Instruction_id.filter (fun k => k != I.id) }
                    _ I _ hj hne hb
              · split at h
                · cases h
                · rename_i st2 hb
                  cases h
                  exact PHI_WidthCast_view j sv
                    { st with Instruction_id := st.Instruction_id.filter (fun k => k != I.id) }
                    _ I _ hj hne hb
              · cases h; exact ⟨rfl, le_refl _⟩
  · cases h; exact ⟨rfl, le_refl _⟩

theorem scanBlock_view (j : Nat) (sv : Services) (Is : List Instruction) (st st1 : PassState)
    (changed changed1 brk : Bool) (hj : j < st.nextId)
    (hIs : ∀ I ∈ Is, I.kind.mayReadFromMemory = false → I.id ≠ j)
    (h : scanBlock sv Is st changed = .ok (st1, changed1, brk)) :
    view j st1.F = view j st.F ∧ st.nextId ≤ st1.nextId := by
  induction Is generalizing st changed with
  | nil => unfold scanBlock at h; cases h; exact ⟨rfl, le_refl _⟩
  | cons I Is ih =>
    unfold scanBlock at h
    split at h
    · cases h
    · rename_i st2 ch2 hv
      cases h
      exact visit_view j sv _ _ _ _ _ I hj (hIs I (List.mem_cons_self _ _)) hv
    · rename_i st2 ch2 hv
      have h1 := visit_view j sv _ _ _ _ _ I hj (hIs I (List.mem_cons_self _ _)) hv
      have h2 := ih st2 ch2 (by omega) (fun X hX => hIs X (List.mem_cons_of_mem _ hX)) h
      exact ⟨h2.1.trans h1.1, by omega⟩

theorem rewriteBlock_view (j : Nat) (sv : Services) (b fuel : Nat) (st st1 : PassState)
    (changed changed1 : Bool) (hj : j < st.nextId) (hs : Safe j st.F)
    (h : rewriteBlock sv b fuel st changed = .ok (st1, changed1)) :
    view j st1.F = view j st.F ∧ st.nextId ≤ st1.nextId := by
  induction fuel generalizing st changed with
  | zero => unfold rewriteBlock at h; cases h
  | succ fuel ih =>
    unfold rewriteBlock at h
    split at h
    · cases h
    · rename_i st2 ch2 hscan
      have h1 := scanBlock_view j sv _ st st2 _ _ _ hj
        (fun I hI hk => hs.ne_of_mem b I hI hk) hscan
      have h2 := ih st2 ch2 (by omega) (hs.of_view_eq h1.1) h
      exact ⟨h2.1.trans h1.1, by omega⟩
    · rename_i st2 ch2 hscan
      cases h
      exact scanBlock_view j sv _ st _ _ _ _ hj
        (fun I hI hk => hs.ne_of_mem b I hI hk) hscan

theorem rewriteBlocks_view (j : Nat) (sv : Services) (n b : Nat) (st st1 : PassState)
    (changed changed1 : Bool) (hj : j < st.nextId) (hs : Safe j st.F)
    (h : rewriteBlocks sv n b st changed = .ok (st1, changed1)) :
    view j st1.F = view j st.F ∧ st.nextId ≤ st1.nextId := by
  induction n generalizing st changed b with
  | zero => unfold rewriteBlocks at h; cases h; exact ⟨rfl, le_refl _⟩
  | succ n ih =>
    unfold rewriteBlocks at h
    split at h
    · cases h
    · rename_i st2 ch2 hblk
      have h1 := rewriteBlock_view j sv b _ st st2 _ _ hj hs hblk
      have h2 := ih (b + 1) st2 ch2 (by omega) (hs.of_view_eq h1.1) h
      exact ⟨h2.1.trans h1.1, by omega⟩

theorem isRedundantCast_kind (F : IRFunction) (I : Instruction)
    (h : isRedundantCast F I = .ok true) : I.kind.mayReadFromMemory = false := by
  unfold isRedundantCast at h
  split at h
  · rename_i opcode hk
    rw [hk]; rfl
  · cases h

theorem scanCasts_view (j : Nat) (F F1 : IRFunction) (Is : List Instruction)
    (hIs : ∀ I ∈ Is, I.kind.mayReadFromMemory = false → I.id ≠ j)
    (h : scanCasts F Is = .ok (some F1)) : view j F1 = view j F := by
  induction Is with
  | nil => unfold scanCasts at h; cases h
  | cons I Is ih =>
    unfold scanCasts at h
    split at h
    · cases h
    · exact ih (fun X hX => hIs X (List.mem_cons_of_mem _ hX)) h
    · rename_i hred
      have hne := hIs I (List.mem_cons_self _ _) (isRedundantCast_kind F I hred)
      split at h
      · cases h
      · split at h
        · cases h
        · rename_i F2 hF2
          cases h
          rw [view_eraseFromParent j _ hne, view_ReplaceUsesUnsafe j _ _ _ _ hF2]

theorem removeInBlock_view (j b fuel : Nat) (F F1 : IRFunction) (changed changed1 : Bool)
    (hs : Safe j F) (h : removeInBlock b fuel F changed = .ok (F1, changed1)) :
    view j F1 = view j F := by
  induction fuel generalizing F changed with
  | zero => unfold removeInBlock at h; cases h
  | succ fuel ih =>
    unfold removeInBlock at h
    split at h
    · cases h
    · rename_i F2 hscan
      have h1 := scanCasts_view j F F2 _ (fun I hI hk => hs.ne_of_mem b I hI hk) hscan
      exact (ih F2 true (hs.of_view_eq h1) h).trans h1
    · cases h; rfl

theorem removeInBlocks_view (j n b : Nat) (F F1 : IRFunction) (changed changed1 : Bool)
    (hs : Safe j F) (h : removeInBlocks n b F changed = .ok (F1, changed1)) :
    view j F1 = view j F := by
  induction n generalizing F changed b with
  | zero => unfold removeInBlocks at h; cases h; rfl
  | succ n ih =>
    unfold removeInBlocks at h
    split at h
    · cases h
    · rename_i F2 ch2 hblk
      have h1 := removeInBlock_view j b _ F F2 _ _ hs hblk
      exact (ih (b + 1) F2 ch2 (hs.of_view_eq h1) h).trans h1

/-! ## Memory reads are left in place -/

theorem mem_allInsts_of_mem_getD (F : IRFunction) (b : Nat) (X : Instruction)
    (h : X ∈ F.getD b []) : X ∈ allInsts F := by
  unfold allInsts
  by_cases hb : b < F.length
  · rw [List.getD_eq_getElem _ _ hb] at h
    exact List.mem_flatten.mpr ⟨_, List.getElem_mem _, h⟩
  · rw [List.getD_eq_default _ _ (by omega)] at h
    cases h

theorem Safe.of_unique_ids (F : IRFunction) (J : Instruction) (hJ : J ∈ allInsts F)
    (hread : J.kind.mayReadFromMemory = true)
    (hnodup : ((allInsts F).map (fun X => X.id)).Nodup) : Safe J.id F := by
  intro s hs p hp
  unfold view at hs
  obtain ⟨B, hB, rfl⟩ := List.mem_map.mp hs
  obtain ⟨X, hXB, hid, hk, _⟩ := exists_of_mem_sel _ _ _ hp
  have hX : X ∈ allInsts F := List.mem_flatten.mpr ⟨B, hB, hXB⟩
  have : X = J := List.inj_on_of_nodup_map hnodup hX hJ hid
  rw [← hk, this]; exact hread

theorem exists_of_view_eq (j b : Nat) (F F1 : IRFunction) (J : Instruction)
    (hJ : J ∈ F.getD b []) (hj : J.id = j) (h : view j F1 = view j F) :
    ∃ J1 ∈ F1.getD b [], J1.id = j ∧ J1.kind = J.kind ∧ J1.ty = J.ty := by
  have hmem := mem_sel_of_mem j _ J hJ hj
  rw [← view_getD, ← h, view_getD] at hmem
  exact exists_of_mem_sel _ _ _ hmem

/-- C8: memory-read immutability.  Whatever the pending set, the need table and the ranges
are, an instruction that may read from memory is still in its block, under the same identity
and with the same kind and result type, after `InsturctionUpdate_WidthCast` and again after
`RedundantCastRemove` (instruction identities being unique and below the next fresh one). -/
theorem C8_memory_read_immutable (sv : Services) (st st1 : PassState) (F2 : IRFunction)
    (changed1 changed2 : Bool) (b : Nat) (J : Instruction)
    (hJ : J ∈ st.F.getD b [])
    (hread : J.kind.mayReadFromMemory = true)
    (hnodup : ((allInsts st.F).map (fun X => X.id)).Nodup)
    (hfresh : ∀ X ∈ allInsts st.F, X.id < st.nextId)
    (h1 : InsturctionUpdate_WidthCast sv st = .ok (st1, changed1))
    (h2 : RedundantCastRemove st1.F = .ok (F2, changed2)) :
    (∃ J1 ∈ st1.F.getD b [], J1.id = J.id ∧ J1.kind = J.kind ∧ J1.ty = J.ty) ∧
    (∃ J2 ∈ F2.getD b [], J2.id = J.id ∧ J2.kind = J.kind ∧ J2.ty = J.ty) := by
  have hJall := mem_allInsts_of_mem_getD _ _ _ hJ
  have hs : Safe J.id st.F := Safe.of_unique_ids _ J hJall hread hnodup
  have hv1 := (rewriteBlocks_view J.id sv _ _ st st1 _ _ (hfresh J hJall) hs h1).1
  have hv2 := removeInBlocks_view J.id _ _ st1.F F2 _ _ (hs.of_view_eq hv1) h2
  exact ⟨exists_of_view_eq J.id b _ _ J hJ rfl hv1,
    exists_of_view_eq J.id b _ _ J hJ rfl (hv2.trans hv1)⟩

/-- Witness of C8 on `loadAddF`, with a need table that asks for 3 bits for the load: after
both passes the load (1) is still in block 0 with its 32-bit type. -/
theorem C8_memory_read_immutable_witness :
    (∃ J1 ∈ loadAddF1.getD 0 [], J1.id = 1 ∧ J1.kind = .Load ∧ J1.ty = .integer 32) ∧
    (∃ J2 ∈ loadAddF1.getD 0 [], J2.id = 1 ∧ J2.kind = .Load ∧ J2.ty = .integer 32) :=
  C8_memory_read_immutable loadAddSv loadAddSt ⟨loadAddF1, [], [(1, 3), (2, 5)], [], 12⟩
    loadAddF1 true false 0 ⟨1, .Load, .integer 32, [.other .other]⟩
    (by decide) (by rfl) (by decide) (by decide) (by rfl) (by rfl)

/-! ## Types of operands depend only on the view -/

theorem find_map_eq_sel_head (k : Nat) (B : List Instruction) :
    (B.find? (fun I => I.id == k)).map (fun X => (X.kind, X.ty)) = (sel k B).head? := by
  induction B with
  | nil => rfl
  | cons X B ih =>
    rw [sel_cons]
    by_cases h : X.id = k
    · simp [List.find?, h]
    · have hb : (X.id == k) = false := by simpa using h
      simp only [List.find?, hb, h, if_false]
      exact ih

theorem getInst_map_eq_view_head (k : Nat) (F : IRFunction) :
    (getInst F k).map (fun X => (X.kind, X.ty)) = (view k F).flatten.head? := by
  unfold getInst allInsts view
  induction F with
  | nil => rfl
  | cons B Fs ih =>
    simp only [List.flatten_cons, List.map_cons, List.find?_append, List.head?_append]
    rw [← ih, ← find_map_eq_sel_head]
    cases B.find? (fun I => I.id == k) <;> rfl

theorem getType_inst_of_view_eq (k : Nat) (F F1 : IRFunction) (h : view k F1 = view k F) :
    Value.getType F1 (.inst k) = Value.getType F (.inst k) := by
  have h1 := getInst_map_eq_view_head k F1
  have h2 := getInst_map_eq_view_head k F
  rw [h] at h1
  have h3 := h1.trans h2.symm
  unfold Value.getType
  cases ha : getInst F1 k <;> cases hb : getInst F k <;> simp [ha, hb] at h3 ⊢
  exact h3.2

theorem getType_of_view_eq (v : Value) (F F1 : IRFunction)
    (h : ∀ k, v = .inst k → view k F1 = view k F) : v.getType F1 = v.getType F := by
  cases v with
  | inst k => exact getType_inst_of_view_eq k F F1 (h k rfl)
  | constInt C => rfl
  | other ty => rfl

theorem width_of_getType {v : Value} {F : IRFunction} {w : Nat}
    (h : v.getType F = .ok (.integer w)) : v.width F = .ok w := by
  unfold Value.width; rw [h]; rfl

/-! ## Membership under insertion -/

theorem mem_insertAfterL_of_mem (id : Nat) (new X : Instruction) (B : List Instruction)
    (h : X ∈ B) : X ∈ insertAfterL id new B := by
  induction B with
  | nil => cases h
  | cons Y B ih =>
    unfold insertAfterL
    split
    · rcases List.mem_cons.mp h with rfl | h'
      · exact List.mem_cons_self _ _
      · exact List.mem_cons_of_mem _ (List.mem_cons_of_mem _ h')
    · rcases List.mem_cons.mp h with rfl | h'
      · exact List.mem_cons_self _ _
      · exact List.mem_cons_of_mem _ (ih h')

theorem mem_of_mem_insertAfterL (id : Nat) (new X : Instruction) (B : List Instruction)
    (h : X ∈ insertAfterL id new B) : X = new ∨ X ∈ B := by
  induction B with
  | nil => cases h
  | cons Y B ih =>
    unfold insertAfterL at h
    split at h
    · rcases List.mem_cons.mp h with rfl | h'
      · exact Or.inr (List.mem_cons_self _ _)
      · rcases List.mem_cons.mp h' with rfl | h''
        · exact Or.inl rfl
        · exact Or.inr (List.mem_cons_of_mem _ h'')
    · rcases List.mem_cons.mp h with rfl | h'
      · exact Or.inr (List.mem_cons_self _ _)
      · rcases ih h' with h1 | h1
        · exact Or.inl h1
        · exact Or.inr (List.mem_cons_of_mem _ h1)

theorem new_mem_insertAfterL (id : Nat) (new : Instruction) (B : List Instruction)
    (h : ∃ Y ∈ B, Y.id = id) : new ∈ insertAfterL id new B := by
  induction B with
  | nil => obtain ⟨Y, hY, _⟩ := h; cases hY
  | cons Z B ih =>
    unfold insertAfterL
    split
    · exact List.mem_cons_of_mem _ (List.mem_cons_self _ _)
    · rename_i hZ
      obtain ⟨Y, hY, hid⟩ := h
      rcases List.mem_cons.mp hY with rfl | h'
      · exact absurd hid hZ
      · exact List.mem_cons_of_mem _ (ih ⟨Y, h', hid⟩)

theorem new_mem_insertBeforeL (id : Nat) (new : Instruction) (B : List Instruction)
    (h : ∃ Y ∈ B, Y.id = id) : new ∈ insertBeforeL id new B := by
  induction B with
  | nil => obtain ⟨Y, hY, _⟩ := h; cases hY
  | cons Z B ih =>
    unfold insertBeforeL
    split
    · exact List.mem_cons_self _ _
    · rename_i hZ
      obtain ⟨Y, hY, hid⟩ := h
      rcases List.mem_cons.mp hY with rfl | h'
      · exact absurd hid hZ
      · exact List.mem_cons_of_mem _ (ih ⟨Y, h', hid⟩)

theorem mem_of_mem_insertBeforeL (id : Nat) (new X : Instruction) (B : List Instruction)
    (h : X ∈ insertBeforeL id new B) : X = new ∨ X ∈ B := by
  induction B with
  | nil => cases h
  | cons Y B ih =>
    unfold insertBeforeL at h
    split at h
    · rcases List.mem_cons.mp h with rfl | h'
      · exact Or.inl rfl
      · exact Or.inr h'
    · rcases List.mem_cons.mp h with rfl | h'
      · exact Or.inr (List.mem_cons_self _ _)
      · rcases ih h' with h1 | h1
        · exact Or.inl h1
        · exact Or.inr (List.mem_cons_of_mem _ h1)

theorem mem_allInsts_insertAfter (F : IRFunction) (id : Nat) (new X : Instruction)
    (h : X ∈ allInsts (insertAfter F id new)) : X = new ∨ X ∈ allInsts F := by
  unfold allInsts insertAfter at *
  obtain ⟨B', hB', hX⟩ := List.mem_flatten.mp h
  obtain ⟨B, hB, rfl⟩ := List.mem_map.mp hB'
  rcases mem_of_mem_insertAfterL id new X B hX with h1 | h1
  · exact Or.inl h1
  · exact Or.inr (List.mem_flatten.mpr ⟨B, hB, h1⟩)

theorem new_mem_allInsts_insertAfter (F : IRFunction) (id : Nat) (new : Instruction)
    (h : ∃ Y ∈ allInsts F, Y.id = id) : new ∈ allInsts (insertAfter F id new) := by
  unfold allInsts insertAfter at *
  obtain ⟨Y, hY, hid⟩ := h
  obtain ⟨B, hB, hYB⟩ := List.mem_flatten.mp hY
  exact List.mem_flatten.mpr ⟨_, List.mem_map_of_mem _ hB,
    new_mem_insertAfterL id new B ⟨Y, hYB, hid⟩⟩

theorem new_mem_allInsts_insertBefore (F : IRFunction) (id : Nat) (new : Instruction)
    (h : ∃ Y ∈ allInsts F, Y.id = id) : new ∈ allInsts (insertBefore F id new) := by
  unfold allInsts insertBefore at *
  obtain ⟨Y, hY, hid⟩ := h
  obtain ⟨B, hB, hYB⟩ := List.mem_flatten.mp hY
  exact List.mem_flatten.mpr ⟨_, List.mem_map_of_mem _ hB,
    new_mem_insertBeforeL id new B ⟨Y, hYB, hid⟩⟩

theorem getInst_some_iff_exists (F : IRFunction) (k : Nat) :
    (∃ Y ∈ allInsts F, Y.id = k) ↔ ∃ X, getInst F k = some X := by
  unfold getInst
  constructor
  · rintro ⟨Y, hY, hid⟩
    cases h : (allInsts F).find? (fun I => I.id == k) with
    | some X => exact ⟨X, rfl⟩
    | none =>
      rw [List.find?_eq_none] at h
      exact absurd (by simpa using hid) (h Y hY)
  · rintro ⟨X, hX⟩
    exact ⟨X, List.mem_of_find?_eq_some hX, by simpa using List.find?_some hX⟩

/-- The type of a freshly inserted instruction, looked up by its identity. -/
theorem getType_insertAfter_new (F : IRFunction) (id : Nat) (new : Instruction)
    (hanchor : ∃ Y ∈ allInsts F, Y.id = id) (hfresh : ∀ X ∈ allInsts F, X.id ≠ new.id) :
    Value.getType (insertAfter F id new) (.inst new.id) = .ok new.ty := by
  have hmem := new_mem_allInsts_insertAfter F id new hanchor
  obtain ⟨X, hX⟩ := (getInst_some_iff_exists _ _).mp ⟨new, hmem, rfl⟩
  have hXmem := List.mem_of_find?_eq_some hX
  have hXid : X.id = new.id := by simpa using List.find?_some hX
  have : X = new := by
    rcases mem_allInsts_insertAfter F id new X hXmem with h1 | h1
    · exact h1
    · exact absurd hXid (hfresh X h1)
  simp only [Value.getType, hX, this]

/-! ## What operand retargeting produces -/

theorem IntegerType_get_ok {n : Nat} {ty : Ty} (h : IntegerType_get n = .ok ty) :
    ty = .integer n ∧ 1 ≤ n := by
  unfold IntegerType_get at h
  split at h
  · cases h; exact ⟨rfl, by omega⟩
  · cases h

theorem getIntegerBitWidth_ok {ty : Ty} {w : Nat} (h : ty.getIntegerBitWidth = .ok w) :
    ty = .integer w := by
  unfold Ty.getIntegerBitWidth at h
  split at h
  · cases h; rfl
  · cases h

theorem getInst_some_mem {F : IRFunction} {k : Nat} {X : Instruction}
    (h : getInst F k = some X) : X ∈ allInsts F ∧ X.id = k :=
  ⟨List.mem_of_find?_eq_some h, by simpa using List.find?_some h⟩

theorem Fresh.insertAfter_fresh {F : IRFunction} {n : Nat} (hf : Fresh F n) (id : Nat)
    (new : Instruction) (hnew : new.id = n) : Fresh (insertAfter F id new) (n + 1) := by
  intro X hX
  rcases mem_allInsts_insertAfter F id new X hX with h1 | h1
  · rw [h1, hnew]; exact Nat.lt_succ_self _
  · exact Nat.lt_succ_of_lt (hf X h1)

theorem retargetOperand_spec (isNeg : Bool) (need : Nat) (st st1 : PassState) (v v1 : Value)
    (hfresh : Fresh st.F st.nextId)
    (h : retargetOperand isNeg need st v = .ok (v1, st1)) :
    Fresh st1.F st1.nextId ∧
    st1.Instruction_BitNeeded = st.Instruction_BitNeeded ∧
    (∀ ty, v = .other ty → v1 = v) ∧
    ((∀ ty, v ≠ .other ty) → v1.getType st1.F = .ok (.integer need)) ∧
    (∀ k, v1 = .inst k → k < st1.nextId ∧ (v = .inst k ∨ st.nextId ≤ k)) := by
  unfold retargetOperand at h
  split at h
  · -- a constant
    split at h
    · cases h
    · cases h
      refine ⟨hfresh, rfl, ?_, ?_, ?_⟩
      · intro ty hty; cases hty
      · intro _; rfl
      · intro k hk; cases hk
  · -- an instruction
    rename_i id
    split at h
    · cases h
    · rename_i Op_I hOp
      obtain ⟨hOpmem, hOpid⟩ := getInst_some_mem hOp
      split at h
      · cases h
      · split at h
        · cases h
        · rename_i NewTy hNewTy
          obtain ⟨hNew, _⟩ := IntegerType_get_ok hNewTy
          split at h
          · cases h
          · rename_i w hw
            have hOpty := getIntegerBitWidth_ok hw
            split at h
            · cases h
              refine ⟨hfresh.insertAfter_fresh _ _ rfl, rfl, ?_, ?_, ?_⟩
              · intro ty hty; cases hty
              · intro _
                have := getType_insertAfter_new st.F id
                  ⟨st.nextId, .Cast (if isNeg then .SExt else .ZExt), NewTy, [.inst id]⟩
                  ⟨Op_I, hOpmem, hOpid⟩ (fun X hX => Nat.ne_of_lt (hfresh X hX))
                subst hNew
                exact this
              · intro k hk
                cases hk
                exact ⟨Nat.lt_succ_self _, Or.inr (le_refl _)⟩
            · split at h
              · cases h
                refine ⟨hfresh.insertAfter_fresh _ _ rfl, rfl, ?_, ?_, ?_⟩
                · intro ty hty; cases hty
                · intro _
                  have := getType_insertAfter_new st.F id
                    ⟨st.nextId, .Cast .Trunc, NewTy, [.inst id]⟩
                    ⟨Op_I, hOpmem, hOpid⟩ (fun X hX => Nat.ne_of_lt (hfresh X hX))
                  subst hNew
                  exact this
                · intro k hk
                  cases hk
                  exact ⟨Nat.lt_succ_self _, Or.inr (le_refl _)⟩
              · cases h
                refine ⟨hfresh, rfl, ?_, ?_, ?_⟩
                · intro ty hty; cases hty
                · intro _
                  have hwn : w = need := by omega
                  simp only [Value.getType, hOp, hOpty, hwn]
                · intro k hk
                  cases hk
                  exact ⟨hOpid ▸ hfresh Op_I hOpmem, Or.inl rfl⟩
  · -- anything else
    cases h
    refine ⟨hfresh, rfl, ?_, ?_, ?_⟩
    · intro ty _; rfl
    · intro hne; rename_i ty; exact absurd rfl (hne ty)
    · intro k hk; cases hk

/-! ## The binary operator the rewriter builds -/

theorem prepareCast_need (sv : Services) (st st1 : PassState) (I : Instruction) (isNeg : Bool)
    (need : Nat) (h : prepareCast sv st I = .ok (isNeg, need, st1)) :
    needOf st1.Instruction_BitNeeded I.id = need := by
  unfold prepareCast at h
  simp only at h
  split at h
  · split at h
    · cases h
    · cases h; rfl
  · cases h; rfl

theorem retargetOperands_two (isNeg : Bool) (need : Nat) (vs : List Value) (st st2 : PassState)
    (x y : Value) (h : retargetOperands isNeg need vs st = .ok ([x, y], st2)) :
    ∃ a b stm, vs = [a, b] ∧ retargetOperand isNeg need st a = .ok (x, stm) ∧
      retargetOperand isNeg need stm b = .ok (y, st2) := by
  cases vs with
  | nil => unfold retargetOperands at h; cases h
  | cons a vs =>
    unfold retargetOperands at h
    split at h
    · cases h
    · rename_i x' stm ha
      split at h
      · cases h
      · rename_i vs' st' hrest
        cases h
        cases vs with
        | nil => unfold retargetOperands at hrest; cases hrest
        | cons b vs =>
          unfold retargetOperands at hrest
          split at hrest
          · cases hrest
          · rename_i y' stn hb
            split at hrest
            · cases hrest
            · rename_i vs'' st'' hrest2
              cases hrest
              cases vs with
              | nil =>
                unfold retargetOperands at hrest2
                cases hrest2
                exact ⟨a, b, stm, rfl, ha, hb⟩
              | cons c vs =>
                unfold retargetOperands at hrest2
                split at hrest2
                · cases hrest2
                · split at hrest2
                  · cases hrest2
                  · cases hrest2

theorem exists_id_of_view_eq (k : Nat) (F F1 : IRFunction) (h : view k F1 = view k F)
    (hex : ∃ Y ∈ allInsts F, Y.id = k) : ∃ Y ∈ allInsts F1, Y.id = k := by
  obtain ⟨X, hX⟩ := (getInst_some_iff_exists F k).mp hex
  have h1 := getInst_map_eq_view_head k F1
  rw [h, ← getInst_map_eq_view_head k F, hX] at h1
  apply (getInst_some_iff_exists F1 k).mpr
  cases hg : getInst F1 k with
  | some Z => exact ⟨Z, rfl⟩
  | none => rw [hg] at h1; cases h1

theorem mem_allInsts_replaceUses (F : IRFunction) (frm : Nat) (dst : Value) (X : Instruction)
    (hX : X ∈ allInsts F)
    (hops : X.operands.map (fun v => if v = .inst frm then dst else v) = X.operands) :
    X ∈ allInsts (replaceUses F frm dst) := by
  unfold allInsts replaceUses at *
  obtain ⟨B, hB, hXB⟩ := List.mem_flatten.mp hX
  refine List.mem_flatten.mpr ⟨_, List.mem_map_of_mem _ hB, ?_⟩
  refine List.mem_map.mpr ⟨X, hXB, ?_⟩
  rw [hops]

theorem mem_allInsts_eraseFromParent (F : IRFunction) (id : Nat) (X : Instruction) :
    X ∈ allInsts (eraseFromParent F id) ↔ X ∈ allInsts F ∧ X.id ≠ id := by
  unfold allInsts eraseFromParent
  constructor
  · intro h
    obtain ⟨B', hB', hX⟩ := List.mem_flatten.mp h
    obtain ⟨B, hB, rfl⟩ := List.mem_map.mp hB'
    obtain ⟨h1, h2⟩ := List.mem_filter.mp hX
    exact ⟨List.mem_flatten.mpr ⟨B, hB, h1⟩, by simpa using h2⟩
  · rintro ⟨h, hne⟩
    obtain ⟨B, hB, hXB⟩ := List.mem_flatten.mp h
    exact List.mem_flatten.mpr ⟨_, List.mem_map_of_mem _ hB,
      List.mem_filter.mpr ⟨hXB, by simpa using hne⟩⟩

theorem replaceInst_spec (st st1 : PassState) (I new : Instruction)
    (hnew : I.id < new.id) (hanchor : ∃ Y ∈ allInsts st.F, Y.id = I.id)
    (hops : ∀ v ∈ new.operands, v ≠ .inst I.id)
    (h : replaceInst st I new = .ok st1) :
    new ∈ allInsts st1.F ∧ st1.Instruction_BitNeeded = st.Instruction_BitNeeded ∧
    (∀ X ∈ allInsts st1.F, X.id ≠ I.id) ∧
    (∀ k, k ≠ new.id → k ≠ I.id → view k st1.F = view k st.F) := by
  unfold replaceInst at h
  split at h
  · cases h
  · rename_i F2 hF2
    cases h
    have hF2' : F2 = replaceUses (insertBefore st.F I.id new) I.id (.inst new.id) := by
      unfold ReplaceUsesUnsafe at hF2
      split at hF2
      · cases hF2
      · cases hF2; rfl
    refine ⟨?_, rfl, ?_, ?_⟩
    · simp only
      rw [mem_allInsts_eraseFromParent]
      refine ⟨?_, Nat.ne_of_gt hnew⟩
      rw [hF2']
      apply mem_allInsts_replaceUses _ _ _ _ (new_mem_allInsts_insertBefore _ _ _ hanchor)
      conv_rhs => rw [← List.map_id new.operands]
      exact List.map_congr_left (fun v hv => by simp [hops v hv])
    · intro X hX
      exact ((mem_allInsts_eraseFromParent _ _ _).mp hX).2
    · intro k hk1 hk2
      simp only
      rw [view_eraseFromParent k _ (Ne.symm hk2), view_ReplaceUsesUnsafe k _ _ _ _ hF2,
        view_insertBefore k _ _ (Ne.symm hk1)]

/-- What `BOI_WidthCast` does reach: a binary operator it rebuilds -- the old instruction being
in the function, not using itself, and having an operand that is an integer constant or an
instruction -- is replaced by a binary operator of the same opcode under a fresh identity
whose result width is the need recorded for the old instruction (the declared width when an
operand is a pointer-to-integer conversion) and whose operands all have that width when it
is built; the old instruction is no longer in the function. -/
theorem BOI_WidthCast_widths_of_cast_operand (sv : Services) (st st1 : PassState)
    (I : Instruction) (opcode : Nat)
    (hfresh : Fresh st.F st.nextId) (hI : I ∈ allInsts st.F)
    (hself : Value.inst I.id ∉ I.operands)
    (hop : ∃ v ∈ I.operands, ∀ ty, v ≠ .other ty)
    (h : BOI_WidthCast sv st I opcode = .ok st1) :
    ∃ new ∈ allInsts st1.F, st.nextId ≤ new.id ∧ new.kind = .BinaryOperator opcode ∧
      new.ty = .integer (needOf st1.Instruction_BitNeeded I.id) ∧
      (∀ v ∈ new.operands, v.width st1.F = .ok (needOf st1.Instruction_BitNeeded I.id)) ∧
      (∀ X ∈ allInsts st1.F, X.id ≠ I.id) := by
  unfold BOI_WidthCast at h
  split at h
  · cases h
  · rename_i isNeg need sta hprep
    obtain ⟨hFa, hna⟩ := prepareCast_F _ _ _ _ _ _ hprep
    have hneed := prepareCast_need _ _ _ _ _ _ hprep
    split at h
    · cases h
    · rename_i ops stb hops
      split at h
      · rename_i x y
        obtain ⟨a, b, stm, hab, ha, hb⟩ := retargetOperands_two _ _ _ _ _ _ _ hops
        have hfa : Fresh sta.F sta.nextId := by rw [hFa, hna]; exact hfresh
        obtain ⟨hfm, htm, hoa, hta, hka⟩ := retargetOperand_spec _ _ _ _ _ _ hfa ha
        obtain ⟨hfb, htb, hob, htyb, hkb⟩ := retargetOperand_spec _ _ _ _ _ _ hfm hb
        have hmono1 := (retargetOperand_view 0 _ _ _ _ _ _ (by
          have := hfa I (hFa ▸ hI); omega) ha).2
        have hmono2 := (retargetOperand_view 0 _ _ _ _ _ _ (by
          have := hfa I (hFa ▸ hI); omega) hb).2
        have hIlt : I.id < sta.nextId := hfa I (hFa ▸ hI)
        -- the type of `x` is unchanged by the second round
        have hxstable : x.getType stb.F = x.getType stm.F :=
          getType_of_view_eq x _ _ (fun k hk =>
            (retargetOperand_view k _ _ _ _ _ _ (hka k hk).1 hb).1)
        split at h
        · rename_i t0 t1 ht0 ht1
          split at h
          · rename_i ht01
            -- both operands have the need as their type
            have hboth : t0 = .integer need := by
              obtain ⟨v, hv, hvne⟩ := hop
              rw [hab] at hv
              rcases List.mem_cons.mp hv with rfl | hv'
              · have := hta hvne
                rw [← hxstable, ht0] at this
                cases this; rfl
              · rcases List.mem_cons.mp hv' with rfl | hv''
                · have := htyb hvne
                  rw [ht1] at this
                  cases this; exact ht01
                · cases hv''
            have hxne : x ≠ .inst I.id := by
              intro hx
              rcases (hka I.id hx).2 with h1 | h1
              · exact hself (by rw [hab, h1]; exact List.mem_cons_self _ _)
              · omega
            have hyne : y ≠ .inst I.id := by
              intro hy
              rcases (hkb I.id hy).2 with h1 | h1
              · exact hself (by
                  rw [hab, h1]; exact List.mem_cons_of_mem _ (List.mem_cons_self _ _))
              · omega
            have hanchor : ∃ Y ∈ allInsts stb.F, Y.id = I.id := by
              have hv1 := (retargetOperand_view I.id _ _ _ _ _ _ hIlt ha).1
              have hv2 := (retargetOperand_view I.id _ _ _ _ _ _ (by omega) hb).1
              exact exists_id_of_view_eq I.id sta.F stb.F (hv2.trans hv1)
                ⟨I, hFa ▸ hI, rfl⟩
            obtain ⟨hmem, htbl, hgone, hview⟩ := replaceInst_spec stb st1 I
              ⟨stb.nextId, .BinaryOperator opcode, t0, [x, y]⟩ (by simp only; omega) hanchor
              (by
                intro v hv
                rcases List.mem_cons.mp hv with rfl | hv'
                · exact hxne
                · rcases List.mem_cons.mp hv' with rfl | hv''
                  · exact hyne
                  · cases hv'') h
            have hneed1 : needOf st1.Instruction_BitNeeded I.id = need := by
              rw [htbl, htb, htm]; exact hneed
            refine ⟨_, hmem, by simp only; omega, rfl, by simp only; rw [hneed1, hboth],
              ?_, hgone⟩
            intro v hv
            rw [hneed1]
            apply width_of_getType
            have hstable : v.getType st1.F = v.getType stb.F := by
              apply getType_of_view_eq
              intro k hk
              apply hview k
              · simp only
                rcases List.mem_cons.mp hv with rfl | hv'
                · have := (hka k hk).1; omega
                · rcases List.mem_cons.mp hv' with rfl | hv''
                  · have := (hkb k hk).1; omega
                  · cases hv''
              · intro hkI
                rcases List.mem_cons.mp hv with rfl | hv'
                · exact hxne (by rw [hk, hkI])
                · rcases List.mem_cons.mp hv' with rfl | hv''
                  · exact hyne (by rw [hk, hkI])
                  · cases hv''
            rw [hstable]
            rcases List.mem_cons.mp hv with rfl | hv'
            · rw [ht0, hboth]
            · rcases List.mem_cons.mp hv' with rfl | hv''
              · rw [ht1, ← ht01, hboth]
              · cases hv''
          · cases h
        · cases h
      · cases h

/-- On `loadAddF` the addition (2) with need 5 is rebuilt as a 5-bit binary operator whose
operands are 5 bits wide. -/
theorem BOI_WidthCast_widths_on_loadAddF :
    ∃ new ∈ allInsts loadAddF1, 10 ≤ new.id ∧ new.kind = .BinaryOperator 13 ∧
      new.ty = .integer 5 ∧
      (∀ v ∈ new.operands, v.width loadAddF1 = .ok 5) ∧
      (∀ X ∈ allInsts loadAddF1, X.id ≠ 2) :=
  BOI_WidthCast_widths_of_cast_operand loadAddSv loadAddSt
    ⟨loadAddF1, [1, 2], [(1, 3), (2, 5)], [], 12⟩
    ⟨2, .BinaryOperator 13, .integer 32, [.inst 1, .constInt ⟨32, 1⟩]⟩ 13
    (by unfold Fresh; decide) (by decide) (by decide)
    ⟨.inst 1, by decide, fun _ h => by cases h⟩ (by rfl)

/-- Casts and instructions of other kinds are bypassed (lines 134-136, 204-207): on `castF`,
after `Bitwidth_Analysis` and `InsturctionUpdate_WidthCast` the function is unchanged; the
zero-extension (2) and the instruction of another kind (3) are integer-typed, read no memory
and are neither comparisons nor phi nodes, their recorded need is 8, and their result width
is still 32. -/
theorem bypassed_kinds_keep_width_on_castF :
    (InsturctionUpdate_WidthCast castSv
        (Bitwidth_Analysis castSv ⟨castF, [], [], [], 10⟩)).toOption.map
      (fun r => (r.1.F, needOf r.1.Instruction_BitNeeded 2, needOf r.1.Instruction_BitNeeded 3))
      = some (castF, 8, 8) ∧
    (⟨2, .Cast .ZExt, .integer 32, [.inst 1]⟩ : Instruction) ∈ allInsts castF ∧
    (⟨3, .Other false, .integer 32, [.other (.integer 1), .inst 2, .constInt ⟨32, 0⟩]⟩ :
      Instruction) ∈ allInsts castF ∧
    (Kind.Cast .ZExt).mayReadFromMemory = false ∧
    (Kind.Other false).mayReadFromMemory = false := by
  refine ⟨by rfl, by decide, by decide, rfl, rfl⟩

/-- C9: the width invariant fails for a binary operator whose operands are function
arguments.  On `argAddF`, an addition of two 32-bit arguments whose range is `[0, 16)`,
`Bitwidth_Analysis` records the need 5 for the addition (2).  `InsturctionUpdate_WidthCast`
returns and has rebuilt the addition under a new identity (10), but from the same operands:
the operand loop of `BOI_WidthCast` recasts constants and instructions only, and
`BinaryOperator::Create` takes the type of operand 0.  After the two steps the function holds
an integer-typed binary operator (no memory read, no comparison, no phi) whose result and
operands are 32 bits wide, while the need recorded for the addition is 5 (and none is
recorded for the new identity, which reads as 0). -/
theorem C9_argument_operands_keep_declared_width :
    (InsturctionUpdate_WidthCast argAddSv
        (Bitwidth_Analysis argAddSv ⟨argAddF, [], [], [], 10⟩)).toOption.map
      (fun r => (r.1.F, needOf r.1.Instruction_BitNeeded 2, needOf r.1.Instruction_BitNeeded 10))
      = some (argAddF1, 5, 0) ∧
    needOf (Bitwidth_Analysis argAddSv ⟨argAddF, [], [], [], 10⟩).Instruction_BitNeeded 2 = 5 ∧
    (⟨10, .BinaryOperator 13, .integer 32, [.other (.integer 32), .other (.integer 32)]⟩ :
      Instruction) ∈ allInsts argAddF1 ∧
    (Kind.BinaryOperator 13).mayReadFromMemory = false ∧
    Value.width argAddF1 (.inst 10) = .ok 32 ∧
    Value.width argAddF1 (.other (.integer 32)) = .ok 32 := by
  refine ⟨by rfl, by rfl, by decide, rfl, by rfl, by rfl⟩

/-! ## Instruction identities stay unique -/

theorem sel_eq_nil (k : Nat) (B : List Instruction) (h : ∀ X ∈ B, X.id ≠ k) : sel k B = [] := by
  induction B with
  | nil => rfl
  | cons X B ih =>
    rw [sel_cons, if_neg (h X (List.mem_cons_self _ _))]
    exact ih (fun Y hY => h Y (List.mem_cons_of_mem _ hY))

theorem cnt_nil (k : Nat) : cnt k [] = 0 := rfl

theorem cnt_cons (k : Nat) (B : List Instruction) (F : IRFunction) :
    cnt k (B :: F) = (sel k B).length + cnt k F := by
  simp [cnt, view]

theorem cnt_eq_zero_iff (k : Nat) (F : IRFunction) :
    cnt k F = 0 ↔ ∀ X ∈ allInsts F, X.id ≠ k := by
  induction F with
  | nil => simp [cnt_nil, allInsts]
  | cons B F ih =>
    rw [cnt_cons]
    constructor
    · intro h X hX
      have h1 : (sel k B).length = 0 := by omega
      have h2 : cnt k F = 0 := by omega
      unfold allInsts at hX
      rw [List.flatten_cons, List.mem_append] at hX
      rcases hX with hX | hX
      · intro hid
        have := mem_sel_of_mem k B X hX hid
        rw [List.length_eq_zero.mp h1] at this
        cases this
      · exact ih.mp h2 X hX
    · intro h
      have h1 : sel k B = [] := sel_eq_nil k B (fun X hX => h X (by
        unfold allInsts; rw [List.flatten_cons, List.mem_append]; exact Or.inl hX))
      have h2 : cnt k F = 0 := ih.mpr (fun X hX => h X (by
        unfold allInsts at hX ⊢; rw [List.flatten_cons, List.mem_append]; exact Or.inr hX))
      rw [h1, h2]; rfl

theorem IdsOk.fresh {F : IRFunction} {n : Nat} (h : IdsOk F n) : Fresh F n := by
  intro X hX
  by_contra hlt
  exact (cnt_eq_zero_iff X.id F).mp (h.2 X.id (by omega)) X hX rfl

theorem cnt_of_view_eq {k : Nat} {F F1 : IRFunction} (h : view k F1 = view k F) :
    cnt k F1 = cnt k F := by
  unfold cnt; rw [h]

theorem sel_new_insertAfterL (id : Nat) (new : Instruction) (B : List Instruction)
    (h : ∀ X ∈ B, X.id ≠ new.id) :
    (sel new.id (insertAfterL id new B)).length ≤ (sel id B).length := by
  induction B with
  | nil => exact le_refl _
  | cons X B ih =>
    have hX := h X (List.mem_cons_self _ _)
    have hB := fun Y hY => h Y (List.mem_cons_of_mem _ hY)
    unfold insertAfterL
    split
    · rename_i hid
      rw [sel_cons, if_neg hX, sel_cons, if_pos rfl, sel_eq_nil _ _ hB, sel_cons, if_pos hid]
      simp
    · rename_i hid
      rw [sel_cons, if_neg hX, sel_cons, if_neg hid]
      exact ih hB

theorem sel_new_insertBeforeL (id : Nat) (new : Instruction) (B : List Instruction)
    (h : ∀ X ∈ B, X.id ≠ new.id) :
    (sel new.id (insertBeforeL id new B)).length ≤ (sel id B).length := by
  induction B with
  | nil => exact le_refl _
  | cons X B ih =>
    have hX := h X (List.mem_cons_self _ _)
    have hB := fun Y hY => h Y (List.mem_cons_of_mem _ hY)
    unfold insertBeforeL
    split
    · rename_i hid
      rw [sel_cons, if_pos rfl, sel_cons, if_neg hX, sel_eq_nil _ _ hB, sel_cons, if_pos hid]
      simp
    · rename_i hid
      rw [sel_cons, if_neg hX, sel_cons, if_neg hid]
      exact ih hB

theorem cnt_new_insertAfter (id : Nat) (new : Instruction) (F : IRFunction)
    (h : ∀ X ∈ allInsts F, X.id ≠ new.id) :
    cnt new.id (insertAfter F id new) ≤ cnt id F := by
  induction F with
  | nil => simp [insertAfter, cnt_nil]
  | cons B F ih =>
    have hB : ∀ X ∈ B, X.id ≠ new.id := fun X hX => h X (by
      unfold allInsts; rw [List.flatten_cons, List.mem_append]; exact Or.inl hX)
    have hF : ∀ X ∈ allInsts F, X.id ≠ new.id := fun X hX => h X (by
      unfold allInsts at hX ⊢; rw [List.flatten_cons, List.mem_append]; exact Or.inr hX)
    have h1 := sel_new_insertAfterL id new B hB
    have h2 := ih hF
    unfold insertAfter at h2 ⊢
    rw [List.map_cons, cnt_cons, cnt_cons]
    omega

theorem cnt_new_insertBefore (id : Nat) (new : Instruction) (F : IRFunction)
    (h : ∀ X ∈ allInsts F, X.id ≠ new.id) :
    cnt new.id (insertBefore F id new) ≤ cnt id F := by
  induction F with
  | nil => simp [insertBefore, cnt_nil]
  | cons B F ih =>
    have hB : ∀ X ∈ B, X.id ≠ new.id := fun X hX => h X (by
      unfold allInsts; rw [List.flatten_cons, List.mem_append]; exact Or.inl hX)
    have hF : ∀ X ∈ allInsts F, X.id ≠ new.id := fun X hX => h X (by
      unfold allInsts at hX ⊢; rw [List.flatten_cons, List.mem_append]; exact Or.inr hX)
    have h1 := sel_new_insertBeforeL id new B hB
    have h2 := ih hF
    unfold insertBefore at h2 ⊢
    rw [List.map_cons, cnt_cons, cnt_cons]
    omega

theorem IdsOk.insertAfter {F : IRFunction} {n : Nat} (h : IdsOk F n) (id : Nat)
    (new : Instruction) (hnew : new.id = n) : IdsOk (insertAfter F id new) (n + 1) := by
  have hfresh : ∀ X ∈ allInsts F, X.id ≠ new.id :=
    fun X hX => by have := h.fresh X hX; omega
  constructor
  · intro k
    by_cases hk : k = new.id
    · rw [hk]
      exact le_trans (cnt_new_insertAfter id new F hfresh) (h.1 id)
    · rw [cnt_of_view_eq (view_insertAfter k id new (Ne.symm hk) F)]
      exact h.1 k
  · intro k hk
    rw [cnt_of_view_eq (view_insertAfter k id new (by omega) F)]
    exact h.2 k (by omega)

theorem IdsOk.insertBefore {F : IRFunction} {n : Nat} (h : IdsOk F n) (id : Nat)
    (new : Instruction) (hnew : new.id = n) : IdsOk (insertBefore F id new) (n + 1) := by
  have hfresh : ∀ X ∈ allInsts F, X.id ≠ new.id :=
    fun X hX => by have := h.fresh X hX; omega
  constructor
  · intro k
    by_cases hk : k = new.id
    · rw [hk]
      exact le_trans (cnt_new_insertBefore id new F hfresh) (h.1 id)
    · rw [cnt_of_view_eq (view_insertBefore k id new (Ne.symm hk) F)]
      exact h.1 k
  · intro k hk
    rw [cnt_of_view_eq (view_insertBefore k id new (by omega) F)]
    exact h.2 k (by omega)

theorem cnt_eraseFromParent_self (id : Nat) (F : IRFunction) :
    cnt id (eraseFromParent F id) = 0 := by
  rw [cnt_eq_zero_iff]
  intro X hX
  exact ((mem_allInsts_eraseFromParent F id X).mp hX).2

theorem cnt_eraseFromParent_le (k id : Nat) (F : IRFunction) :
    cnt k (eraseFromParent F id) ≤ cnt k F := by
  by_cases hk : id = k
  · rw [← hk, cnt_eraseFromParent_self]; exact Nat.zero_le _
  · rw [cnt_of_view_eq (view_eraseFromParent k id hk F)]

theorem IdsOk.of_cnt_le {F F1 : IRFunction} {n : Nat} (h : IdsOk F n)
    (hle : ∀ k, cnt k F1 ≤ cnt k F) : IdsOk F1 n :=
  ⟨fun k => le_trans (hle k) (h.1 k),
   fun k hk => Nat.le_zero.mp (h.2 k hk ▸ hle k)⟩

theorem IdsOk.mono {F : IRFunction} {n m : Nat} (h : IdsOk F n) (hnm : n ≤ m) : IdsOk F m :=
  ⟨h.1, fun k hk => h.2 k (by omega)⟩

theorem retargetOperand_ids (isNeg : Bool) (need : Nat) (st st1 : PassState) (v v1 : Value)
    (hids : IdsOk st.F st.nextId)
    (h : retargetOperand isNeg need st v = .ok (v1, st1)) : IdsOk st1.F st1.nextId := by
  unfold retargetOperand at h
  split at h
  · split at h
    · cases h
    · cases h; exact hids
  · split at h
    · cases h
    · split at h
      · cases h
      · split at h
        · cases h
        · split at h
          · cases h
          · split at h
            · cases h; exact hids.insertAfter _ _ rfl
            · split at h
              · cases h; exact hids.insertAfter _ _ rfl
              · cases h; exact hids
  · cases h; exact hids

theorem retargetOperands_ids (isNeg : Bool) (need : Nat) (vs vs1 : List Value)
    (st st1 : PassState) (hids : IdsOk st.F st.nextId)
    (h : retargetOperands isNeg need vs st = .ok (vs1, st1)) : IdsOk st1.F st1.nextId := by
  induction vs generalizing st vs1 with
  | nil => unfold retargetOperands at h; cases h; exact hids
  | cons v vs ih =>
    unfold retargetOperands at h
    split at h
    · cases h
    · rename_i v' st' hv
      split at h
      · cases h
      · rename_i vs' st'' hvs
        cases h
        exact ih _ _ (retargetOperand_ids _ _ _ _ _ _ hids hv) hvs

theorem replaceInst_ids (st st1 : PassState) (I new : Instruction)
    (hids : IdsOk st.F st.nextId) (hnew : new.id = st.nextId)
    (h : replaceInst st I new = .ok st1) : IdsOk st1.F st1.nextId := by
  unfold replaceInst at h
  split at h
  · cases h
  · rename_i F2 hF2
    cases h
    simp only
    refine (hids.insertBefore I.id new hnew).of_cnt_le (fun k => ?_)
    rw [← cnt_of_view_eq (view_ReplaceUsesUnsafe k _ _ _ _ hF2)]
    exact cnt_eraseFromParent_le k I.id F2

theorem BOI_WidthCast_ids (sv : Services) (st st1 : PassState) (I : Instruction) (opcode : Nat)
    (hids : IdsOk st.F st.nextId) (h : BOI_WidthCast sv st I opcode = .ok st1) :
    IdsOk st1.F st1.nextId := by
  unfold BOI_WidthCast at h
  split at h
  · cases h
  · rename_i isNeg need sta hprep
    obtain ⟨hF, hn⟩ := prepareCast_F _ _ _ _ _ _ hprep
    split at h
    · cases h
    · rename_i ops stb hops
      have h1 := retargetOperands_ids isNeg need _ _ sta stb (by rw [hF, hn]; exact hids) hops
      split at h
      · split at h
        · split at h
          · exact replaceInst_ids stb st1 I _ h1 rfl h
          · cases h
        · cases h
      · cases h

theorem ICMP_WidthCast_ids (sv : Services) (st st1 : PassState) (I : Instruction)
    (predicate : Nat) (hids : IdsOk st.F st.nextId)
    (h : ICMP_WidthCast sv st I predicate = .ok st1) : IdsOk st1.F st1.nextId := by
  unfold ICMP_WidthCast at h
  split at h
  · cases h
  · rename_i isNeg need sta hprep
    obtain ⟨hF, hn⟩ := prepareCast_F _ _ _ _ _ _ hprep
    split at h
    · cases h
    · rename_i ops stb hops
      have h1 := retargetOperands_ids isNeg need _ _ sta stb (by rw [hF, hn]; exact hids) hops
      split at h
      · split at h
        · split at h
          · exact replaceInst_ids stb st1 I _ h1 rfl h
          · cases h
        · cases h
      · cases h

theorem PHI_WidthCast_ids (sv : Services) (st st1 : PassState) (I : Instruction)
    (blocks : List Nat) (hids : IdsOk st.F st.nextId)
    (h : PHI_WidthCast sv st I blocks = .ok st1) : IdsOk st1.F st1.nextId := by
  unfold PHI_WidthCast at h
  split at h
  · cases h
  · rename_i isNeg need sta hprep
    obtain ⟨hF, hn⟩ := prepareCast_F _ _ _ _ _ _ hprep
    split at h
    · cases h
    · rename_i ops stb hops
      have h1 := retargetOperands_ids isNeg need _ _ sta stb (by rw [hF, hn]; exact hids) hops
      split at h
      · cases h
      · split at h
        · cases h
        · split at h
          · exact replaceInst_ids stb st1 I _ h1 rfl h
          · cases h

theorem visit_ids (sv : Services) (st st1 : PassState) (changed changed1 brk : Bool)
    (I : Instruction) (hids : IdsOk st.F st.nextId)
    (h : visit sv st changed I = .ok (st1, changed1, brk)) : IdsOk st1.F st1.nextId := by
  unfold visit at h
  simp only at h
  split at h
  · split at h
    · cases h; exact hids
    · split at h
      · cases h; exact hids
      · split at h
        · cases h; exact hids
        · split at h
          · cases h
          · cases h; exact hids
          · split at h
            · cases h
            · cases h; exact hids
            · split at h
              · split at h
                · cases h
                · rename_i st2 hb
                  cases h
                  exact BOI_WidthCast_ids sv
                    { st with Instruction_id := st.Instruction_id.filter (fun k => k != I.id) }
                    _ I _ hids hb
              · split at h
                · cases h
                · rename_i st2 hb
                  cases h
                  exact ICMP_WidthCast_ids sv
                    { st with Instruction_id := st.Instruction_id.filter (fun k => k != I.id) }
                    _ I _ hids hb
              · split at h
                · cases h
                · rename_i st2 hb
                  cases h
                  exact PHI_WidthCast_ids sv
                    { st with Instruction_id := st.Instruction_id.filter (fun k => k != I.id) }
                    _ I _ hids hb
              · cases h; exact hids
  · cases h; exact hids

theorem scanBlock_ids (sv : Services) (Is : List Instruction) (st st1 : PassState)
    (changed changed1 brk : Bool) (hids : IdsOk st.F st.nextId)
    (h : scanBlock sv Is st changed = .ok (st1, changed1, brk)) : IdsOk st1.F st1.nextId := by
  induction Is generalizing st changed with
  | nil => unfold scanBlock at h; cases h; exact hids
  | cons I Is ih =>
    unfold scanBlock at h
    split at h
    · cases h
    · rename_i st2 ch2 hv
      cases h
      exact visit_ids sv _ _ _ _ _ I hids hv
    · rename_i st2 ch2 hv
      exact ih st2 ch2 (visit_ids sv _ _ _ _ _ I hids hv) h

theorem rewriteBlock_ids (sv : Services) (b fuel : Nat) (st st1 : PassState)
    (changed changed1 : Bool) (hids : IdsOk st.F st.nextId)
    (h : rewriteBlock sv b fuel st changed = .ok (st1, changed1)) :
    IdsOk st1.F st1.nextId := by
  induction fuel generalizing st changed with
  | zero => unfold rewriteBlock at h; cases h
  | succ fuel ih =>
    unfold rewriteBlock at h
    split at h
    · cases h
    · rename_i st2 ch2 hscan
      exact ih st2 ch2 (scanBlock_ids sv _ st st2 _ _ _ hids hscan) h
    · rename_i st2 ch2 hscan
      cases h
      exact scanBlock_ids sv _ st _ _ _ _ hids hscan

theorem rewriteBlocks_ids (sv : Services) (n b : Nat) (st st1 : PassState)
    (changed changed1 : Bool) (hids : IdsOk st.F st.nextId)
    (h : rewriteBlocks sv n b st changed = .ok (st1, changed1)) :
    IdsOk st1.F st1.nextId := by
  induction n generalizing st changed b with
  | zero => unfold rewriteBlocks at h; cases h; exact hids
  | succ n ih =>
    unfold rewriteBlocks at h
    split at h
    · cases h
    · rename_i st2 ch2 hblk
      exact ih (b + 1) st2 ch2 (rewriteBlock_ids sv b _ st st2 _ _ hids hblk) h

/-! ## `RedundantCastRemove` leaves no removable cast -/

theorem sel_length_eq_count (k : Nat) (B : List Instruction) :
    (sel k B).length = (B.map (fun X => X.id)).count k := by
  induction B with
  | nil => rfl
  | cons X B ih =>
    rw [sel_cons, List.map_cons, List.count_cons]
    by_cases h : X.id = k
    · simp [h, ih]
    · simp [h, ih]

theorem cnt_eq_count (k : Nat) (F : IRFunction) :
    cnt k F = ((allInsts F).map (fun X => X.id)).count k := by
  induction F with
  | nil => rfl
  | cons B F ih =>
    rw [cnt_cons, ih, sel_length_eq_count]
    unfold allInsts
    rw [List.flatten_cons, List.map_append, List.count_append]

theorem IdsOk.of_nodup (F : IRFunction) (n : Nat)
    (hnodup : ((allInsts F).map (fun X => X.id)).Nodup) (hfresh : Fresh F n) : IdsOk F n := by
  constructor
  · intro k
    rw [cnt_eq_count]
    exact List.nodup_iff_count_le_one.mp hnodup k
  · intro k hk
    rw [cnt_eq_zero_iff]
    intro X hX hid
    have := hfresh X hX
    omega

theorem scanCasts_none_iff (F : IRFunction) (B : List Instruction) :
    scanCasts F B = .ok none ↔ ∀ X ∈ B, isRedundantCast F X = .ok false := by
  induction B with
  | nil => simp [scanCasts]
  | cons I B ih =>
    unfold scanCasts
    constructor
    · intro h
      split at h
      · cases h
      · rename_i hI
        intro X hX
        rcases List.mem_cons.mp hX with rfl | hX'
        · exact hI
        · exact ih.mp h X hX'
      · split at h
        · cases h
        · split at h
          · cases h
          · cases h
    · intro h
      rw [h I (List.mem_cons_self _ _)]
      exact ih.mpr (fun X hX => h X (List.mem_cons_of_mem _ hX))

theorem scanCasts_some (F F1 : IRFunction) (B : List Instruction)
    (h : scanCasts F B = .ok (some F1)) :
    ∃ C ∈ B, isRedundantCast F C = .ok true ∧ ∃ v rest, C.operands = v :: rest ∧
      ReplaceUsesUnsafe F C.id v = .ok (replaceUses F C.id v) ∧
      F1 = eraseFromParent (replaceUses F C.id v) C.id := by
  induction B with
  | nil => unfold scanCasts at h; cases h
  | cons I B ih =>
    unfold scanCasts at h
    split at h
    · cases h
    · obtain ⟨C, hC, hrest⟩ := ih h
      exact ⟨C, List.mem_cons_of_mem _ hC, hrest⟩
    · rename_i hI
      split at h
      · cases h
      · rename_i v rest hops
        split at h
        · cases h
        · rename_i F2 hF2
          cases h
          have hF2' : F2 = replaceUses F I.id v := by
            unfold ReplaceUsesUnsafe at hF2
            split at hF2
            · cases hF2
            · cases hF2; rfl
          subst hF2'
          exact ⟨I, List.mem_cons_self _ _, hI, v, rest, hops, hF2, rfl⟩

theorem getD_map_nil (F : IRFunction) (g : List Instruction → List Instruction)
    (hg : g [] = []) (i : Nat) : (F.map g).getD i [] = g (F.getD i []) := by
  simp only [List.getD_eq_getElem?_getD, List.getElem?_map]
  cases F[i]? with
  | none => simp [hg]
  | some B => rfl

theorem getD_erase_replace (F : IRFunction) (c : Nat) (v : Value) (i : Nat) :
    (eraseFromParent (replaceUses F c v) c).getD i []
      = ((F.getD i []).map (redirect c v)).filter (fun I => I.id != c) := by
  unfold eraseFromParent replaceUses
  rw [getD_map_nil _ _ rfl, getD_map_nil _ _ rfl]
  rfl

theorem view_erase_replace (k c : Nat) (v : Value) (F : IRFunction) (hk : c ≠ k) :
    view k (eraseFromParent (replaceUses F c v) c) = view k F := by
  rw [view_eraseFromParent k c hk, view_replaceUses]

/-- Under unique identities, the type found for identity `C.id` is the type of `C`. -/
theorem getType_of_unique (F : IRFunction) (C : Instruction) (hC : C ∈ allInsts F)
    (huniq : cnt C.id F ≤ 1) : Value.getType F (.inst C.id) = .ok C.ty := by
  have hmem : (C.kind, C.ty) ∈ (view C.id F).flatten := by
    unfold allInsts at hC
    obtain ⟨B, hB, hCB⟩ := List.mem_flatten.mp hC
    exact List.mem_flatten.mpr ⟨sel C.id B, List.mem_map_of_mem _ hB,
      mem_sel_of_mem _ _ _ hCB rfl⟩
  have hhead : (view C.id F).flatten.head? = some (C.kind, C.ty) := by
    unfold cnt at huniq
    cases hl : (view C.id F).flatten with
    | nil => rw [hl] at hmem; cases hmem
    | cons p ps =>
      rw [hl] at hmem huniq
      cases ps with
      | nil =>
        rcases List.mem_cons.mp hmem with h1 | h1
        · rw [h1]; rfl
        · cases h1
      | cons q qs => simp at huniq
  have h1 := getInst_map_eq_view_head C.id F
  rw [hhead] at h1
  cases hg : getInst F C.id with
  | none => rw [hg] at h1; cases h1
  | some Y =>
    rw [hg] at h1
    simp only [Option.map_some', Option.some.injEq, Prod.mk.injEq] at h1
    simp only [Value.getType, hg, h1.2]

theorem isRedundantCast_true (F : IRFunction) (C : Instruction) (v : Value)
    (rest : List Value) (hops : C.operands = v :: rest)
    (h : isRedundantCast F C = .ok true) :
    ∃ w, C.ty = .integer w ∧ v.width F = .ok w := by
  unfold isRedundantCast at h
  split at h
  · split at h
    · cases h
    · split at h
      · rename_i w u us hw hu
        split at h
        · rename_i wv hwv
          rw [hops] at hu
          cases hu
          injection h with h'
          have : w = wv := by simpa using h'
          exact ⟨w, getIntegerBitWidth_ok hw, this ▸ hwv⟩
        · cases h
      · cases h
  · cases h

theorem width_congr {v : Value} {F F1 : IRFunction} (h : v.getType F1 = v.getType F) :
    v.width F1 = v.width F := by
  unfold Value.width; rw [h]

theorem width_erase_replace_of_ne (F : IRFunction) (c : Nat) (v u : Value)
    (hu : u ≠ .inst c) :
    u.width (eraseFromParent (replaceUses F c v) c) = u.width F := by
  apply width_congr
  apply getType_of_view_eq
  intro k hk
  exact view_erase_replace k c v F (fun hck => hu (by rw [hk, hck]))

theorem width_redirect (F : IRFunction) (C : Instruction) (v : Value) (rest : List Value)
    (hC : C ∈ allInsts F) (huniq : cnt C.id F ≤ 1) (hops : C.operands = v :: rest)
    (hred : isRedundantCast F C = .ok true) (u : Value)
    (hv : u = .inst C.id → v ≠ .inst C.id) :
    (if u = .inst C.id then v else u).width (eraseFromParent (replaceUses F C.id v) C.id)
      = u.width F := by
  by_cases hu : u = .inst C.id
  · rw [if_pos hu, width_erase_replace_of_ne F C.id v v (hv hu)]
    obtain ⟨w, hw, hvw⟩ := isRedundantCast_true F C v rest hops hred
    rw [hvw, hu]
    exact (width_of_getType (by rw [getType_of_unique F C hC huniq, hw])).symm
  · rw [if_neg hu]
    exact width_erase_replace_of_ne F C.id v u hu

theorem hasUses_of_mem (F : IRFunction) (c : Nat) (X : Instruction) (hX : X ∈ allInsts F)
    (hu : Value.inst c ∈ X.operands) : hasUses F c = true := by
  unfold hasUses
  rw [List.any_eq_true]
  exact ⟨X, hX, by simpa using hu⟩

theorem isRedundantCast_redirect (F : IRFunction) (C : Instruction) (v : Value)
    (rest : List Value) (hC : C ∈ allInsts F) (huniq : cnt C.id F ≤ 1)
    (hops : C.operands = v :: rest) (hred : isRedundantCast F C = .ok true)
    (hok : ReplaceUsesUnsafe F C.id v = .ok (replaceUses F C.id v))
    (X : Instruction) (hX : X ∈ allInsts F) :
    isRedundantCast (eraseFromParent (replaceUses F C.id v) C.id) (redirect C.id v X)
      = isRedundantCast F X := by
  have hv : ∀ u ∈ X.operands, u = .inst C.id → v ≠ .inst C.id := by
    intro u hu huc hvc
    have huses := hasUses_of_mem F C.id X hX (huc ▸ hu)
    unfold ReplaceUsesUnsafe at hok
    rw [if_pos ⟨hvc, huses⟩] at hok
    cases hok
  unfold isRedundantCast
  simp only [redirect]
  cases hk : X.kind with
  | Cast opcode =>
    simp only
    split
    · rfl
    · cases hxo : X.operands with
      | nil => cases X.ty.getIntegerBitWidth <;> rfl
      | cons u us =>
        have hw := width_redirect F C v rest hC huniq hops hred u
          (hv u (by rw [hxo]; exact List.mem_cons_self _ _))
        simp only [List.map_cons]
        cases X.ty.getIntegerBitWidth with
        | error e => rfl
        | ok w => simp only [hw]
  | BinaryOperator _ => rfl
  | ICmp _ => rfl
  | PHI _ => rfl
  | Load => rfl
  | Other _ => rfl

theorem CleanUpTo.step (b : Nat) (F : IRFunction) (C : Instruction) (v : Value)
    (rest : List Value) (hC : C ∈ allInsts F) (huniq : cnt C.id F ≤ 1)
    (hops : C.operands = v :: rest) (hred : isRedundantCast F C = .ok true)
    (hok : ReplaceUsesUnsafe F C.id v = .ok (replaceUses F C.id v))
    (hclean : CleanUpTo b F) :
    CleanUpTo b (eraseFromParent (replaceUses F C.id v) C.id) := by
  intro i hi
  rw [scanCasts_none_iff]
  intro X' hX'
  rw [getD_erase_replace] at hX'
  obtain ⟨hX'', _⟩ := List.mem_filter.mp hX'
  obtain ⟨X, hX, rfl⟩ := List.mem_map.mp hX''
  rw [isRedundantCast_redirect F C v rest hC huniq hops hred hok X
    (mem_allInsts_of_mem_getD F i X hX)]
  exact (scanCasts_none_iff F _).mp (hclean i hi) X hX

theorem cnt_erase_replace_le (k c : Nat) (v : Value) (F : IRFunction) :
    cnt k (eraseFromParent (replaceUses F c v) c) ≤ cnt k F := by
  refine le_trans (cnt_eraseFromParent_le k c _) ?_
  rw [cnt_of_view_eq (view_replaceUses k c v F)]

theorem removeInBlock_clean (b fuel : Nat) (F F1 : IRFunction) (changed changed1 : Bool)
    (huniq : ∀ k, cnt k F ≤ 1) (hclean : CleanUpTo b F)
    (h : removeInBlock b fuel F changed = .ok (F1, changed1)) :
    CleanUpTo (b + 1) F1 ∧ (∀ k, cnt k F1 ≤ 1) ∧ F1.length = F.length := by
  induction fuel generalizing F changed with
  | zero => unfold removeInBlock at h; cases h
  | succ fuel ih =>
    unfold removeInBlock at h
    split at h
    · cases h
    · rename_i F2 hscan
      obtain ⟨C, hCB, hred, v, rest, hops, hok, rfl⟩ := scanCasts_some F F2 _ hscan
      have hC := mem_allInsts_of_mem_getD F b C hCB
      have := ih _ true
        (fun k => le_trans (cnt_erase_replace_le k C.id v F) (huniq k))
        (hclean.step b F C v rest hC (huniq C.id) hops hred hok) h
      refine ⟨this.1, this.2.1, ?_⟩
      rw [this.2.2]
      simp [eraseFromParent, replaceUses]
    · rename_i hscan
      cases h
      refine ⟨?_, huniq, rfl⟩
      intro i hi
      by_cases hib : i < b
      · exact hclean i hib
      · have : i = b := by omega
        rw [this]; exact hscan

theorem removeInBlocks_clean (n b : Nat) (F F1 : IRFunction) (changed changed1 : Bool)
    (huniq : ∀ k, cnt k F ≤ 1) (hclean : CleanUpTo b F)
    (h : removeInBlocks n b F changed = .ok (F1, changed1)) :
    CleanUpTo (b + n) F1 ∧ (∀ k, cnt k F1 ≤ 1) ∧ F1.length = F.length := by
  induction n generalizing F changed b with
  | zero => unfold removeInBlocks at h; cases h; exact ⟨hclean, huniq, rfl⟩
  | succ n ih =>
    unfold removeInBlocks at h
    split at h
    · cases h
    · rename_i F2 ch2 hblk
      obtain ⟨hc2, hu2, hl2⟩ := removeInBlock_clean b _ F F2 _ _ huniq hclean hblk
      obtain ⟨hc3, hu3, hl3⟩ := ih (b + 1) F2 ch2 hu2 hc2 h
      exact ⟨by rw [show b + (n + 1) = b + 1 + n by omega]; exact hc3, hu3, hl3.trans hl2⟩

/-- After `RedundantCastRemove`, a scan of any block finds no removable cast. -/
theorem RedundantCastRemove_clean (F F1 : IRFunction) (changed : Bool)
    (huniq : ∀ k, cnt k F ≤ 1) (h : RedundantCastRemove F = .ok (F1, changed)) :
    ∀ i, scanCasts F1 (F1.getD i []) = .ok none := by
  obtain ⟨hc, _, hl⟩ := removeInBlocks_clean _ 0 F F1 _ _ huniq (fun i hi => by omega) h
  intro i
  by_cases hi : i < F.length
  · exact hc i (by omega)
  · rw [List.getD_eq_default _ _ (by omega)]
    rfl

theorem removeInBlocks_of_clean (n b : Nat) (F : IRFunction) (changed : Bool)
    (hclean : ∀ i, scanCasts F (F.getD i []) = .ok none) :
    removeInBlocks n b F changed = .ok (F, changed) := by
  induction n generalizing b with
  | zero => rfl
  | succ n ih =>
    unfold removeInBlocks removeInBlock
    rw [hclean b]
    exact ih (b + 1)

/-- Running `RedundantCastRemove` on its own result removes nothing. -/
theorem RedundantCastRemove_of_clean (F : IRFunction)
    (hclean : ∀ i, scanCasts F (F.getD i []) = .ok none) :
    RedundantCastRemove F = .ok (F, false) :=
  removeInBlocks_of_clean _ 0 F false hclean

/-! ## A settled function is left unchanged by the rewriter -/

theorem visit_settled (sv : Services) (st : PassState) (changed : Bool) (I : Instruction)
    (h : settled st.F st.Instruction_BitNeeded I = true) :
    ∃ st1 changed1, visit sv st changed I = .ok (st1, changed1, false) ∧ st1.F = st.F ∧
      st1.Instruction_BitNeeded = st.Instruction_BitNeeded := by
  unfold visit
  simp only
  by_cases hmem : I.id ∈ st.Instruction_id
  · rw [if_pos hmem]
    unfold settled at h
    cases hty : I.ty with
    | other =>
      cases hk : I.kind <;> simp [Kind.isCast]
    | integer curBW =>
      rw [hty] at h
      cases hk : I.kind with
      | Cast op => exact ⟨_, _, rfl, rfl, rfl⟩
      | Load => exact ⟨_, _, rfl, rfl, rfl⟩
      | Other r =>
        cases r with
        | true => exact ⟨_, _, rfl, rfl, rfl⟩
        | false =>
          rw [hk] at h
          simp only at h
          simp only [Kind.isCast, Kind.mayReadFromMemory, Bool.false_eq_true, if_false]
          have hs : sameWidthCmp st.F I = .ok false := by
            unfold sameWidthCmp; rw [hk]
          rw [hs]
          simp only
          cases ha : allSameWidth st.F (needOf st.Instruction_BitNeeded I.id) curBW I with
          | error e => rw [ha] at h; simp at h
          | ok r => cases r <;> exact ⟨_, _, rfl, rfl, rfl⟩
      | ICmp p =>
        rw [hk] at h
        simp only at h
        simp only [Kind.isCast, Kind.mayReadFromMemory, Bool.false_eq_true, if_false]
        cases hs : sameWidthCmp st.F I with
        | error e => rw [hs] at h; simp at h
        | ok r =>
          cases r with
          | true => exact ⟨_, _, rfl, rfl, rfl⟩
          | false => rw [hs] at h; simp at h
      | BinaryOperator opc =>
        rw [hk] at h
        simp only at h
        simp only [Kind.isCast, Kind.mayReadFromMemory, Bool.false_eq_true, if_false]
        have hs : sameWidthCmp st.F I = .ok false := by
          unfold sameWidthCmp; rw [hk]
        rw [hs]
        simp only
        cases ha : allSameWidth st.F (needOf st.Instruction_BitNeeded I.id) curBW I with
        | error e => rw [ha] at h; simp at h
        | ok r =>
          cases r with
          | true => exact ⟨_, _, rfl, rfl, rfl⟩
          | false => rw [ha] at h; simp at h
      | PHI bl =>
        rw [hk] at h
        simp only at h
        simp only [Kind.isCast, Kind.mayReadFromMemory, Bool.false_eq_true, if_false]
        have hs : sameWidthCmp st.F I = .ok false := by
          unfold sameWidthCmp; rw [hk]
        rw [hs]
        simp only
        cases ha : allSameWidth st.F (needOf st.Instruction_BitNeeded I.id) curBW I with
        | error e => rw [ha] at h; simp at h
        | ok r =>
          cases r with
          | true => exact ⟨_, _, rfl, rfl, rfl⟩
          | false => rw [ha] at h; simp at h
  · rw [if_neg hmem]
    exact ⟨_, _, rfl, rfl, rfl⟩

theorem scanBlock_settled (sv : Services) (Is : List Instruction) (st : PassState)
    (changed : Bool) (h : ∀ I ∈ Is, settled st.F st.Instruction_BitNeeded I = true) :
    ∃ st1 changed1, scanBlock sv Is st changed = .ok (st1, changed1, false) ∧ st1.F = st.F ∧
      st1.Instruction_BitNeeded = st.Instruction_BitNeeded := by
  induction Is generalizing st changed with
  | nil => exact ⟨_, _, rfl, rfl, rfl⟩
  | cons I Is ih =>
    obtain ⟨st1, ch1, hv, hF, ht⟩ :=
      visit_settled sv st changed I (h I (List.mem_cons_self _ _))
    obtain ⟨st2, ch2, hs, hF2, ht2⟩ := ih st1 ch1 (fun X hX => by
      rw [hF, ht]; exact h X (List.mem_cons_of_mem _ hX))
    refine ⟨st2, ch2, ?_, hF2.trans hF, ht2.trans ht⟩
    unfold scanBlock
    rw [hv]
    exact hs

theorem rewriteBlocks_settled (sv : Services) (n b : Nat) (st : PassState) (changed : Bool)
    (h : ∀ I ∈ allInsts st.F, settled st.F st.Instruction_BitNeeded I = true) :
    ∃ st1 changed1, rewriteBlocks sv n b st changed = .ok (st1, changed1) ∧ st1.F = st.F ∧
      st1.Instruction_BitNeeded = st.Instruction_BitNeeded := by
  induction n generalizing st changed b with
  | zero => exact ⟨_, _, rfl, rfl, rfl⟩
  | succ n ih =>
    obtain ⟨st1, ch1, hs, hF, ht⟩ := scanBlock_settled sv (st.F.getD b []) st changed
      (fun I hI => h I (mem_allInsts_of_mem_getD _ _ _ hI))
    obtain ⟨st2, ch2, hr, hF2, ht2⟩ := ih (b + 1) st1 ch1 (fun X hX => by
      rw [hF, ht]; exact h X (hF ▸ hX))
    refine ⟨st2, ch2, ?_, hF2.trans hF, ht2.trans ht⟩
    unfold rewriteBlocks rewriteBlock
    rw [hs]
    exact hr

theorem analyseInst_nextId (sv : Services) (st : PassState) (I : Instruction) :
    (analyseInst sv st I).nextId = st.nextId := by
  unfold analyseInst; split <;> rfl

theorem analyseInsts_nextId (sv : Services) (Is : List Instruction) (st : PassState) :
    (analyseInsts sv Is st).nextId = st.nextId := by
  induction Is generalizing st with
  | nil => rfl
  | cons I Is ih => rw [analyseInsts_cons, ih, analyseInst_nextId]

/-- When nothing is due, a second run changes nothing: from a function with unique instruction
identities, after one run of the pass body a second run leaves the IR unchanged whenever every
instruction of the first run's result is settled with respect to the needs the second analysis
records (see `settled`); in particular the second `RedundantCastRemove` removes nothing,
because the first one left no removable cast. -/
theorem runOnFunction_again_unchanged_when_settled (sv : Services) (st st1 : PassState)
    (changed1 : Bool)
    (hnodup : ((allInsts st.F).map (fun X => X.id)).Nodup)
    (hfresh : Fresh st.F st.nextId)
    (h1 : runOnFunction sv st = .ok (st1, changed1))
    (hsettled : ∀ I ∈ allInsts st1.F,
      settled st1.F (Bitwidth_Analysis sv st1).Instruction_BitNeeded I = true) :
    ∃ st2 changed2, runOnFunction sv st1 = .ok (st2, changed2) ∧ st2.F = st1.F := by
  unfold runOnFunction at h1
  split at h1
  · cases h1
  · rename_i sta ca hIU
    split at h1
    · cases h1
    · rename_i F3 cb hRCR
      cases h1
      have hids0 : IdsOk (Bitwidth_Analysis sv st).F (Bitwidth_Analysis sv st).nextId := by
        unfold Bitwidth_Analysis
        rw [analyseInsts_F, analyseInsts_nextId]
        exact IdsOk.of_nodup _ _ hnodup hfresh
      have hidsa := rewriteBlocks_ids sv _ _ _ sta _ _ hids0 hIU
      have hclean := RedundantCastRemove_clean sta.F F3 cb hidsa.1 hRCR
      have hBA : (Bitwidth_Analysis sv { sta with F := F3 }).F = F3 := by
        unfold Bitwidth_Analysis; rw [analyseInsts_F]
      obtain ⟨stx, cx, hx, hFx, _⟩ := rewriteBlocks_settled sv
        (Bitwidth_Analysis sv { sta with F := F3 }).F.length 0
        (Bitwidth_Analysis sv { sta with F := F3 }) false (by
          rw [hBA]; exact hsettled)
      have hFx' : stx.F = F3 := hFx.trans hBA
      refine ⟨{ stx with F := F3 }, cx || false, ?_, rfl⟩
      unfold runOnFunction InsturctionUpdate_WidthCast
      rw [hx]
      simp only
      rw [hFx', RedundantCastRemove_of_clean F3 hclean]

/-- On `loadAddF` the first run narrows the addition to 5 bits, every instruction of the
result is settled, and the second run returns the same function. -/
theorem runOnFunction_again_unchanged_on_loadAddF :
    ∃ st2 changed2,
      runOnFunction loadAddSv2 ⟨loadAddF1, [], [(2, 5), (1, 32)], [], 12⟩
        = .ok (st2, changed2) ∧
      st2.F = loadAddF1 :=
  runOnFunction_again_unchanged_when_settled loadAddSv2 ⟨loadAddF, [], [], [], 10⟩
    ⟨loadAddF1, [], [(2, 5), (1, 32)], [], 12⟩ true
    (by decide) (by unfold Fresh; decide) (by rfl) (by decide)

set_option maxHeartbeats 2000000 in
/-- C10: the pass body is not idempotent on the loop `phiLoopF`.  The first run gives
`phiLoopF1`: the phi (1) is visited once, while its incoming values are still 32 bits wide,
and skipped; the masked value (2) is then rebuilt at 5 bits (11) and the phi's incoming value
redirected to it, so the run ends with a 32-bit phi that has a 5-bit incoming value.  A
second run on that result does not leave it unchanged: it inserts a cast (12) and replaces
the phi by a new phi (13), giving `phiLoopF2`. -/
theorem C10_second_run_changes_loop_phi :
    (runOnFunction phiLoopSv ⟨phiLoopF, [], [], [], 10⟩).toOption.map (fun r => r.1.F)
      = some phiLoopF1 ∧
    (⟨1, .PHI [0, 1], .integer 32, [.inst 6, .inst 11]⟩ : Instruction) ∈ allInsts phiLoopF1 ∧
    Value.width phiLoopF1 (.inst 6) = .ok 32 ∧
    Value.width phiLoopF1 (.inst 11) = .ok 5 ∧
    ((runOnFunction phiLoopSv ⟨phiLoopF, [], [], [], 10⟩).toOption.bind
        (fun r => (runOnFunction phiLoopSv r.1).toOption)).map (fun r => r.1.F)
      = some phiLoopF2 ∧
    phiLoopF2 ≠ phiLoopF1 :=
  ⟨by rfl, by decide, by rfl, by rfl, by rfl, by decide⟩

/-! ## The fuel of the loops never runs out -/

theorem getIntegerBitWidth_fuel (ty : Ty) : ty.getIntegerBitWidth ≠ .error .fuel := by
  cases ty <;> simp [Ty.getIntegerBitWidth]

theorem IntegerType_get_fuel (n : Nat) : IntegerType_get n ≠ .error .fuel := by
  unfold IntegerType_get; split <;> simp

theorem getType_fuel (F : IRFunction) (v : Value) : v.getType F ≠ .error .fuel := by
  cases v with
  | inst id => simp only [Value.getType]; split <;> simp
  | constInt C => simp [Value.getType]
  | other ty => simp [Value.getType]

theorem width_fuel (F : IRFunction) (v : Value) : v.width F ≠ .error .fuel := by
  unfold Value.width
  split
  · exact getIntegerBitWidth_fuel _
  · rename_i e he
    intro h; cases h
    exact getType_fuel F v he

theorem widths_fuel (F : IRFunction) (vs : List Value) : widths F vs ≠ .error .fuel := by
  induction vs with
  | nil => simp [widths]
  | cons v vs ih =>
    unfold widths
    split
    · rename_i e he
      intro h; cases h
      exact width_fuel F v he
    · split
      · rename_i e he
        intro h; cases h
        exact ih he
      · simp

theorem sameWidthCmp_fuel (F : IRFunction) (I : Instruction) :
    sameWidthCmp F I ≠ .error .fuel := by
  unfold sameWidthCmp
  split
  · split
    · split <;> simp
    · simp
  · simp

theorem allSameWidth_fuel (F : IRFunction) (need curBW : Nat) (I : Instruction) :
    allSameWidth F need curBW I ≠ .error .fuel := by
  unfold allSameWidth
  split
  · split
    · rename_i e he
      intro h; cases h
      exact widths_fuel F _ he
    · simp
  · simp

theorem ReplaceUsesUnsafe_fuel (F : IRFunction) (frm : Nat) (dst : Value) :
    ReplaceUsesUnsafe F frm dst ≠ .error .fuel := by
  unfold ReplaceUsesUnsafe; split <;> simp

theorem prepareCast_fuel (sv : Services) (st : PassState) (I : Instruction) :
    prepareCast sv st I ≠ .error .fuel := by
  unfold prepareCast
  simp only
  split
  · split
    · rename_i e he
      intro h; cases h
      exact getIntegerBitWidth_fuel _ he
    · simp
  · simp

theorem retargetOperand_fuel (isNeg : Bool) (need : Nat) (st : PassState) (v : Value) :
    retargetOperand isNeg need st v ≠ .error .fuel := by
  unfold retargetOperand
  split
  · split
    · rename_i e he
      intro h; cases h
      exact IntegerType_get_fuel _ he
    · simp
  · split
    · simp
    · split
      · simp
      · split
        · rename_i e he
          intro h; cases h
          exact IntegerType_get_fuel _ he
        · split
          · rename_i e he
            intro h; cases h
            exact getIntegerBitWidth_fuel _ he
          · split
            · simp
            · split <;> simp
  · simp

theorem retargetOperands_fuel (isNeg : Bool) (need : Nat) (vs : List Value) (st : PassState) :
    retargetOperands isNeg need vs st ≠ .error .fuel := by
  induction vs generalizing st with
  | nil => simp [retargetOperands]
  | cons v vs ih =>
    unfold retargetOperands
    split
    · rename_i e he
      intro h; cases h
      exact retargetOperand_fuel _ _ _ _ he
    · split
      · rename_i e he
        intro h; cases h
        exact ih _ he
      · simp

theorem replaceInst_fuel (st : PassState) (I new : Instruction) :
    replaceInst st I new ≠ .error .fuel := by
  unfold replaceInst
  split
  · rename_i e he
    intro h; cases h
    exact ReplaceUsesUnsafe_fuel _ _ _ he
  · simp

theorem BOI_WidthCast_fuel (sv : Services) (st : PassState) (I : Instruction) (opcode : Nat) :
    BOI_WidthCast sv st I opcode ≠ .error .fuel := by
  unfold BOI_WidthCast
  split
  · rename_i e he
    intro h; cases h
    exact prepareCast_fuel _ _ _ he
  · split
    · rename_i e he
      intro h; cases h
      exact retargetOperands_fuel _ _ _ _ he
    · split
      · split
        · split
          · exact replaceInst_fuel _ _ _
          · simp
        · simp
      · simp

theorem ICMP_WidthCast_fuel (sv : Services) (st : PassState) (I : Instruction)
    (predicate : Nat) : ICMP_WidthCast sv st I predicate ≠ .error .fuel := by
  unfold ICMP_WidthCast
  split
  · rename_i e he
    intro h; cases h
    exact prepareCast_fuel _ _ _ he
  · split
    · rename_i e he
      intro h; cases h
      exact retargetOperands_fuel _ _ _ _ he
    · split
      · split
        · split
          · exact replaceInst_fuel _ _ _
          · simp
        · simp
      · simp

theorem PHI_WidthCast_fuel (sv : Services) (st : PassState) (I : Instruction)
    (blocks : List Nat) : PHI_WidthCast sv st I blocks ≠ .error .fuel := by
  unfold PHI_WidthCast
  split
  · rename_i e he
    intro h; cases h
    exact prepareCast_fuel _ _ _ he
  · split
    · rename_i e he
      intro h; cases h
      exact retargetOperands_fuel _ _ _ _ he
    · split
      · simp
      · split
        · rename_i e he
          intro h; cases h
          exact IntegerType_get_fuel _ he
        · split
          · exact replaceInst_fuel _ _ _
          · simp

theorem visit_fuel (sv : Services) (st : PassState) (changed : Bool) (I : Instruction) :
    visit sv st changed I ≠ .error .fuel := by
  unfold visit
  simp only
  split
  · split
    · simp
    · split
      · simp
      · split
        · simp
        · split
          · rename_i e he
            intro h; cases h
            exact sameWidthCmp_fuel _ _ he
          · simp
          · split
            · rename_i e he
              intro h; cases h
              exact allSameWidth_fuel _ _ _ _ he
            · simp
            · split
              · split
                · rename_i e he
                  intro h; cases h
                  exact BOI_WidthCast_fuel _ _ _ _ he
                · simp
              · split
                · rename_i e he
                  intro h; cases h
                  exact ICMP_WidthCast_fuel _ _ _ _ he
                · simp
              · split
                · rename_i e he
                  intro h; cases h
                  exact PHI_WidthCast_fuel _ _ _ _ he
                · simp
              · simp
  · simp

theorem scanBlock_fuel (sv : Services) (Is : List Instruction) (st : PassState)
    (changed : Bool) : scanBlock sv Is st changed ≠ .error .fuel := by
  induction Is generalizing st changed with
  | nil => simp [scanBlock]
  | cons I Is ih =>
    unfold scanBlock
    split
    · rename_i e he
      intro h; cases h
      exact visit_fuel _ _ _ _ he
    · simp
    · exact ih _ _

theorem length_filter_ne_lt (x : Nat) (l : List Nat) (h : x ∈ l) :
    (l.filter (fun k => k != x)).length + 1 ≤ l.length := by
  induction l with
  | nil => cases h
  | cons y l ih =>
    by_cases hy : y = x
    · subst hy
      simp only [List.filter_cons, bne_self_eq_false, Bool.false_eq_true, if_false,
        List.length_cons]
      have := List.length_filter_le (fun k => k != y) l
      omega
    · have hb : (y != x) = true := by simpa using hy
      simp only [List.filter_cons, hb, if_true, List.length_cons]
      rcases List.mem_cons.mp h with h1 | h1
      · exact absurd h1.symm hy
      · have := ih h1; omega

theorem prepareCast_pending (sv : Services) (st st1 : PassState) (I : Instruction)
    (isNeg : Bool) (need : Nat) (h : prepareCast sv st I = .ok (isNeg, need, st1)) :
    st1.Instruction_id = st.Instruction_id := by
  unfold prepareCast at h
  simp only at h
  split at h
  · split at h
    · cases h
    · cases h; rfl
  · cases h; rfl

theorem retargetOperand_pending (isNeg : Bool) (need : Nat) (st st1 : PassState)
    (v v1 : Value) (h : retargetOperand isNeg need st v = .ok (v1, st1)) :
    st1.Instruction_id = st.Instruction_id := by
  unfold retargetOperand at h
  split at h
  · split at h
    · cases h
    · cases h; rfl
  · split at h
    · cases h
    · split at h
      · cases h
      · split at h
        · cases h
        · split at h
          · cases h
          · split at h
            · cases h; rfl
            · split at h
              · cases h; rfl
              · cases h; rfl
  · cases h; rfl

theorem retargetOperands_pending (isNeg : Bool) (need : Nat) (vs vs1 : List Value)
    (st st1 : PassState) (h : retargetOperands isNeg need vs st = .ok (vs1, st1)) :
    st1.Instruction_id = st.Instruction_id := by
  induction vs generalizing st vs1 with
  | nil => unfold retargetOperands at h; cases h; rfl
  | cons v vs ih =>
    unfold retargetOperands at h
    split at h
    · cases h
    · rename_i v' st' hv
      split at h
      · cases h
      · rename_i vs' st'' hvs
        cases h
        exact (ih _ _ hvs).trans (retargetOperand_pending _ _ _ _ _ _ hv)

theorem replaceInst_pending (st st1 : PassState) (I new : Instruction)
    (h : replaceInst st I new = .ok st1) : st1.Instruction_id = st.Instruction_id := by
  unfold replaceInst at h
  split at h
  · cases h
  · cases h; rfl

theorem BOI_WidthCast_pending (sv : Services) (st st1 : PassState) (I : Instruction)
    (opcode : Nat) (h : BOI_WidthCast sv st I opcode = .ok st1) :
    st1.Instruction_id = st.Instruction_id := by
  unfold BOI_WidthCast at h
  split at h
  · cases h
  · rename_i isNeg need sta hprep
    split at h
    · cases h
    · rename_i ops stb hops
      split at h
      · split at h
        · split at h
          · exact (replaceInst_pending _ _ _ _ h).trans
              ((retargetOperands_pending _ _ _ _ _ _ hops).trans
                (prepareCast_pending _ _ _ _ _ _ hprep))
          · cases h
        · cases h
      · cases h

theorem ICMP_WidthCast_pending (sv : Services) (st st1 : PassState) (I : Instruction)
    (predicate : Nat) (h : ICMP_WidthCast sv st I predicate = .ok st1) :
    st1.Instruction_id = st.Instruction_id := by
  unfold ICMP_WidthCast at h
  split at h
  · cases h
  · rename_i isNeg need sta hprep
    split at h
    · cases h
    · rename_i ops stb hops
      split at h
      · split at h
        · split at h
          · exact (replaceInst_pending _ _ _ _ h).trans
              ((retargetOperands_pending _ _ _ _ _ _ hops).trans
                (prepareCast_pending _ _ _ _ _ _ hprep))
          · cases h
        · cases h
      · cases h

theorem PHI_WidthCast_pending (sv : Services) (st st1 : PassState) (I : Instruction)
    (blocks : List Nat) (h : PHI_WidthCast sv st I blocks = .ok st1) :
    st1.Instruction_id = st.Instruction_id := by
  unfold PHI_WidthCast at h
  split at h
  · cases h
  · rename_i isNeg need sta hprep
    split at h
    · cases h
    · rename_i ops stb hops
      split at h
      · cases h
      · split at h
        · cases h
        · split at h
          · exact (replaceInst_pending _ _ _ _ h).trans
              ((retargetOperands_pending _ _ _ _ _ _ hops).trans
                (prepareCast_pending _ _ _ _ _ _ hprep))
          · cases h

/-- A visit never enlarges the pending set, and a visit that rewrites shrinks it. -/
theorem visit_pending (sv : Services) (st st1 : PassState) (changed changed1 brk : Bool)
    (I : Instruction) (h : visit sv st changed I = .ok (st1, changed1, brk)) :
    st1.Instruction_id.length + (if brk then 1 else 0) ≤ st.Instruction_id.length := by
  unfold visit at h
  simp only at h
  have hle := List.length_filter_le (fun k => k != I.id) st.Instruction_id
  split at h
  · rename_i hmem
    have hlt := length_filter_ne_lt I.id st.Instruction_id hmem
    split at h
    · cases h; simpa using hle
    · split at h
      · cases h; simpa using hle
      · split at h
        · cases h; simpa using hle
        · split at h
          · cases h
          · cases h; simpa using hle
          · split at h
            · cases h
            · cases h; simpa using hle
            · split at h
              · split at h
                · cases h
                · rename_i st2 hb
                  cases h
                  rw [BOI_WidthCast_pending _ _ _ _ _ hb]
                  simpa using hlt
              · split at h
                · cases h
                · rename_i st2 hb
                  cases h
                  rw [ICMP_WidthCast_pending _ _ _ _ _ hb]
                  simpa using hlt
              · split at h
                · cases h
                · rename_i st2 hb
                  cases h
                  rw [PHI_WidthCast_pending _ _ _ _ _ hb]
                  simpa using hlt
              · cases h; simpa using hle
  · cases h; simp

theorem scanBlock_pending (sv : Services) (Is : List Instruction) (st st1 : PassState)
    (changed changed1 brk : Bool) (h : scanBlock sv Is st changed = .ok (st1, changed1, brk)) :
    st1.Instruction_id.length + (if brk then 1 else 0) ≤ st.Instruction_id.length := by
  induction Is generalizing st changed with
  | nil => unfold scanBlock at h; cases h; simp
  | cons I Is ih =>
    unfold scanBlock at h
    split at h
    · cases h
    · rename_i st2 ch2 hv
      cases h
      exact visit_pending sv _ _ _ _ _ I hv
    · rename_i st2 ch2 hv
      have h1 := visit_pending sv _ _ _ _ _ I hv
      have h2 := ih st2 ch2 h
      simp only [Bool.false_eq_true, if_false, Nat.add_zero] at h1
      omega

/-- With more fuel than pending instructions, the restart loop of a block ends. -/
theorem rewriteBlock_fuel (sv : Services) (b fuel : Nat) (st : PassState) (changed : Bool)
    (hfuel : st.Instruction_id.length < fuel) :
    rewriteBlock sv b fuel st changed ≠ .error .fuel := by
  induction fuel generalizing st changed with
  | zero => omega
  | succ fuel ih =>
    unfold rewriteBlock
    split
    · rename_i e he
      intro h; cases h
      exact scanBlock_fuel _ _ _ _ he
    · rename_i st2 ch2 hscan
      have := scanBlock_pending sv _ _ _ _ _ _ hscan
      simp only [if_true] at this
      exact ih st2 ch2 (by omega)
    · simp

theorem rewriteBlocks_fuel (sv : Services) (n b : Nat) (st : PassState) (changed : Bool) :
    rewriteBlocks sv n b st changed ≠ .error .fuel := by
  induction n generalizing st changed b with
  | zero => simp [rewriteBlocks]
  | succ n ih =>
    unfold rewriteBlocks
    split
    · rename_i e he
      intro h; cases h
      exact rewriteBlock_fuel sv b _ st changed (Nat.lt_succ_self _) he
    · exact ih _ _ _

/-- The rewriter never stops for lack of fuel: its restart loops end on every function. -/
theorem InsturctionUpdate_WidthCast_fuel (sv : Services) (st : PassState) :
    InsturctionUpdate_WidthCast sv st ≠ .error .fuel :=
  rewriteBlocks_fuel sv _ 0 st false

theorem isRedundantCast_fuel (F : IRFunction) (I : Instruction) :
    isRedundantCast F I ≠ .error .fuel := by
  unfold isRedundantCast
  split
  · split
    · simp
    · split
      · split
        · simp
        · rename_i e he
          intro h; cases h
          exact width_fuel _ _ he
      · simp
  · simp

theorem scanCasts_fuel (F : IRFunction) (Is : List Instruction) :
    scanCasts F Is ≠ .error .fuel := by
  induction Is with
  | nil => simp [scanCasts]
  | cons I Is ih =>
    unfold scanCasts
    split
    · rename_i e he
      intro h; cases h
      exact isRedundantCast_fuel _ _ he
    · exact ih
    · split
      · simp
      · split
        · rename_i e he
          intro h; cases h
          exact ReplaceUsesUnsafe_fuel _ _ _ he
        · simp

/-- A removal shortens the block it was found in. -/
theorem scanCasts_shortens (F F1 : IRFunction) (b : Nat)
    (h : scanCasts F (F.getD b []) = .ok (some F1)) :
    (F1.getD b []).length < (F.getD b []).length := by
  obtain ⟨C, hC, _, v, _, _, _, rfl⟩ := scanCasts_some F F1 _ h
  rw [getD_erase_replace]
  have hlen : ((F.getD b []).map (redirect C.id v)).length = (F.getD b []).length :=
    List.length_map _ _
  rw [← hlen]
  apply List.length_filter_lt_length_iff_exists.mpr
  exact ⟨redirect C.id v C, List.mem_map_of_mem _ hC, by simp [redirect]⟩

theorem removeInBlock_fuel (b fuel : Nat) (F : IRFunction) (changed : Bool)
    (hfuel : (F.getD b []).length < fuel) :
    removeInBlock b fuel F changed ≠ .error .fuel := by
  induction fuel generalizing F changed with
  | zero => omega
  | succ fuel ih =>
    unfold removeInBlock
    split
    · rename_i e he
      intro h; cases h
      exact scanCasts_fuel _ _ he
    · rename_i F2 hscan
      have := scanCasts_shortens F F2 b hscan
      exact ih F2 true (by omega)
    · simp

theorem removeInBlocks_fuel (n b : Nat) (F : IRFunction) (changed : Bool) :
    removeInBlocks n b F changed ≠ .error .fuel := by
  induction n generalizing F changed b with
  | zero => simp [removeInBlocks]
  | succ n ih =>
    unfold removeInBlocks
    split
    · rename_i e he
      intro h; cases h
      exact removeInBlock_fuel b _ F changed (Nat.lt_succ_self _) he
    · exact ih _ _ _

/-- The cast eliminator never stops for lack of fuel. -/
theorem RedundantCastRemove_fuel (F : IRFunction) : RedundantCastRemove F ≠ .error .fuel :=
  removeInBlocks_fuel _ 0 F false

/-- A run of the pass body never stops for lack of fuel: when it gives no result, an LLVM
assertion failed or `ReplaceUsesUnsafe` does not end. -/
theorem runOnFunction_fuel (sv : Services) (st : PassState) :
    runOnFunction sv st ≠ .error .fuel := by
  unfold runOnFunction
  split
  · rename_i e he
    intro h; cases h
    exact InsturctionUpdate_WidthCast_fuel _ _ he
  · split
    · rename_i e he
      intro h; cases h
      exact RedundantCastRemove_fuel _ he
    · simp

/-! ## Replacing an instruction: what the function looks like afterwards -/

theorem mem_insertBeforeL_of_mem (id : Nat) (new X : Instruction) (B : List Instruction)
    (h : X ∈ B) : X ∈ insertBeforeL id new B := by
  induction B with
  | nil => cases h
  | cons Y B ih =>
    unfold insertBeforeL
    split
    · exact List.mem_cons_of_mem _ h
    · rcases List.mem_cons.mp h with rfl | h'
      · exact List.mem_cons_self _ _
      · exact List.mem_cons_of_mem _ (ih h')

theorem mem_allInsts_insertBefore (F : IRFunction) (id : Nat) (new X : Instruction)
    (h : X ∈ allInsts (insertBefore F id new)) : X = new ∨ X ∈ allInsts F := by
  unfold allInsts insertBefore at *
  obtain ⟨B', hB', hX⟩ := List.mem_flatten.mp h
  obtain ⟨B, hB, rfl⟩ := List.mem_map.mp hB'
  rcases mem_of_mem_insertBeforeL id new X B hX with h1 | h1
  · exact Or.inl h1
  · exact Or.inr (List.mem_flatten.mpr ⟨B, hB, h1⟩)

theorem mem_allInsts_insertBefore_of_mem (F : IRFunction) (id : Nat) (new X : Instruction)
    (h : X ∈ allInsts F) : X ∈ allInsts (insertBefore F id new) := by
  unfold allInsts insertBefore at *
  obtain ⟨B, hB, hX⟩ := List.mem_flatten.mp h
  exact List.mem_flatten.mpr ⟨_, List.mem_map_of_mem _ hB, mem_insertBeforeL_of_mem id new X B hX⟩

theorem mem_allInsts_insertAfter_of_mem (F : IRFunction) (id : Nat) (new X : Instruction)
    (h : X ∈ allInsts F) : X ∈ allInsts (insertAfter F id new) := by
  unfold allInsts insertAfter at *
  obtain ⟨B, hB, hX⟩ := List.mem_flatten.mp h
  exact List.mem_flatten.mpr ⟨_, List.mem_map_of_mem _ hB, mem_insertAfterL_of_mem id new X B hX⟩

/-- The type of a freshly inserted instruction, looked up by its identity. -/
theorem getType_insertBefore_new (F : IRFunction) (id : Nat) (new : Instruction)
    (hanchor : ∃ Y ∈ allInsts F, Y.id = id) (hfresh : ∀ X ∈ allInsts F, X.id ≠ new.id) :
    Value.getType (insertBefore F id new) (.inst new.id) = .ok new.ty := by
  have hmem := new_mem_allInsts_insertBefore F id new hanchor
  obtain ⟨X, hX⟩ := (getInst_some_iff_exists _ _).mp ⟨new, hmem, rfl⟩
  have hXmem := List.mem_of_find?_eq_some hX
  have hXid : X.id = new.id := by simpa using List.find?_some hX
  have : X = new := by
    rcases mem_allInsts_insertBefore F id new X hXmem with h1 | h1
    · exact h1
    · exact absurd hXid (hfresh X h1)
  simp only [Value.getType, hX, this]

theorem mem_allInsts_redirect (F : IRFunction) (frm : Nat) (dst : Value) (X : Instruction)
    (hX : X ∈ allInsts F) : redirect frm dst X ∈ allInsts (replaceUses F frm dst) := by
  unfold allInsts replaceUses at *
  obtain ⟨B, hB, hXB⟩ := List.mem_flatten.mp hX
  exact List.mem_flatten.mpr ⟨_, List.mem_map_of_mem _ hB, List.mem_map.mpr ⟨X, hXB, rfl⟩⟩

theorem exists_of_mem_replaceUses (F : IRFunction) (frm : Nat) (dst : Value) (Y : Instruction)
    (hY : Y ∈ allInsts (replaceUses F frm dst)) :
    ∃ X ∈ allInsts F, Y = redirect frm dst X := by
  unfold allInsts replaceUses at *
  obtain ⟨B', hB', hYB⟩ := List.mem_flatten.mp hY
  obtain ⟨B, hB, rfl⟩ := List.mem_map.mp hB'
  obtain ⟨X, hX, rfl⟩ := List.mem_map.mp hYB
  exact ⟨X, List.mem_flatten.mpr ⟨B, hB, hX⟩, rfl⟩

theorem getType_ok_lt {F : IRFunction} {n k : Nat} {ty : Ty} (hfresh : Fresh F n)
    (h : Value.getType F (.inst k) = .ok ty) : k < n := by
  simp only [Value.getType] at h
  split at h
  · rename_i X hX
    obtain ⟨hmem, hid⟩ := getInst_some_mem hX
    exact hid ▸ hfresh X hmem
  · cases h

/-- The state after `replaceInst`: the new instruction is in the function with its uses of
the old one redirected to itself, every operand of it keeps the width it had, the old
instruction is gone and nothing refers to it, and every other instruction has its uses of the
old one redirected to the new one. -/
theorem replaceInst_rebuilt (st2 st1 : PassState) (I : Instruction) (kind : Kind) (ty : Ty)
    (ops : List Value) (n : Nat)
    (hfresh : Fresh st2.F st2.nextId) (hanchor : ∃ Y ∈ allInsts st2.F, Y.id = I.id)
    (htypes : ∀ v ∈ ops, v.getType st2.F = .ok (.integer n))
    (hself : Value.inst I.id ∈ ops → ty = .integer n)
    (h : replaceInst st2 I ⟨st2.nextId, kind, ty, ops⟩ = .ok st1) :
    redirect I.id (.inst st2.nextId) ⟨st2.nextId, kind, ty, ops⟩ ∈ allInsts st1.F ∧
    (∀ v ∈ (redirect I.id (.inst st2.nextId) ⟨st2.nextId, kind, ty, ops⟩).operands,
      v.width st1.F = .ok n) ∧
    (∀ X ∈ allInsts st1.F, X.id ≠ I.id) ∧
    (∀ X ∈ allInsts st1.F, Value.inst I.id ∉ X.operands) ∧
    st1.Instruction_BitNeeded = st2.Instruction_BitNeeded ∧
    st1.nextId = st2.nextId + 1 ∧
    (∀ X ∈ allInsts st2.F, X.id ≠ I.id →
      redirect I.id (.inst st2.nextId) X ∈ allInsts st1.F) := by
  obtain ⟨Y, hY, hYid⟩ := hanchor
  have hIlt : I.id < st2.nextId := hYid ▸ hfresh Y hY
  unfold replaceInst at h
  split at h
  · cases h
  · rename_i F2 hF2
    cases h
    have hF2' : F2 = replaceUses (insertBefore st2.F I.id ⟨st2.nextId, kind, ty, ops⟩) I.id
        (.inst st2.nextId) := by
      unfold ReplaceUsesUnsafe at hF2
      split at hF2
      · cases hF2
      · cases hF2; rfl
    subst hF2'
    have hnewty : Value.getType
        (eraseFromParent (replaceUses (insertBefore st2.F I.id ⟨st2.nextId, kind, ty, ops⟩)
          I.id (.inst st2.nextId)) I.id) (.inst st2.nextId) = .ok ty := by
      rw [getType_inst_of_view_eq st2.nextId
        (insertBefore st2.F I.id ⟨st2.nextId, kind, ty, ops⟩) _
        (by rw [view_eraseFromParent _ _ (by omega), view_replaceUses])]
      exact getType_insertBefore_new st2.F I.id ⟨st2.nextId, kind, ty, ops⟩ ⟨Y, hY, hYid⟩
        (fun X hX => Nat.ne_of_lt (hfresh X hX))
    refine ⟨?_, ?_, ?_, ?_, rfl, rfl, ?_⟩
    · simp only
      rw [mem_allInsts_eraseFromParent]
      refine ⟨mem_allInsts_redirect _ _ _ _
        (new_mem_allInsts_insertBefore _ _ _ ⟨Y, hY, hYid⟩), ?_⟩
      simp only [redirect]; omega
    · intro v hv
      simp only [redirect, List.mem_map] at hv
      obtain ⟨u, hu, rfl⟩ := hv
      by_cases hui : u = .inst I.id
      · rw [if_pos hui]
        apply width_of_getType
        rw [hnewty, hself (hui ▸ hu)]
      · rw [if_neg hui]
        apply width_of_getType
        rw [← htypes u hu]
        apply getType_of_view_eq
        intro k hk
        have hklt : k < st2.nextId := getType_ok_lt hfresh (hk ▸ htypes u hu)
        simp only
        rw [view_eraseFromParent k _ (fun hIk => hui (by rw [hk, hIk])), view_replaceUses,
          view_insertBefore k _ _ (by simp only; omega)]
    · intro X hX
      exact ((mem_allInsts_eraseFromParent _ _ _).mp hX).2
    · intro X hX hmem
      obtain ⟨hX', _⟩ := (mem_allInsts_eraseFromParent _ _ _).mp hX
      obtain ⟨Z, _, rfl⟩ := exists_of_mem_replaceUses _ _ _ _ hX'
      simp only [redirect, List.mem_map] at hmem
      obtain ⟨u, _, hu⟩ := hmem
      by_cases hui : u = .inst I.id
      · rw [if_pos hui] at hu
        injection hu with hu'
        omega
      · rw [if_neg hui] at hu
        exact hui hu
    · intro X hX hne
      simp only
      rw [mem_allInsts_eraseFromParent]
      exact ⟨mem_allInsts_redirect _ _ _ _ (mem_allInsts_insertBefore_of_mem _ _ _ _ hX),
        by simp only [redirect]; exact hne⟩

/-! ## The operand loop on a whole operand list -/

theorem retargetOperand_mem (isNeg : Bool) (need : Nat) (st st1 : PassState) (v v1 : Value)
    (h : retargetOperand isNeg need st v = .ok (v1, st1)) :
    ∀ X ∈ allInsts st.F, X ∈ allInsts st1.F := by
  intro X hX
  unfold retargetOperand at h
  split at h
  · split at h
    · cases h
    · cases h; exact hX
  · split at h
    · cases h
    · split at h
      · cases h
      · split at h
        · cases h
        · split at h
          · cases h
          · split at h
            · cases h; exact mem_allInsts_insertAfter_of_mem _ _ _ _ hX
            · split at h
              · cases h; exact mem_allInsts_insertAfter_of_mem _ _ _ _ hX
              · cases h; exact hX
  · cases h; exact hX

/-- The operand loop keeps the instructions of the function and the need table; an operand
that is neither a constant nor an instruction stays as it is, and every other operand comes
out with the need as its width. -/
theorem retargetOperands_spec (isNeg : Bool) (need : Nat) (vs vs1 : List Value)
    (st st1 : PassState) (hfresh : Fresh st.F st.nextId)
    (h : retargetOperands isNeg need vs st = .ok (vs1, st1)) :
    Fresh st1.F st1.nextId ∧
    st1.Instruction_BitNeeded = st.Instruction_BitNeeded ∧
    (∀ X ∈ allInsts st.F, X ∈ allInsts st1.F) ∧
    List.Forall₂ (fun v v1 => (∀ ty, v = .other ty → v1 = v) ∧
      ((∀ ty, v ≠ .other ty) → v1.getType st1.F = .ok (.integer need))) vs vs1 := by
  induction vs generalizing st vs1 with
  | nil =>
    unfold retargetOperands at h
    cases h
    exact ⟨hfresh, rfl, fun _ hX => hX, List.Forall₂.nil⟩
  | cons v vs ih =>
    unfold retargetOperands at h
    split at h
    · cases h
    · rename_i v' st' hv
      split at h
      · cases h
      · rename_i vs' st'' hvs
        cases h
        obtain ⟨hf1, ht1, ho1, hty1, hk1⟩ := retargetOperand_spec _ _ _ _ _ _ hfresh hv
        obtain ⟨hf2, ht2, hm2, hall⟩ := ih _ _ hf1 hvs
        refine ⟨hf2, ht2.trans ht1,
          fun X hX => hm2 X (retargetOperand_mem _ _ _ _ _ _ hv X hX),
          List.Forall₂.cons ⟨ho1, ?_⟩ hall⟩
        intro hne
        rw [← hty1 hne]
        apply getType_of_view_eq
        intro k hk
        exact (retargetOperands_view k _ _ _ _ _ _ (hk1 k hk).1 hvs).1

/-- The state the three rewrites reach after their operand loop. -/
theorem retarget_stage (sv : Services) (st sta stb : PassState) (I : Instruction)
    (isNeg : Bool) (need : Nat) (ops : List Value)
    (hfresh : Fresh st.F st.nextId) (hI : I ∈ allInsts st.F)
    (hprep : prepareCast sv st I = .ok (isNeg, need, sta))
    (hops : retargetOperands isNeg need I.operands sta = .ok (ops, stb)) :
    Fresh stb.F stb.nextId ∧ st.nextId ≤ stb.nextId ∧
    needOf stb.Instruction_BitNeeded I.id = need ∧
    (∀ X ∈ allInsts st.F, X ∈ allInsts stb.F) ∧
    (∃ Y ∈ allInsts stb.F, Y.id = I.id) ∧
    view I.id stb.F = view I.id st.F ∧
    List.Forall₂ (fun v v1 => (∀ ty, v = .other ty → v1 = v) ∧
      ((∀ ty, v ≠ .other ty) → v1.getType stb.F = .ok (.integer need))) I.operands ops := by
  obtain ⟨hFa, hna⟩ := prepareCast_F _ _ _ _ _ _ hprep
  have hneed := prepareCast_need _ _ _ _ _ _ hprep
  have hfa : Fresh sta.F sta.nextId := by rw [hFa, hna]; exact hfresh
  have hIlt : I.id < sta.nextId := hfa I (hFa ▸ hI)
  obtain ⟨hfb, htb, hmb, hall⟩ := retargetOperands_spec _ _ _ _ _ _ hfa hops
  obtain ⟨hview, hmono⟩ := retargetOperands_view I.id _ _ _ _ _ _ hIlt hops
  refine ⟨hfb, by omega, by rw [htb]; exact hneed, fun X hX => hmb X (hFa ▸ hX),
    ⟨I, hmb I (hFa ▸ hI), rfl⟩, by rw [hview, hFa], hall⟩

/-! ## The instruction each of the three rewrites builds -/

theorem needOf_mapSet (id v : Nat) (tbl : List (Nat × Nat)) : needOf (mapSet id v tbl) id = v := by
  simp [needOf, mapSet, List.lookup]

/-- With a pointer-to-integer conversion among the operands, the need the rewrite casts to is
the declared width of the instruction. -/
theorem prepareCast_ptr (sv : Services) (st st1 : PassState) (I : Instruction) (isNeg : Bool)
    (need w : Nat) (hptr : I.operands.any (isPtrToIntInst st.F) = true)
    (hty : I.ty = .integer w) (h : prepareCast sv st I = .ok (isNeg, need, st1)) : need = w := by
  unfold prepareCast at h
  simp only at h
  rw [if_pos hptr, hty] at h
  simp only [Ty.getIntegerBitWidth] at h
  cases h
  exact needOf_mapSet _ _ _

/-- The sign test of the operand loop reads the lower bound of the range that
`HI_getSignedRangeRef` gives for the instruction. -/
theorem prepareCast_isNeg (sv : Services) (st st1 : PassState) (I : Instruction) (isNeg : Bool)
    (need : Nat) (h : prepareCast sv st I = .ok (isNeg, need, st1)) :
    isNeg = (HI_getSignedRangeRef sv (sv.getSCEV I.id) st.SignedRanges).1.getLower.isNegative := by
  unfold prepareCast at h
  simp only at h
  split at h
  · split at h
    · cases h
    · cases h; rfl
  · cases h; rfl

theorem allOfType_true (F : IRFunction) (ty : Ty) (vs : List Value)
    (h : allOfType F ty vs = true) : ∀ v ∈ vs, v.getType F = .ok ty := by
  induction vs with
  | nil => intro v hv; cases hv
  | cons u vs ih =>
    unfold allOfType at h
    split at h
    · rename_i t ht
      simp only [Bool.and_eq_true, decide_eq_true_eq] at h
      intro v hv
      rcases List.mem_cons.mp hv with rfl | hv'
      · rw [ht, h.1]
      · exact ih h.2 v hv'
    · cases h

/-- A binary operator that `BOI_WidthCast` rebuilds. -/
theorem BOI_WidthCast_rebuilt (sv : Services) (st st1 : PassState) (I : Instruction)
    (opcode : Nat) (hfresh : Fresh st.F st.nextId) (hI : I ∈ allInsts st.F)
    (hop : ∃ v ∈ I.operands, ∀ ty, v ≠ .other ty)
    (h : BOI_WidthCast sv st I opcode = .ok st1) :
    ∃ new ∈ allInsts st1.F, st.nextId ≤ new.id ∧ new.kind = .BinaryOperator opcode ∧
      new.ty = .integer (needOf st1.Instruction_BitNeeded I.id) ∧
      new.operands.length = I.operands.length ∧
      (∀ v ∈ new.operands, v.width st1.F = .ok (needOf st1.Instruction_BitNeeded I.id)) ∧
      (∀ X ∈ allInsts st1.F, X.id ≠ I.id) ∧
      (∀ X ∈ allInsts st1.F, Value.inst I.id ∉ X.operands) ∧
      (∀ X ∈ allInsts st.F, X.id ≠ I.id → redirect I.id (.inst new.id) X ∈ allInsts st1.F) := by
  unfold BOI_WidthCast at h
  split at h
  · cases h
  · rename_i isNeg need sta hprep
    split at h
    · cases h
    · rename_i ops stb hops
      obtain ⟨hfb, hmono, hneed, hmem, hanchor, _, hall⟩ :=
        retarget_stage sv st sta stb I isNeg need ops hfresh hI hprep hops
      split at h
      · rename_i x y
        split at h
        · rename_i t0 t1 ht0 ht1
          split at h
          · rename_i ht01
            have hlen := hall.length_eq
            obtain ⟨a, l1, hR1, hrest, ha⟩ := List.forall₂_cons_right_iff.mp hall
            obtain ⟨b, l2, hR2, hnil, hb⟩ := List.forall₂_cons_right_iff.mp hrest
            have hl2 := List.forall₂_nil_right_iff.mp hnil
            have hab : [a, b] = I.operands := by rw [ha, hb, hl2]
            have hboth : t0 = .integer need := by
              obtain ⟨v, hv, hvne⟩ := hop
              rw [← hab] at hv
              rcases List.mem_cons.mp hv with rfl | hv'
              · have := hR1.2 hvne
                rw [ht0] at this
                cases this; rfl
              · rcases List.mem_cons.mp hv' with rfl | hv''
                · have := hR2.2 hvne
                  rw [ht1] at this
                  cases this; exact ht01
                · cases hv''
            obtain ⟨g1, g2, g3, g4, g5, _, g7⟩ := replaceInst_rebuilt stb st1 I
              (.BinaryOperator opcode) t0 [x, y] need hfb hanchor
              (by
                intro v hv
                rcases List.mem_cons.mp hv with rfl | hv'
                · rw [ht0, hboth]
                · rcases List.mem_cons.mp hv' with rfl | hv''
                  · rw [ht1, ← ht01, hboth]
                  · cases hv'')
              (fun _ => hboth) h
            have hneed1 : needOf st1.Instruction_BitNeeded I.id = need := by
              rw [g5]; exact hneed
            rw [hneed1]
            refine ⟨_, g1, hmono, rfl, hboth, ?_, g2, g3, g4,
              fun X hX hne => g7 X (hmem X hX) hne⟩
            rw [hlen]; simp [redirect]
          · cases h
        · cases h
      · cases h

/-- A comparison that `ICMP_WidthCast` rebuilds. -/
theorem ICMP_WidthCast_rebuilt (sv : Services) (st st1 : PassState) (I : Instruction)
    (predicate : Nat) (hfresh : Fresh st.F st.nextId) (hI : I ∈ allInsts st.F)
    (huniq : cnt I.id st.F ≤ 1) (hty : I.ty = .integer 1)
    (hop : ∃ v ∈ I.operands, ∀ ty, v ≠ .other ty)
    (h : ICMP_WidthCast sv st I predicate = .ok st1) :
    ∃ new ∈ allInsts st1.F, st.nextId ≤ new.id ∧ new.kind = .ICmp predicate ∧
      new.ty = .integer 1 ∧
      new.operands.length = I.operands.length ∧
      (∀ v ∈ new.operands, v.width st1.F = .ok (needOf st1.Instruction_BitNeeded I.id)) ∧
      (∀ X ∈ allInsts st1.F, X.id ≠ I.id) ∧
      (∀ X ∈ allInsts st1.F, Value.inst I.id ∉ X.operands) ∧
      (∀ X ∈ allInsts st.F, X.id ≠ I.id → redirect I.id (.inst new.id) X ∈ allInsts st1.F) := by
  unfold ICMP_WidthCast at h
  split at h
  · cases h
  · rename_i isNeg need sta hprep
    split at h
    · cases h
    · rename_i ops stb hops
      obtain ⟨hfb, hmono, hneed, hmem, hanchor, hview, hall⟩ :=
        retarget_stage sv st sta stb I isNeg need ops hfresh hI hprep hops
      split at h
      · rename_i x y
        split at h
        · rename_i w0 w1 ht0 ht1
          split at h
          · rename_i hw01
            have hlen := hall.length_eq
            obtain ⟨a, l1, hR1, hrest, ha⟩ := List.forall₂_cons_right_iff.mp hall
            obtain ⟨b, l2, hR2, hnil, hb⟩ := List.forall₂_cons_right_iff.mp hrest
            have hl2 := List.forall₂_nil_right_iff.mp hnil
            have hab : [a, b] = I.operands := by rw [ha, hb, hl2]
            have hboth : w0 = need := by
              obtain ⟨v, hv, hvne⟩ := hop
              rw [← hab] at hv
              rcases List.mem_cons.mp hv with rfl | hv'
              · have := hR1.2 hvne
                rw [ht0] at this
                cases this; rfl
              · rcases List.mem_cons.mp hv' with rfl | hv''
                · have := hR2.2 hvne
                  rw [ht1] at this
                  cases this; exact hw01
                · cases hv''
            have htypes : ∀ v ∈ [x, y], v.getType stb.F = .ok (.integer need) := by
              intro v hv
              rcases List.mem_cons.mp hv with rfl | hv'
              · rw [ht0, hboth]
              · rcases List.mem_cons.mp hv' with rfl | hv''
                · rw [ht1, ← hw01, hboth]
                · cases hv''
            obtain ⟨g1, g2, g3, g4, g5, _, g7⟩ := replaceInst_rebuilt stb st1 I
              (.ICmp predicate) (.integer 1) [x, y] need hfb hanchor htypes
              (by
                intro hmemI
                have h1 := htypes _ hmemI
                rw [getType_inst_of_view_eq I.id st.F stb.F hview,
                  getType_of_unique st.F I hI huniq, hty] at h1
                injection h1) h
            have hneed1 : needOf st1.Instruction_BitNeeded I.id = need := by
              rw [g5]; exact hneed
            rw [hneed1]
            refine ⟨_, g1, hmono, rfl, rfl, ?_, g2, g3, g4,
              fun X hX hne => g7 X (hmem X hX) hne⟩
            rw [hlen]; simp [redirect]
          · cases h
        · cases h
      · cases h

/-- A phi node that `PHI_WidthCast` rebuilds. -/
theorem PHI_WidthCast_rebuilt (sv : Services) (st st1 : PassState) (I : Instruction)
    (blocks : List Nat) (hfresh : Fresh st.F st.nextId) (hI : I ∈ allInsts st.F)
    (h : PHI_WidthCast sv st I blocks = .ok st1) :
    ∃ new ∈ allInsts st1.F, st.nextId ≤ new.id ∧ new.kind = .PHI blocks ∧
      new.ty = .integer (needOf st1.Instruction_BitNeeded I.id) ∧
      new.operands.length = I.operands.length ∧
      (∀ v ∈ new.operands, v.width st1.F = .ok (needOf st1.Instruction_BitNeeded I.id)) ∧
      (∀ X ∈ allInsts st1.F, X.id ≠ I.id) ∧
      (∀ X ∈ allInsts st1.F, Value.inst I.id ∉ X.operands) ∧
      (∀ X ∈ allInsts st.F, X.id ≠ I.id → redirect I.id (.inst new.id) X ∈ allInsts st1.F) := by
  unfold PHI_WidthCast at h
  split at h
  · cases h
  · rename_i isNeg need sta hprep
    split at h
    · cases h
    · rename_i ops stb hops
      obtain ⟨hfb, hmono, hneed, hmem, hanchor, _, hall⟩ :=
        retarget_stage sv st sta stb I isNeg need ops hfresh hI hprep hops
      split at h
      · cases h
      · split at h
        · cases h
        · rename_i NewTy hNewTy
          obtain ⟨hNew, _⟩ := IntegerType_get_ok hNewTy
          subst hNew
          split at h
          · rename_i hallty
            have hlen := hall.length_eq
            obtain ⟨g1, g2, g3, g4, g5, _, g7⟩ := replaceInst_rebuilt stb st1 I
              (.PHI blocks) (.integer need) ops need hfb hanchor
              (allOfType_true _ _ _ hallty) (fun _ => rfl) h
            have hneed1 : needOf st1.Instruction_BitNeeded I.id = need := by
              rw [g5]; exact hneed
            rw [hneed1]
            refine ⟨_, g1, hmono, rfl, rfl, ?_, g2, g3, g4,
              fun X hX hne => g7 X (hmem X hX) hne⟩
            rw [hlen]; simp [redirect]
          · cases h

/-! ## The rewrites give a result on operands that can be cast -/

theorem hasNextL_insertAfterL (id id2 : Nat) (new : Instruction) (B : List Instruction)
    (h : hasNextL id B = true) : hasNextL id (insertAfterL id2 new B) = true := by
  induction B with
  | nil => simp [hasNextL] at h
  | cons x B ih =>
    cases B with
    | nil => simp [hasNextL] at h
    | cons y xs =>
      simp only [hasNextL] at h
      by_cases hx2 : x.id = id2
      · simp only [insertAfterL, if_pos hx2, hasNextL]
        by_cases hx : x.id = id
        · simp [hx]
        · simp only [if_neg hx] at h ⊢
          by_cases hn : new.id = id
          · simp [hn]
          · simp only [if_neg hn]; exact h
      · by_cases hx : x.id = id
        · simp only [insertAfterL, if_neg hx2]
          by_cases hy2 : y.id = id2
          · simp [if_pos hy2, hasNextL, hx]
          · simp [if_neg hy2, hasNextL, hx]
        · simp only [if_neg hx] at h
          have ih' := ih h
          simp only [insertAfterL, if_neg hx2]
          by_cases hy2 : y.id = id2
          · simp only [insertAfterL, if_pos hy2] at ih' ⊢
            simp only [hasNextL, if_neg hx]
            exact ih'
          · simp only [insertAfterL, if_neg hy2] at ih' ⊢
            simp only [hasNextL, if_neg hx]
            exact ih'

theorem hasNextNode_insertAfter (F : IRFunction) (id id2 : Nat) (new : Instruction)
    (h : hasNextNode F id = true) : hasNextNode (insertAfter F id2 new) id = true := by
  unfold hasNextNode insertAfter at *
  rw [List.any_eq_true] at h ⊢
  obtain ⟨B, hB, hn⟩ := h
  exact ⟨_, List.mem_map_of_mem _ hB, hasNextL_insertAfterL id id2 new B hn⟩

/-- A round of the operand loop keeps the other operands castable. -/
theorem Castable.retargetOperand (isNeg : Bool) (need : Nat) (st st1 : PassState) (v v1 u : Value)
    (hfresh : Fresh st.F st.nextId)
    (h : retargetOperand isNeg need st v = .ok (v1, st1))
    (hu : Castable st.F need u) : Castable st1.F need u := by
  cases u with
  | constInt C => trivial
  | other ty => exact hu
  | inst id =>
    obtain ⟨hnext, w, hty⟩ := hu
    have hlt : id < st.nextId := getType_ok_lt hfresh hty
    have hview := (retargetOperand_view id _ _ _ _ _ _ hlt h).1
    refine ⟨?_, w, by rw [getType_inst_of_view_eq id st.F st1.F hview]; exact hty⟩
    unfold HI_VarWidthReduce.retargetOperand at h
    split at h
    · split at h
      · cases h
      · cases h; exact hnext
    · split at h
      · cases h
      · split at h
        · cases h
        · split at h
          · cases h
          · split at h
            · cases h
            · split at h
              · cases h; exact hasNextNode_insertAfter _ _ _ _ hnext
              · split at h
                · cases h; exact hasNextNode_insertAfter _ _ _ _ hnext
                · cases h; exact hnext
    · cases h; exact hnext

theorem retargetOperand_total (isNeg : Bool) (need : Nat) (st : PassState) (v : Value)
    (hneed : 1 ≤ need ∧ need ≤ 16777215) (hv : Castable st.F need v) :
    ∃ v1 st1, retargetOperand isNeg need st v = .ok (v1, st1) := by
  cases v with
  | constInt C =>
    simp only [retargetOperand, IntegerType_get, if_pos hneed]
    exact ⟨_, _, rfl⟩
  | other ty => exact ⟨_, _, rfl⟩
  | inst id =>
    obtain ⟨hnext, w, hty⟩ := hv
    simp only [Value.getType] at hty
    cases hOp : getInst st.F id with
    | none => rw [hOp] at hty; cases hty
    | some Op =>
      rw [hOp] at hty
      have hOpty : Op.ty = .integer w := by injection hty
      simp only [retargetOperand, hOp, hnext, Bool.true_eq_false, if_false, IntegerType_get,
        if_pos hneed, hOpty, Ty.getIntegerBitWidth]
      by_cases h1 : w < need
      · rw [if_pos h1]; exact ⟨_, _, rfl⟩
      · rw [if_neg h1]
        by_cases h2 : need < w
        · rw [if_pos h2]; exact ⟨_, _, rfl⟩
        · rw [if_neg h2]; exact ⟨_, _, rfl⟩

theorem retargetOperands_total (isNeg : Bool) (need : Nat) (vs : List Value) (st : PassState)
    (hfresh : Fresh st.F st.nextId) (hneed : 1 ≤ need ∧ need ≤ 16777215)
    (hvs : ∀ v ∈ vs, Castable st.F need v) :
    ∃ vs1 st1, retargetOperands isNeg need vs st = .ok (vs1, st1) := by
  induction vs generalizing st with
  | nil => exact ⟨_, _, rfl⟩
  | cons v vs ih =>
    obtain ⟨v1, stm, hv⟩ := retargetOperand_total isNeg need st v hneed
      (hvs v (List.mem_cons_self _ _))
    have hfm := (retargetOperand_spec _ _ _ _ _ _ hfresh hv).1
    obtain ⟨vs1, st1, hrest⟩ := ih stm hfm (fun u hu =>
      Castable.retargetOperand isNeg need st stm v v1 u hfresh hv
        (hvs u (List.mem_cons_of_mem _ hu)))
    unfold retargetOperands
    rw [hv]
    simp only [hrest]
    exact ⟨_, _, rfl⟩

theorem forall₂_exists_left {α β : Type} {R : α → β → Prop} {l1 : List α} {l2 : List β}
    (h : List.Forall₂ R l1 l2) {b : β} (hb : b ∈ l2) : ∃ a ∈ l1, R a b := by
  induction h with
  | nil => cases hb
  | cons hab _ ih =>
    rcases List.mem_cons.mp hb with rfl | hb'
    · exact ⟨_, List.mem_cons_self _ _, hab⟩
    · obtain ⟨a, ha, hR⟩ := ih hb'
      exact ⟨a, List.mem_cons_of_mem _ ha, hR⟩

/-- After the operand loop on castable operands every operand has the need as its width. -/
theorem retargetOperands_types (isNeg : Bool) (need : Nat) (vs vs1 : List Value)
    (st st1 : PassState) (hfresh : Fresh st.F st.nextId)
    (hvs : ∀ v ∈ vs, Castable st.F need v)
    (h : retargetOperands isNeg need vs st = .ok (vs1, st1)) :
    ∀ v1 ∈ vs1, v1.getType st1.F = .ok (.integer need) := by
  obtain ⟨_, _, _, hall⟩ := retargetOperands_spec _ _ _ _ _ _ hfresh h
  intro v1 hv1
  obtain ⟨v, hv, hR⟩ := forall₂_exists_left hall hv1
  cases v with
  | constInt C => exact hR.2 (fun ty hc => by cases hc)
  | inst id => exact hR.2 (fun ty hc => by cases hc)
  | other ty =>
    have := hvs _ hv
    rw [hR.1 ty rfl]
    simp only [Castable] at this
    simp [Value.getType, this]

theorem replaceInst_total (st2 : PassState) (I : Instruction) (kind : Kind) (ty : Ty)
    (ops : List Value) (hfresh : Fresh st2.F st2.nextId)
    (hanchor : ∃ Y ∈ allInsts st2.F, Y.id = I.id) :
    ∃ st1, replaceInst st2 I ⟨st2.nextId, kind, ty, ops⟩ = .ok st1 := by
  obtain ⟨Y, hY, hYid⟩ := hanchor
  have hIlt : I.id < st2.nextId := hYid ▸ hfresh Y hY
  unfold replaceInst ReplaceUsesUnsafe
  rw [if_neg (fun hc => by
    have := hc.1
    injection this with h'
    simp only at h'
    omega)]
  exact ⟨_, rfl⟩

theorem prepareCast_total (sv : Services) (st : PassState) (I : Instruction) (w : Nat)
    (hty : I.ty = .integer w) :
    ∃ isNeg sta, prepareCast sv st I = .ok (isNeg,
      if I.operands.any (isPtrToIntInst st.F) = true then w
      else needOf st.Instruction_BitNeeded I.id, sta) := by
  unfold prepareCast
  simp only
  by_cases hp : I.operands.any (isPtrToIntInst st.F) = true
  · rw [if_pos hp, if_pos hp, hty]
    simp only [Ty.getIntegerBitWidth, needOf_mapSet]
    exact ⟨_, _, rfl⟩
  · rw [if_neg hp, if_neg hp]
    exact ⟨_, _, rfl⟩

theorem allOfType_of_types (F : IRFunction) (ty : Ty) (vs : List Value)
    (h : ∀ v ∈ vs, v.getType F = .ok ty) : allOfType F ty vs = true := by
  induction vs with
  | nil => rfl
  | cons u vs ih =>
    unfold allOfType
    rw [h u (List.mem_cons_self _ _)]
    simp only [decide_True, Bool.true_and]
    exact ih (fun v hv => h v (List.mem_cons_of_mem _ hv))

/-- `ICMP_WidthCast` gives a result on a comparison with two castable operands. -/
theorem ICMP_WidthCast_total (sv : Services) (st : PassState) (I : Instruction)
    (predicate : Nat) (a b : Value) (isNeg : Bool) (need : Nat) (sta : PassState)
    (hfresh : Fresh st.F st.nextId) (hI : I ∈ allInsts st.F) (hops : I.operands = [a, b])
    (hprep : prepareCast sv st I = .ok (isNeg, need, sta))
    (hneed : 1 ≤ need ∧ need ≤ 16777215)
    (ha : Castable st.F need a) (hb : Castable st.F need b) :
    ∃ st1, ICMP_WidthCast sv st I predicate = .ok st1 := by
  obtain ⟨hFa, hna⟩ := prepareCast_F _ _ _ _ _ _ hprep
  have hfa : Fresh sta.F sta.nextId := by rw [hFa, hna]; exact hfresh
  have hcast : ∀ v ∈ I.operands, Castable sta.F need v := by
    intro v hv
    rw [hops] at hv
    rw [hFa]
    rcases List.mem_cons.mp hv with rfl | hv'
    · exact ha
    · rcases List.mem_cons.mp hv' with rfl | hv''
      · exact hb
      · cases hv''
  obtain ⟨ops, stb, hret⟩ := retargetOperands_total isNeg need I.operands sta hfa hneed hcast
  have htypes := retargetOperands_types isNeg need I.operands ops sta stb hfa hcast hret
  obtain ⟨hfb, _, _, _, hanchor, _, hall⟩ :=
    retarget_stage sv st sta stb I isNeg need ops hfresh hI hprep hret
  have hlen := hall.length_eq
  rw [hops] at hlen
  match ops, hlen, hret, htypes with
  | [x, y], _, hret, htypes =>
    have hx := htypes x (List.mem_cons_self _ _)
    have hy := htypes y (List.mem_cons_of_mem _ (List.mem_cons_self _ _))
    obtain ⟨st1, h1⟩ := replaceInst_total stb I (.ICmp predicate) (.integer 1) [x, y] hfb hanchor
    refine ⟨st1, ?_⟩
    unfold ICMP_WidthCast
    rw [hprep]
    simp only [hret, hx, hy, if_true]
    exact h1

/-- `BOI_WidthCast` gives a result on a binary operator with two castable operands. -/
theorem BOI_WidthCast_total (sv : Services) (st : PassState) (I : Instruction)
    (opcode : Nat) (a b : Value) (isNeg : Bool) (need : Nat) (sta : PassState)
    (hfresh : Fresh st.F st.nextId) (hI : I ∈ allInsts st.F) (hops : I.operands = [a, b])
    (hprep : prepareCast sv st I = .ok (isNeg, need, sta))
    (hneed : 1 ≤ need ∧ need ≤ 16777215)
    (ha : Castable st.F need a) (hb : Castable st.F need b) :
    ∃ st1, BOI_WidthCast sv st I opcode = .ok st1 := by
  obtain ⟨hFa, hna⟩ := prepareCast_F _ _ _ _ _ _ hprep
  have hfa : Fresh sta.F sta.nextId := by rw [hFa, hna]; exact hfresh
  have hcast : ∀ v ∈ I.operands, Castable sta.F need v := by
    intro v hv
    rw [hops] at hv
    rw [hFa]
    rcases List.mem_cons.mp hv with rfl | hv'
    · exact ha
    · rcases List.mem_cons.mp hv' with rfl | hv''
      · exact hb
      · cases hv''
  obtain ⟨ops, stb, hret⟩ := retargetOperands_total isNeg need I.operands sta hfa hneed hcast
  have htypes := retargetOperands_types isNeg need I.operands ops sta stb hfa hcast hret
  obtain ⟨hfb, _, _, _, hanchor, _, hall⟩ :=
    retarget_stage sv st sta stb I isNeg need ops hfresh hI hprep hret
  have hlen := hall.length_eq
  rw [hops] at hlen
  match ops, hlen, hret, htypes with
  | [x, y], _, hret, htypes =>
    have hx := htypes x (List.mem_cons_self _ _)
    have hy := htypes y (List.mem_cons_of_mem _ (List.mem_cons_self _ _))
    obtain ⟨st1, h1⟩ := replaceInst_total stb I (.BinaryOperator opcode) (.integer need) [x, y]
      hfb hanchor
    refine ⟨st1, ?_⟩
    unfold BOI_WidthCast
    rw [hprep]
    simp only [hret, hx, hy, if_true]
    exact h1

/-- `PHI_WidthCast` gives a result on a phi with at least two incoming values, all of them
castable. -/
theorem PHI_WidthCast_total (sv : Services) (st : PassState) (I : Instruction)
    (blocks : List Nat) (isNeg : Bool) (need : Nat) (sta : PassState)
    (hfresh : Fresh st.F st.nextId) (hI : I ∈ allInsts st.F) (hlen2 : 2 ≤ I.operands.length)
    (hprep : prepareCast sv st I = .ok (isNeg, need, sta))
    (hneed : 1 ≤ need ∧ need ≤ 16777215)
    (hcast0 : ∀ v ∈ I.operands, Castable st.F need v) :
    ∃ st1, PHI_WidthCast sv st I blocks = .ok st1 := by
  obtain ⟨hFa, hna⟩ := prepareCast_F _ _ _ _ _ _ hprep
  have hfa : Fresh sta.F sta.nextId := by rw [hFa, hna]; exact hfresh
  have hcast : ∀ v ∈ I.operands, Castable sta.F need v := by
    intro v hv; rw [hFa]; exact hcast0 v hv
  obtain ⟨ops, stb, hret⟩ := retargetOperands_total isNeg need I.operands sta hfa hneed hcast
  have htypes := retargetOperands_types isNeg need I.operands ops sta stb hfa hcast hret
  obtain ⟨hfb, _, _, _, hanchor, _, hall⟩ :=
    retarget_stage sv st sta stb I isNeg need ops hfresh hI hprep hret
  have hlen := hall.length_eq
  obtain ⟨st1, h1⟩ := replaceInst_total stb I (.PHI blocks) (.integer need) ops hfb hanchor
  refine ⟨st1, ?_⟩
  unfold PHI_WidthCast
  rw [hprep]
  simp only [hret, IntegerType_get, if_pos hneed, allOfType_of_types _ _ _ htypes, if_true]
  rw [if_neg (by omega)]
  exact h1

/-! ## Scenario C: comparisons -/

theorem ICMP_WidthCast_operand (sv : Services) (st st1 : PassState) (I : Instruction)
    (predicate : Nat) (a b : Value) (wa wb : Nat) (hops : I.operands = [a, b])
    (hwa : a.width st.F = .ok wa) (hwb : b.width st.F = .ok wb) (hne : wa ≠ wb)
    (h : ICMP_WidthCast sv st I predicate = .ok st1) :
    ∃ v ∈ I.operands, ∀ ty, v ≠ .other ty := by
  by_contra hcon
  push_neg at hcon
  obtain ⟨ta, hta⟩ := hcon a (by rw [hops]; exact List.mem_cons_self _ _)
  obtain ⟨tb, htb⟩ := hcon b (by
    rw [hops]; exact List.mem_cons_of_mem _ (List.mem_cons_self _ _))
  subst hta htb
  simp only [Value.width, Value.getType] at hwa hwb
  unfold ICMP_WidthCast at h
  split at h
  · cases h
  · rw [hops] at h
    simp only [retargetOperands, retargetOperand, Value.getType] at h
    split at h
    · rename_i w0 w1 h0 h1
      cases h0; cases h1
      simp only [Ty.getIntegerBitWidth] at hwa hwb
      cases hwa; cases hwb
      rw [if_neg hne] at h
      cases h
    · cases h

/-- C12: a registered comparison (one-bit result type) with two operands of integer widths
that the scan of the rewriter visits.  When the two widths are equal, the visit leaves the
function as it is.  When they differ: the visit replaces the comparison whenever the need
(the declared width 1 when an operand is a pointer-to-integer conversion, else the recorded
need) is a width `IntegerType::get` accepts and both operands can be cast to it; and whenever
the visit returns, the comparison is replaced by a comparison with the same predicate and the
one-bit result type, under a fresh identity, whose two operands both have the width recorded
as its need; the old comparison is no longer in the function, no operand slot references it,
and every other instruction has its uses of the old comparison redirected to the new one. -/
theorem C12_comparison_operands_recast (sv : Services) (st : PassState) (I : Instruction)
    (predicate : Nat) (changed : Bool) (a b : Value) (wa wb : Nat)
    (hfresh : Fresh st.F st.nextId) (hI : I ∈ allInsts st.F) (huniq : cnt I.id st.F ≤ 1)
    (hreg : I.id ∈ st.Instruction_id)
    (hkind : I.kind = .ICmp predicate) (hty : I.ty = .integer 1)
    (hops : I.operands = [a, b])
    (hwa : a.width st.F = .ok wa) (hwb : b.width st.F = .ok wb) :
    (wa = wb →
      visit sv st changed I = .ok
        ({ st with Instruction_id := st.Instruction_id.filter (fun k => k != I.id) },
          true, false)) ∧
    (wa ≠ wb →
      (∀ need,
        need = (if I.operands.any (isPtrToIntInst st.F) = true then 1
          else needOf st.Instruction_BitNeeded I.id) →
        1 ≤ need ∧ need ≤ 16777215 → Castable st.F need a → Castable st.F need b →
        ∃ st1, visit sv st changed I = .ok (st1, true, true)) ∧
      (∀ st1 changed1 brk, visit sv st changed I = .ok (st1, changed1, brk) →
        ∃ new ∈ allInsts st1.F, st.nextId ≤ new.id ∧ new.kind = .ICmp predicate ∧
          new.ty = I.ty ∧ new.operands.length = 2 ∧
          (∀ v ∈ new.operands, v.width st1.F = .ok (needOf st1.Instruction_BitNeeded I.id)) ∧
          (∀ X ∈ allInsts st1.F, X.id ≠ I.id) ∧
          (∀ X ∈ allInsts st1.F, Value.inst I.id ∉ X.operands) ∧
          (∀ X ∈ allInsts st.F, X.id ≠ I.id →
            redirect I.id (.inst new.id) X ∈ allInsts st1.F))) := by
  have hvisit : visit sv st changed I =
      match sameWidthCmp st.F I with
      | .error e => .error e
      | .ok true => .ok
          ({ st with Instruction_id := st.Instruction_id.filter (fun k => k != I.id) },
            true, false)
      | .ok false =>
        match allSameWidth st.F (needOf st.Instruction_BitNeeded I.id) 1 I with
        | .error e => .error e
        | .ok true => .ok
            ({ st with Instruction_id := st.Instruction_id.filter (fun k => k != I.id) },
              true, false)
        | .ok false =>
          match ICMP_WidthCast sv
            { st with Instruction_id := st.Instruction_id.filter (fun k => k != I.id) }
            I predicate with
          | .error e => .error e
          | .ok st1 => .ok (st1, true, true) := by
    unfold visit
    rw [if_pos hreg]
    simp only [hkind, hty, Kind.isCast, Kind.mayReadFromMemory, Bool.false_eq_true, if_false]
  have hsame : sameWidthCmp st.F I = .ok (wa == wb) := by
    simp only [sameWidthCmp, hkind, hops, hwa, hwb]
  constructor
  · intro heq
    have hbeq : (wa == wb) = true := by simpa using heq
    rw [hvisit, hsame, hbeq]
  · intro hne
    have hbeq : (wa == wb) = false := by simpa using hne
    have hasw : allSameWidth st.F (needOf st.Instruction_BitNeeded I.id) 1 I = .ok false := by
      unfold allSameWidth
      split
      · rename_i hneed
        simp only [hops, widths, hwa, hwb, List.all_cons, List.all_nil, Bool.and_true, hneed]
        congr 1
        by_contra hcon
        simp only [Bool.not_eq_false, Bool.and_eq_true, beq_iff_eq] at hcon
        omega
      · rfl
    rw [hvisit, hsame, hbeq]
    simp only [hasw]
    constructor
    · intro need hneedeq hrange ha hb
      obtain ⟨isNeg, sta, hprep⟩ := prepareCast_total sv
        { st with Instruction_id := st.Instruction_id.filter (fun k => k != I.id) } I 1 hty
      rw [← hneedeq] at hprep
      obtain ⟨st1, h1⟩ := ICMP_WidthCast_total sv
        { st with Instruction_id := st.Instruction_id.filter (fun k => k != I.id) } I predicate
        a b isNeg need sta hfresh hI hops hprep hrange ha hb
      exact ⟨st1, by rw [h1]⟩
    · intro st1 changed1 brk h
      split at h
      · cases h
      · rename_i st2 hcast
        cases h
        have hop := ICMP_WidthCast_operand sv
          { st with Instruction_id := st.Instruction_id.filter (fun k => k != I.id) } st1 I
          predicate a b wa wb hops hwa hwb hne hcast
        obtain ⟨new, g1, g2, g3, g4, g5, g6, g7, g8, g9⟩ :=
          ICMP_WidthCast_rebuilt sv
            { st with Instruction_id := st.Instruction_id.filter (fun k => k != I.id) } st1 I
            predicate hfresh hI huniq hty hop hcast
        exact ⟨new, g1, g2, g3, by rw [g4, hty], by rw [g5, hops]; rfl, g6, g7, g8, g9⟩

/-- Witness of C12 on `cmpF`: the comparison (3) of an 8-bit and a 4-bit load, with recorded
need 4, is replaced; it is rebuilt as a comparison of two 4-bit operands, and the terminator
uses the new comparison. -/
theorem C12_comparison_operands_recast_witness :
    (∃ st1, visit cmpSv cmpSt false ⟨3, .ICmp 40, .integer 1, [.inst 1, .inst 2]⟩
      = .ok (st1, true, true)) ∧
    (∃ new ∈ allInsts cmpF1, 10 ≤ new.id ∧ new.kind = .ICmp 40 ∧
      new.ty = .integer 1 ∧ new.operands.length = 2 ∧
      (∀ v ∈ new.operands, v.width cmpF1 = .ok 4) ∧
      (∀ X ∈ allInsts cmpF1, X.id ≠ 3) ∧
      (∀ X ∈ allInsts cmpF1, Value.inst 3 ∉ X.operands) ∧
      (∀ X ∈ allInsts cmpF, X.id ≠ 3 → redirect 3 (.inst new.id) X ∈ allInsts cmpF1)) :=
  have h := (C12_comparison_operands_recast cmpSv cmpSt
    ⟨3, .ICmp 40, .integer 1, [.inst 1, .inst 2]⟩ 40 false (.inst 1) (.inst 2) 8 4
    (by unfold Fresh; decide) (by decide) (by decide) (by decide) rfl rfl rfl
    (by rfl) (by rfl)).2 (by decide)
  ⟨h.1 4 (by rfl) ⟨by decide, by decide⟩ ⟨by rfl, 8, by rfl⟩ ⟨by rfl, 4, by rfl⟩,
   h.2 ⟨cmpF1, [], [(3, 4)], [(3, ⟨⟨1, 1⟩, ⟨1, 1⟩⟩)], 12⟩ true true (by rfl)⟩

/-! ## The need the rewrites end with -/

theorem replaceInst_table (st st1 : PassState) (I new : Instruction)
    (h : replaceInst st I new = .ok st1) :
    st1.Instruction_BitNeeded = st.Instruction_BitNeeded := by
  unfold replaceInst at h
  split at h
  · cases h
  · cases h; rfl

theorem BOI_WidthCast_need (sv : Services) (st st1 : PassState) (I : Instruction)
    (opcode : Nat) (hfresh : Fresh st.F st.nextId) (hI : I ∈ allInsts st.F)
    (h : BOI_WidthCast sv st I opcode = .ok st1) :
    ∃ isNeg sta, prepareCast sv st I
      = .ok (isNeg, needOf st1.Instruction_BitNeeded I.id, sta) := by
  unfold BOI_WidthCast at h
  split at h
  · cases h
  · rename_i isNeg need sta hprep
    split at h
    · cases h
    · rename_i ops stb hops
      obtain ⟨_, _, hneed, _⟩ :=
        retarget_stage sv st sta stb I isNeg need ops hfresh hI hprep hops
      split at h
      · split at h
        · split at h
          · rw [replaceInst_table _ _ _ _ h, hneed]
            exact ⟨isNeg, sta, hprep⟩
          · cases h
        · cases h
      · cases h

theorem ICMP_WidthCast_need (sv : Services) (st st1 : PassState) (I : Instruction)
    (predicate : Nat) (hfresh : Fresh st.F st.nextId) (hI : I ∈ allInsts st.F)
    (h : ICMP_WidthCast sv st I predicate = .ok st1) :
    ∃ isNeg sta, prepareCast sv st I
      = .ok (isNeg, needOf st1.Instruction_BitNeeded I.id, sta) := by
  unfold ICMP_WidthCast at h
  split at h
  · cases h
  · rename_i isNeg need sta hprep
    split at h
    · cases h
    · rename_i ops stb hops
      obtain ⟨_, _, hneed, _⟩ :=
        retarget_stage sv st sta stb I isNeg need ops hfresh hI hprep hops
      split at h
      · split at h
        · split at h
          · rw [replaceInst_table _ _ _ _ h, hneed]
            exact ⟨isNeg, sta, hprep⟩
          · cases h
        · cases h
      · cases h

theorem PHI_WidthCast_need (sv : Services) (st st1 : PassState) (I : Instruction)
    (blocks : List Nat) (hfresh : Fresh st.F st.nextId) (hI : I ∈ allInsts st.F)
    (h : PHI_WidthCast sv st I blocks = .ok st1) :
    ∃ isNeg sta, prepareCast sv st I
      = .ok (isNeg, needOf st1.Instruction_BitNeeded I.id, sta) := by
  unfold PHI_WidthCast at h
  split at h
  · cases h
  · rename_i isNeg need sta hprep
    split at h
    · cases h
    · rename_i ops stb hops
      obtain ⟨_, _, hneed, _⟩ :=
        retarget_stage sv st sta stb I isNeg need ops hfresh hI hprep hops
      split at h
      · cases h
      · split at h
        · cases h
        · split at h
          · rw [replaceInst_table _ _ _ _ h, hneed]
            exact ⟨isNeg, sta, hprep⟩
          · cases h

/-! ## Rebuilt phi nodes and pointer-derived operands -/

/-- C13: a phi node of the function, for `PHI_WidthCast`.  The rewrite gives a result whenever
the phi has at least two incoming values, the need is a width `IntegerType::get` accepts and
every incoming value can be cast to it.  Whenever it gives a result, the phi is replaced by a
phi node under a fresh identity that has the width recorded as the need of the old one (the
declared width when an incoming value is a pointer-to-integer conversion), the same incoming
blocks in the same order and as many incoming values, each of which has that same width; the
old phi is no longer in the function, no operand slot references it, and every other
instruction has its uses of the old phi redirected to the new one. -/
theorem C13_phi_rebuilt_at_need_width (sv : Services) (st : PassState) (I : Instruction)
    (blocks : List Nat) (hfresh : Fresh st.F st.nextId) (hI : I ∈ allInsts st.F)
    (hkind : I.kind = .PHI blocks) :
    (∀ isNeg need sta, prepareCast sv st I = .ok (isNeg, need, sta) →
      1 ≤ need ∧ need ≤ 16777215 → 2 ≤ I.operands.length →
      (∀ v ∈ I.operands, Castable st.F need v) →
      ∃ st1, PHI_WidthCast sv st I blocks = .ok st1) ∧
    (∀ st1, PHI_WidthCast sv st I blocks = .ok st1 →
      ∃ new ∈ allInsts st1.F, st.nextId ≤ new.id ∧ new.kind = I.kind ∧
        new.ty = .integer (needOf st1.Instruction_BitNeeded I.id) ∧
        new.operands.length = I.operands.length ∧
        (∀ v ∈ new.operands, v.width st1.F = .ok (needOf st1.Instruction_BitNeeded I.id)) ∧
        (∀ X ∈ allInsts st1.F, X.id ≠ I.id) ∧
        (∀ X ∈ allInsts st1.F, Value.inst I.id ∉ X.operands) ∧
        (∀ X ∈ allInsts st.F, X.id ≠ I.id →
          redirect I.id (.inst new.id) X ∈ allInsts st1.F)) := by
  constructor
  · intro isNeg need sta hprep hneed hlen hcast
    exact PHI_WidthCast_total sv st I blocks isNeg need sta hfresh hI hlen hprep hneed hcast
  · intro st1 h
    rw [hkind]
    exact PHI_WidthCast_rebuilt sv st st1 I blocks hfresh hI h

/-- Witness of C13 on `phiLoopF1`: the 32-bit phi (1) with need 32, fed by a 32-bit load and
a 5-bit value, is rewritten; it is rebuilt as a 32-bit phi with the same incoming blocks whose
two incoming values are 32 bits wide. -/
theorem C13_phi_rebuilt_at_need_width_witness :
    (∃ st1, PHI_WidthCast phiLoopSv ⟨phiLoopF1, [1], [(1, 32)], [], 12⟩
      ⟨1, .PHI [0, 1], .integer 32, [.inst 6, .inst 11]⟩ [0, 1] = .ok st1) ∧
    (∃ new ∈ allInsts phiLoopF2, 12 ≤ new.id ∧ new.kind = .PHI [0, 1] ∧
      new.ty = .integer 32 ∧ new.operands.length = 2 ∧
      (∀ v ∈ new.operands, v.width phiLoopF2 = .ok 32) ∧
      (∀ X ∈ allInsts phiLoopF2, X.id ≠ 1) ∧
      (∀ X ∈ allInsts phiLoopF2, Value.inst 1 ∉ X.operands) ∧
      (∀ X ∈ allInsts phiLoopF1, X.id ≠ 1 →
        redirect 1 (.inst new.id) X ∈ allInsts phiLoopF2)) :=
  have h := C13_phi_rebuilt_at_need_width phiLoopSv ⟨phiLoopF1, [1], [(1, 32)], [], 12⟩
    ⟨1, .PHI [0, 1], .integer 32, [.inst 6, .inst 11]⟩ [0, 1]
    (by unfold Fresh; decide) (by decide) rfl
  ⟨h.1 true 32
      ⟨phiLoopF1, [1], [(1, 32)], [(1, ⟨⟨32, 4294967295⟩, ⟨32, 4294967295⟩⟩)], 12⟩
      (by rfl) ⟨by decide, by decide⟩ (by decide)
      (by
        intro v hv
        rcases List.mem_cons.mp hv with rfl | hv'
        · exact ⟨by rfl, 32, by rfl⟩
        · rcases List.mem_cons.mp hv' with rfl | hv''
          · exact ⟨by rfl, 5, by rfl⟩
          · cases hv''),
   h.2 ⟨phiLoopF2, [1], [(1, 32)], [(1, ⟨⟨32, 4294967295⟩, ⟨32, 4294967295⟩⟩)], 14⟩ (by rfl)⟩

theorem isPtrToIntInst_inst (F : IRFunction) (v : Value) (h : isPtrToIntInst F v = true) :
    ∀ ty, v ≠ .other ty := by
  intro ty hv
  subst hv
  simp [isPtrToIntInst] at h

/-- C14: a binary operator, comparison (its declared type being the one-bit predicate type)
or phi node that has a pointer-to-integer conversion among its operands and that its rewrite
replaces: the replacement has the kind of the old instruction, its result width and the width
of every one of its operands are no narrower than the declared width of the old instruction
(they are equal to it), and that width is what the need table then records. -/
theorem C14_pointer_operand_keeps_declared_width (sv : Services) (st st1 : PassState)
    (I : Instruction) (w : Nat)
    (hfresh : Fresh st.F st.nextId) (hI : I ∈ allInsts st.F) (huniq : cnt I.id st.F ≤ 1)
    (hptr : I.operands.any (isPtrToIntInst st.F) = true)
    (hty : I.ty = .integer w)
    (h : (∃ opcode, I.kind = .BinaryOperator opcode ∧
            BOI_WidthCast sv st I opcode = .ok st1) ∨
         (∃ predicate, I.kind = .ICmp predicate ∧ w = 1 ∧
            ICMP_WidthCast sv st I predicate = .ok st1) ∨
         (∃ blocks, I.kind = .PHI blocks ∧ PHI_WidthCast sv st I blocks = .ok st1)) :
    ∃ new ∈ allInsts st1.F, st.nextId ≤ new.id ∧ new.kind = I.kind ∧
      (∃ wr, new.ty = .integer wr ∧ w ≤ wr) ∧
      (∀ v ∈ new.operands, ∃ wv, v.width st1.F = .ok wv ∧ w ≤ wv) ∧
      new.ty = I.ty ∧
      (∀ v ∈ new.operands, v.width st1.F = .ok w) ∧
      needOf st1.Instruction_BitNeeded I.id = w := by
  have hop : ∃ v ∈ I.operands, ∀ ty, v ≠ .other ty := by
    obtain ⟨v, hv, hp⟩ := List.any_eq_true.mp hptr
    exact ⟨v, hv, isPtrToIntInst_inst _ _ hp⟩
  -- the need the rewrite ends with is the declared width
  have hneedw : ∀ (isNeg : Bool) (need : Nat) (sta : PassState),
      prepareCast sv st I = .ok (isNeg, need, sta) → need = w :=
    fun isNeg need sta hp => prepareCast_ptr sv st sta I isNeg need w hptr hty hp
  have key : ∀ new : Instruction, new ∈ allInsts st1.F → st.nextId ≤ new.id →
      new.kind = I.kind → new.ty = I.ty →
      (∀ v ∈ new.operands, v.width st1.F = .ok (needOf st1.Instruction_BitNeeded I.id)) →
      needOf st1.Instruction_BitNeeded I.id = w →
      ∃ new ∈ allInsts st1.F, st.nextId ≤ new.id ∧ new.kind = I.kind ∧
        (∃ wr, new.ty = .integer wr ∧ w ≤ wr) ∧
        (∀ v ∈ new.operands, ∃ wv, v.width st1.F = .ok wv ∧ w ≤ wv) ∧
        new.ty = I.ty ∧
        (∀ v ∈ new.operands, v.width st1.F = .ok w) ∧
        needOf st1.Instruction_BitNeeded I.id = w := by
    intro new h1 h2 h3 h4 h5 h6
    refine ⟨new, h1, h2, h3, ⟨w, by rw [h4, hty], le_refl _⟩, ?_, h4, ?_, h6⟩
    · intro v hv
      exact ⟨w, by rw [h5 v hv, h6], le_refl _⟩
    · intro v hv
      rw [h5 v hv, h6]
  rcases h with ⟨opcode, hk, h⟩ | ⟨predicate, hk, hw1, h⟩ | ⟨blocks, hk, h⟩
  · obtain ⟨isNeg, sta, hp⟩ := BOI_WidthCast_need sv st st1 I opcode hfresh hI h
    have hw := hneedw _ _ _ hp
    obtain ⟨new, g1, g2, g3, g4, _, g6, _⟩ :=
      BOI_WidthCast_rebuilt sv st st1 I opcode hfresh hI hop h
    exact key new g1 g2 (by rw [g3, hk]) (by rw [g4, hw, hty]) g6 hw
  · obtain ⟨isNeg, sta, hp⟩ := ICMP_WidthCast_need sv st st1 I predicate hfresh hI h
    have hw := hneedw _ _ _ hp
    obtain ⟨new, g1, g2, g3, g4, _, g6, _⟩ :=
      ICMP_WidthCast_rebuilt sv st st1 I predicate hfresh hI huniq (by rw [hty, hw1]) hop h
    exact key new g1 g2 (by rw [g3, hk]) (by rw [g4, hty, hw1]) g6 hw
  · obtain ⟨isNeg, sta, hp⟩ := PHI_WidthCast_need sv st st1 I blocks hfresh hI h
    have hw := hneedw _ _ _ hp
    obtain ⟨new, g1, g2, g3, g4, _, g6, _⟩ :=
      PHI_WidthCast_rebuilt sv st st1 I blocks hfresh hI h
    exact key new g1 g2 (by rw [g3, hk]) (by rw [g4, hw, hty]) g6 hw

/-- Witness of C14 on `ptrF`: the 64-bit addition (2) of a pointer-to-integer conversion, with
recorded need 7, is rebuilt at 64 bits with 64-bit operands. -/
theorem C14_pointer_operand_keeps_declared_width_witness :
    ∃ new ∈ allInsts ptrF1, 10 ≤ new.id ∧ new.kind = .BinaryOperator 13 ∧
      (∃ wr, new.ty = .integer wr ∧ 64 ≤ wr) ∧
      (∀ v ∈ new.operands, ∃ wv, v.width ptrF1 = .ok wv ∧ 64 ≤ wv) ∧
      new.ty = .integer 64 ∧
      (∀ v ∈ new.operands, v.width ptrF1 = .ok 64) ∧
      needOf [(2, 64)] 2 = 64 :=
  C14_pointer_operand_keeps_declared_width ptrSv ptrSt ⟨ptrF1, [2], [(2, 64)], [], 11⟩
    ⟨2, .BinaryOperator 13, .integer 64, [.inst 1, .constInt ⟨64, 8⟩]⟩ 64
    (by unfold Fresh; decide) (by decide) (by decide) (by decide) rfl
    (Or.inl ⟨13, rfl, by rfl⟩)

/-! ## The `changed` flag of the rewriter -/

theorem visit_flag (sv : Services) (st st1 : PassState) (changed changed1 brk : Bool)
    (I : Instruction) (h : visit sv st changed I = .ok (st1, changed1, brk)) :
    (changed = true → changed1 = true) ∧ (st1.F ≠ st.F → changed1 = true) := by
  unfold visit at h
  split at h
  · simp only at h
    split at h
    · cases h; exact ⟨id, fun hne => absurd rfl hne⟩
    · split at h
      · cases h; exact ⟨id, fun hne => absurd rfl hne⟩
      · split at h
        · cases h; exact ⟨fun _ => rfl, fun _ => rfl⟩
        · split at h
          · cases h
          · cases h; exact ⟨fun _ => rfl, fun _ => rfl⟩
          · split at h
            · cases h
            · cases h; exact ⟨fun _ => rfl, fun _ => rfl⟩
            · split at h
              · split at h
                · cases h
                · cases h; exact ⟨fun _ => rfl, fun _ => rfl⟩
              · split at h
                · cases h
                · cases h; exact ⟨fun _ => rfl, fun _ => rfl⟩
              · split at h
                · cases h
                · cases h; exact ⟨fun _ => rfl, fun _ => rfl⟩
              · cases h; exact ⟨fun _ => rfl, fun _ => rfl⟩
  · cases h; exact ⟨id, fun hne => absurd rfl hne⟩

theorem scanBlock_flag (sv : Services) (B : List Instruction) (st st1 : PassState)
    (changed changed1 brk : Bool)
    (h : scanBlock sv B st changed = .ok (st1, changed1, brk)) :
    (changed = true → changed1 = true) ∧ (st1.F ≠ st.F → changed1 = true) := by
  induction B generalizing st changed with
  | nil => unfold scanBlock at h; cases h; exact ⟨id, fun hne => absurd rfl hne⟩
  | cons I rest ih =>
    unfold scanBlock at h
    split at h
    · cases h
    · rename_i stm chm hv
      cases h
      exact visit_flag _ _ _ _ _ _ _ hv
    · rename_i stm chm hv
      obtain ⟨a1, a2⟩ := visit_flag _ _ _ _ _ _ _ hv
      obtain ⟨b1, b2⟩ := ih _ _ h
      refine ⟨fun hc => b1 (a1 hc), fun hne => ?_⟩
      by_cases hm : stm.F = st.F
      · exact b2 (fun heq => hne (heq.trans hm))
      · exact b1 (a2 hm)

theorem rewriteBlock_flag (sv : Services) (b fuel : Nat) (st st1 : PassState)
    (changed changed1 : Bool)
    (h : rewriteBlock sv b fuel st changed = .ok (st1, changed1)) :
    (changed = true → changed1 = true) ∧ (st1.F ≠ st.F → changed1 = true) := by
  induction fuel generalizing st changed with
  | zero => unfold rewriteBlock at h; cases h
  | succ fuel ih =>
    unfold rewriteBlock at h
    split at h
    · cases h
    · rename_i stm chm hs
      obtain ⟨a1, a2⟩ := scanBlock_flag _ _ _ _ _ _ _ hs
      obtain ⟨b1, b2⟩ := ih _ _ h
      refine ⟨fun hc => b1 (a1 hc), fun hne => ?_⟩
      by_cases hm : stm.F = st.F
      · exact b2 (fun heq => hne (heq.trans hm))
      · exact b1 (a2 hm)
    · rename_i stm chm hs
      cases h
      exact scanBlock_flag _ _ _ _ _ _ _ hs

theorem rewriteBlocks_flag (sv : Services) (n b : Nat) (st st1 : PassState)
    (changed changed1 : Bool)
    (h : rewriteBlocks sv n b st changed = .ok (st1, changed1)) :
    (changed = true → changed1 = true) ∧ (st1.F ≠ st.F → changed1 = true) := by
  induction n generalizing st changed b with
  | zero => unfold rewriteBlocks at h; cases h; exact ⟨id, fun hne => absurd rfl hne⟩
  | succ n ih =>
    unfold rewriteBlocks at h
    split at h
    · cases h
    · rename_i stm chm hs
      obtain ⟨a1, a2⟩ := rewriteBlock_flag _ _ _ _ _ _ _ hs
      obtain ⟨b1, b2⟩ := ih _ _ _ h
      refine ⟨fun hc => b1 (a1 hc), fun hne => ?_⟩
      by_cases hm : stm.F = st.F
      · exact b2 (fun heq => hne (heq.trans hm))
      · exact b1 (a2 hm)

/-- The half of the flag's contract that the rewriter keeps: when it returns a function that
differs from the one it was given, it returns true. -/
theorem InsturctionUpdate_WidthCast_flag (sv : Services) (st st1 : PassState) (changed : Bool)
    (h : InsturctionUpdate_WidthCast sv st = .ok (st1, changed)) (hne : st1.F ≠ st.F) :
    changed = true :=
  (rewriteBlocks_flag sv _ 0 st st1 false changed h).2 hne

/-- C11, evaluated on `loadAddF` when nothing is known of any value (every recorded need is
32, the declared width): the load is skipped as a memory read and the addition is skipped
because its result and operand widths agree with its need, so the rewriter returns the
function as it was -- and it returns true. -/
theorem C11_flag_true_without_mutation :
    (InsturctionUpdate_WidthCast agreeSv
        (Bitwidth_Analysis agreeSv ⟨loadAddF, [], [], [], 10⟩)).toOption.map
      (fun r => (r.1.F, r.2, needOf r.1.Instruction_BitNeeded 1,
        needOf r.1.Instruction_BitNeeded 2)) = some (loadAddF, true, 32, 32) := by
  rfl

/-! ## One removal of the cast eliminator -/

theorem isRedundantCast_opcode (F : IRFunction) (I : Instruction)
    (h : isRedundantCast F I = .ok true) :
    I.kind = .Cast .Trunc ∨ I.kind = .Cast .ZExt ∨ I.kind = .Cast .SExt := by
  unfold isRedundantCast at h
  split at h
  · rename_i opcode hk
    split at h
    · cases h
    · rename_i hop
      rw [hk]
      cases opcode
      · exact Or.inl rfl
      · exact Or.inr (Or.inl rfl)
      · exact Or.inr (Or.inr rfl)
      · exact absurd ⟨by decide, by decide, by decide⟩ hop
      · exact absurd ⟨by decide, by decide, by decide⟩ hop
  · cases h

/-- A removal is only carried out when the cast is not its own operand. -/
theorem ReplaceUsesUnsafe_ne (F : IRFunction) (C : Instruction) (v : Value) (rest : List Value)
    (hC : C ∈ allInsts F) (hops : C.operands = v :: rest)
    (hok : ReplaceUsesUnsafe F C.id v = .ok (replaceUses F C.id v)) : v ≠ .inst C.id := by
  intro hv
  unfold ReplaceUsesUnsafe at hok
  rw [if_pos ⟨hv, hasUses_of_mem F C.id C hC (by rw [hops, hv]; exact List.mem_cons_self _ _)⟩]
    at hok
  cases hok

/-- C15: one removal of `RedundantCastRemove` (a scan of block `b` that finds a removable
cast).  The cast `C` it removes is a truncate, zero-extend or sign-extend whose output width
equals the width of its input `X`; afterwards no block holds an instruction with the identity
of `C`, no operand slot of the function references `C`, and every block is the block it was
with `C` taken out and, in each remaining instruction, the operand slots that referenced `C`
set to `X` and all other operand slots as they were (`redirect`). -/
theorem C15_redundant_cast_removal_redirects_uses (F F1 : IRFunction) (b : Nat)
    (h : scanCasts F (F.getD b []) = .ok (some F1)) :
    ∃ C ∈ F.getD b [], ∃ X rest w,
      (C.kind = .Cast .Trunc ∨ C.kind = .Cast .ZExt ∨ C.kind = .Cast .SExt) ∧
      C.operands = X :: rest ∧ C.ty = .integer w ∧ X.width F = .ok w ∧
      (∀ i, ∀ Y ∈ F1.getD i [], Y.id ≠ C.id) ∧
      (∀ Y ∈ allInsts F1, Value.inst C.id ∉ Y.operands) ∧
      (∀ i, F1.getD i [] = ((F.getD i []).filter (fun Y => Y.id != C.id)).map
        (redirect C.id X)) := by
  obtain ⟨C, hC, hred, X, rest, hops, hok, rfl⟩ := scanCasts_some F F1 _ h
  obtain ⟨w, hw, hXw⟩ := isRedundantCast_true F C X rest hops hred
  have hCF := mem_allInsts_of_mem_getD F b C hC
  have hXne := ReplaceUsesUnsafe_ne F C X rest hCF hops hok
  refine ⟨C, hC, X, rest, w, isRedundantCast_opcode F C hred, hops, hw, hXw, ?_, ?_, ?_⟩
  · intro i Y hY
    exact ((mem_allInsts_eraseFromParent _ _ _).mp (mem_allInsts_of_mem_getD _ i Y hY)).2
  · intro Y hY hmem
    obtain ⟨hY', _⟩ := (mem_allInsts_eraseFromParent _ _ _).mp hY
    obtain ⟨Z, _, rfl⟩ := exists_of_mem_replaceUses _ _ _ _ hY'
    simp only [redirect, List.mem_map] at hmem
    obtain ⟨u, _, hu⟩ := hmem
    by_cases hui : u = .inst C.id
    · rw [if_pos hui] at hu
      exact hXne hu
    · rw [if_neg hui] at hu
      exact hui hu
  · intro i
    rw [getD_erase_replace, List.filter_map]
    rfl

/-- Witness of C15 on Scenario D (`redCastF`): the truncation (2) of the 8-bit load (1) to 8
bits is removed, and the addition that used it uses the load. -/
theorem C15_redundant_cast_removal_redirects_uses_witness :
    ∃ C ∈ redCastF.getD 0 [], ∃ X rest w,
      (C.kind = .Cast .Trunc ∨ C.kind = .Cast .ZExt ∨ C.kind = .Cast .SExt) ∧
      C.operands = X :: rest ∧ C.ty = .integer w ∧ X.width redCastF = .ok w ∧
      (∀ i, ∀ Y ∈ redCastF1.getD i [], Y.id ≠ C.id) ∧
      (∀ Y ∈ allInsts redCastF1, Value.inst C.id ∉ Y.operands) ∧
      (∀ i, redCastF1.getD i [] = ((redCastF.getD i []).filter (fun Y => Y.id != C.id)).map
        (redirect C.id X)) :=
  C15_redundant_cast_removal_redirects_uses redCastF redCastF1 0 (by rfl)

/-! ## The cast eliminator on well-formed casts -/

theorem isWidthCast_of_redundant (F : IRFunction) (X : Instruction)
    (h : isRedundantCast F X = .ok true) : X.kind.isWidthCast = true := by
  rcases isRedundantCast_opcode F X h with hk | hk | hk <;> rw [hk] <;> rfl

theorem isRedundantCast_total (F : IRFunction) (X : Instruction) (hX : X ∈ allInsts F)
    (hwt : CastsTyped F) : ∃ b, isRedundantCast F X = .ok b := by
  by_cases hk : X.kind.isWidthCast = true
  · obtain ⟨w, v, rest, wv, hty, hops, hv⟩ := hwt X hX hk
    unfold isRedundantCast
    split
    · rename_i opcode hop
      split
      · exact ⟨false, rfl⟩
      · rw [hty, hops]
        simp only [Ty.getIntegerBitWidth, hv]
        exact ⟨_, rfl⟩
    · exact ⟨false, rfl⟩
  · unfold isRedundantCast
    split
    · rename_i opcode hop
      split
      · exact ⟨false, rfl⟩
      · rename_i hnot
        exfalso
        apply hk
        rw [hop]
        cases opcode
        · rfl
        · rfl
        · rfl
        · exact absurd ⟨by decide, by decide, by decide⟩ hnot
        · exact absurd ⟨by decide, by decide, by decide⟩ hnot
    · exact ⟨false, rfl⟩

/-- On well-formed casts a scan of the eliminator gives a result: no assertion fails, and
`ReplaceUsesUnsafe` is never asked to replace a cast by itself. -/
theorem scanCasts_total (rank : Nat → Nat) (F : IRFunction) (B : List Instruction)
    (hB : ∀ X ∈ B, X ∈ allInsts F) (hwt : CastsTyped F) (hord : CastsOrdered rank F) :
    scanCasts F B = .ok none ∨ ∃ F1, scanCasts F B = .ok (some F1) := by
  induction B with
  | nil => exact Or.inl rfl
  | cons I B ih =>
    have hI := hB I (List.mem_cons_self _ _)
    obtain ⟨b, hb⟩ := isRedundantCast_total F I hI hwt
    unfold scanCasts
    rw [hb]
    cases b with
    | false => exact ih (fun X hX => hB X (List.mem_cons_of_mem _ hX))
    | true =>
      right
      have hk := isWidthCast_of_redundant F I hb
      obtain ⟨w, v, rest, wv, hty, hops, hv⟩ := hwt I hI hk
      simp only [hops]
      have hne : v ≠ .inst I.id := by
        intro hvI
        have := hord I hI hk I.id rest (by rw [hops, hvI])
        omega
      unfold ReplaceUsesUnsafe
      rw [if_neg (fun hc => hne hc.1)]
      exact ⟨_, rfl⟩

theorem CastsTyped.removal_typed (F : IRFunction) (C : Instruction) (v : Value) (rest : List Value)
    (hC : C ∈ allInsts F) (huniq : cnt C.id F ≤ 1) (hops : C.operands = v :: rest)
    (hred : isRedundantCast F C = .ok true)
    (hok : ReplaceUsesUnsafe F C.id v = .ok (replaceUses F C.id v))
    (hwt : CastsTyped F) : CastsTyped (eraseFromParent (replaceUses F C.id v) C.id) := by
  have hvne := ReplaceUsesUnsafe_ne F C v rest hC hops hok
  intro Y' hY' hk
  obtain ⟨hY1, _⟩ := (mem_allInsts_eraseFromParent _ _ _).mp hY'
  obtain ⟨Y, hY, rfl⟩ := exists_of_mem_replaceUses _ _ _ _ hY1
  obtain ⟨w, u, urest, wu, hty, huops, hu⟩ := hwt Y hY hk
  refine ⟨w, if u = .inst C.id then v else u,
    urest.map (fun x => if x = .inst C.id then v else x), wu, hty, ?_, ?_⟩
  · simp only [redirect, huops, List.map_cons]
  · rw [width_redirect F C v rest hC huniq hops hred u (fun _ => hvne)]
    exact hu

theorem CastsOrdered.removal_ordered (rank : Nat → Nat) (F : IRFunction) (C : Instruction) (v : Value)
    (rest : List Value) (hC : C ∈ allInsts F) (hops : C.operands = v :: rest)
    (hred : isRedundantCast F C = .ok true)
    (hord : CastsOrdered rank F) :
    CastsOrdered rank (eraseFromParent (replaceUses F C.id v) C.id) := by
  intro Y' hY' hk k krest hkops
  obtain ⟨hY1, _⟩ := (mem_allInsts_eraseFromParent _ _ _).mp hY'
  obtain ⟨Y, hY, rfl⟩ := exists_of_mem_replaceUses _ _ _ _ hY1
  have hkY : Y.kind.isWidthCast = true := hk
  cases hYops : Y.operands with
  | nil => simp [redirect, hYops] at hkops
  | cons u urest =>
    simp only [redirect, hYops, List.map_cons, List.cons.injEq] at hkops
    by_cases hu : u = .inst C.id
    · rw [if_pos hu] at hkops
      have h1 : rank C.id < rank Y.id := hord Y hY hkY C.id urest (by rw [hYops, hu])
      have h2 : rank k < rank C.id :=
        hord C hC (isWidthCast_of_redundant F C hred) k rest (by rw [hops, hkops.1])
      exact lt_trans h2 h1
    · rw [if_neg hu] at hkops
      exact hord Y hY hkY k urest (by rw [hYops, hkops.1])

theorem removeInBlock_total (rank : Nat → Nat) (b fuel : Nat) (F : IRFunction) (changed : Bool)
    (hfuel : (F.getD b []).length < fuel)
    (huniq : ∀ k, cnt k F ≤ 1) (hwt : CastsTyped F) (hord : CastsOrdered rank F) :
    ∃ F1 changed1, removeInBlock b fuel F changed = .ok (F1, changed1) ∧
      (∀ k, cnt k F1 ≤ 1) ∧ CastsTyped F1 ∧ CastsOrdered rank F1 := by
  induction fuel generalizing F changed with
  | zero => omega
  | succ fuel ih =>
    unfold removeInBlock
    rcases scanCasts_total rank F (F.getD b [])
      (fun X hX => mem_allInsts_of_mem_getD F b X hX) hwt hord with hnone | ⟨F2, hsome⟩
    · rw [hnone]
      exact ⟨F, changed, rfl, huniq, hwt, hord⟩
    · rw [hsome]
      simp only
      have hshort := scanCasts_shortens F F2 b hsome
      obtain ⟨C, hCB, hred, v, rest, hops, hok, rfl⟩ := scanCasts_some F F2 _ hsome
      have hC := mem_allInsts_of_mem_getD F b C hCB
      exact ih _ true (by omega)
        (fun k => le_trans (cnt_erase_replace_le k C.id v F) (huniq k))
        (hwt.removal_typed F C v rest hC (huniq C.id) hops hred hok)
        (hord.removal_ordered rank F C v rest hC hops hred)

theorem removeInBlocks_total (rank : Nat → Nat) (n b : Nat) (F : IRFunction) (changed : Bool)
    (huniq : ∀ k, cnt k F ≤ 1) (hwt : CastsTyped F) (hord : CastsOrdered rank F) :
    ∃ F1 changed1, removeInBlocks n b F changed = .ok (F1, changed1) := by
  induction n generalizing F changed b with
  | zero => exact ⟨F, changed, rfl⟩
  | succ n ih =>
    unfold removeInBlocks
    obtain ⟨F2, ch2, h2, hu2, hw2, ho2⟩ :=
      removeInBlock_total rank b _ F changed (Nat.lt_succ_self _) huniq hwt hord
    rw [h2]
    exact ih (b + 1) F2 ch2 hu2 hw2 ho2

/-- On a function with unique identities and well-formed casts the eliminator returns. -/
theorem RedundantCastRemove_total (rank : Nat → Nat) (F : IRFunction)
    (huniq : ∀ k, cnt k F ≤ 1) (hwt : CastsTyped F) (hord : CastsOrdered rank F) :
    ∃ F1 changed, RedundantCastRemove F = .ok (F1, changed) :=
  removeInBlocks_total rank _ 0 F false huniq hwt hord

/-! ## What the cast eliminator keeps, and its flag -/

theorem scanCasts_kept (j : Nat) (F F1 : IRFunction) (B : List Instruction)
    (hB : ∀ X ∈ B, X ∈ allInsts F) (huniq : ∀ k, cnt k F ≤ 1)
    (hnr : ∀ X ∈ allInsts F, X.id = j → isRedundantCast F X = .ok false)
    (h : scanCasts F B = .ok (some F1)) :
    view j F1 = view j F ∧
    (∀ X ∈ allInsts F1, X.id = j → isRedundantCast F1 X = .ok false) := by
  obtain ⟨C, hCB, hred, v, rest, hops, hok, rfl⟩ := scanCasts_some F F1 _ h
  have hC := hB C hCB
  have hne : C.id ≠ j := by
    intro hj
    have := hnr C hC hj
    rw [hred] at this
    cases this
  refine ⟨view_erase_replace j C.id v F hne, ?_⟩
  intro Y' hY' hYj
  obtain ⟨hY1, _⟩ := (mem_allInsts_eraseFromParent _ _ _).mp hY'
  obtain ⟨Y, hY, rfl⟩ := exists_of_mem_replaceUses _ _ _ _ hY1
  rw [isRedundantCast_redirect F C v rest hC (huniq C.id) hops hred hok Y hY]
  exact hnr Y hY hYj

theorem removeInBlock_kept (j b fuel : Nat) (F F1 : IRFunction) (changed changed1 : Bool)
    (huniq : ∀ k, cnt k F ≤ 1)
    (hnr : ∀ X ∈ allInsts F, X.id = j → isRedundantCast F X = .ok false)
    (h : removeInBlock b fuel F changed = .ok (F1, changed1)) :
    view j F1 = view j F ∧ (∀ k, cnt k F1 ≤ 1) ∧
    (∀ X ∈ allInsts F1, X.id = j → isRedundantCast F1 X = .ok false) := by
  induction fuel generalizing F changed with
  | zero => unfold removeInBlock at h; cases h
  | succ fuel ih =>
    unfold removeInBlock at h
    split at h
    · cases h
    · rename_i F2 hscan
      obtain ⟨hv2, hnr2⟩ := scanCasts_kept j F F2 _
        (fun X hX => mem_allInsts_of_mem_getD F b X hX) huniq hnr hscan
      obtain ⟨C, _, _, v, _, _, _, hF2⟩ := scanCasts_some F F2 _ hscan
      have hu2 : ∀ k, cnt k F2 ≤ 1 := fun k => by
        rw [hF2]; exact le_trans (cnt_erase_replace_le k C.id v F) (huniq k)
      obtain ⟨hv1, hu1, hnr1⟩ := ih F2 true hu2 hnr2 h
      exact ⟨hv1.trans hv2, hu1, hnr1⟩
    · cases h
      exact ⟨rfl, huniq, hnr⟩

theorem removeInBlocks_kept (j n b : Nat) (F F1 : IRFunction) (changed changed1 : Bool)
    (huniq : ∀ k, cnt k F ≤ 1)
    (hnr : ∀ X ∈ allInsts F, X.id = j → isRedundantCast F X = .ok false)
    (h : removeInBlocks n b F changed = .ok (F1, changed1)) :
    view j F1 = view j F := by
  induction n generalizing F changed b with
  | zero => unfold removeInBlocks at h; cases h; rfl
  | succ n ih =>
    unfold removeInBlocks at h
    split at h
    · cases h
    · rename_i F2 ch2 hblk
      obtain ⟨hv2, hu2, hnr2⟩ := removeInBlock_kept j b _ F F2 _ _ huniq hnr hblk
      exact (ih (b + 1) F2 ch2 hu2 hnr2 h).trans hv2

theorem removeInBlock_changed (b fuel : Nat) (F F1 : IRFunction) (changed changed1 : Bool)
    (h : removeInBlock b fuel F changed = .ok (F1, changed1)) :
    (changed = true → changed1 = true) ∧ (changed1 = false → F1 = F) ∧
    (∀ k, cnt k F1 ≤ cnt k F) ∧
    (changed = false → changed1 = true →
      ∃ C ∈ allInsts F, isRedundantCast F C = .ok true ∧ cnt C.id F1 = 0) := by
  induction fuel generalizing F changed with
  | zero => unfold removeInBlock at h; cases h
  | succ fuel ih =>
    unfold removeInBlock at h
    split at h
    · cases h
    · rename_i F2 hscan
      obtain ⟨C, hCB, hred, v, rest, hops, hok, hF2⟩ := scanCasts_some F F2 _ hscan
      obtain ⟨a1, _, a3, _⟩ := ih F2 true h
      have hch1 : changed1 = true := a1 rfl
      have hle : ∀ k, cnt k F1 ≤ cnt k F := fun k =>
        le_trans (a3 k) (by rw [hF2]; exact cnt_erase_replace_le k C.id v F)
      refine ⟨fun _ => hch1, fun hf => ?_, hle, fun _ _ => ?_⟩
      · rw [hch1] at hf; cases hf
      refine ⟨C, mem_allInsts_of_mem_getD F b C hCB, hred, ?_⟩
      have h0 : cnt C.id F2 = 0 := by
        rw [hF2]; exact cnt_eraseFromParent_self C.id _
      have := a3 C.id
      omega
    · cases h
      refine ⟨id, fun _ => rfl, fun _ => le_refl _, fun hf ht => ?_⟩
      rw [hf] at ht; cases ht

theorem removeInBlocks_changed (n b : Nat) (F F1 : IRFunction) (changed changed1 : Bool)
    (h : removeInBlocks n b F changed = .ok (F1, changed1)) :
    (changed = true → changed1 = true) ∧ (changed1 = false → F1 = F) ∧
    (∀ k, cnt k F1 ≤ cnt k F) ∧
    (changed = false → changed1 = true →
      ∃ C ∈ allInsts F, isRedundantCast F C = .ok true ∧ cnt C.id F1 = 0) := by
  induction n generalizing F changed b with
  | zero =>
    unfold removeInBlocks at h
    cases h
    refine ⟨id, fun _ => rfl, fun _ => le_refl _, fun hf ht => ?_⟩
    rw [hf] at ht; cases ht
  | succ n ih =>
    unfold removeInBlocks at h
    split at h
    · cases h
    · rename_i F2 ch2 hblk
      obtain ⟨a1, a2, a3, a4⟩ := removeInBlock_changed b _ F F2 _ _ hblk
      obtain ⟨b1, b2, b3, b4⟩ := ih (b + 1) F2 ch2 h
      refine ⟨fun hc => b1 (a1 hc), fun hf => ?_, fun k => le_trans (b3 k) (a3 k),
        fun hf ht => ?_⟩
      · have hch2 : ch2 = false := by
          cases hc : ch2 with
          | false => rfl
          | true => rw [b1 hc] at hf; cases hf
        rw [b2 hf, a2 hch2]
      · cases hc : ch2 with
        | true =>
          obtain ⟨C, hC, hred, h0⟩ := a4 hf hc
          refine ⟨C, hC, hred, ?_⟩
          have := b3 C.id
          omega
        | false =>
          have hF2 := a2 hc
          obtain ⟨C, hC, hred, h0⟩ := b4 hc ht
          rw [hF2] at hC hred
          exact ⟨C, hC, hred, h0⟩

/-! ## The cast eliminator ends -/

theorem getIntegerBitWidth_nodiv (ty : Ty) : ty.getIntegerBitWidth ≠ .error .diverges := by
  cases ty <;> simp [Ty.getIntegerBitWidth]

theorem getType_nodiv (F : IRFunction) (v : Value) : v.getType F ≠ .error .diverges := by
  cases v with
  | inst id => simp only [Value.getType]; split <;> simp
  | constInt C => simp [Value.getType]
  | other ty => simp [Value.getType]

theorem width_nodiv (F : IRFunction) (v : Value) : v.width F ≠ .error .diverges := by
  unfold Value.width
  split
  · exact getIntegerBitWidth_nodiv _
  · rename_i e he
    intro h; cases h
    exact getType_nodiv F v he

theorem isRedundantCast_nodiv (F : IRFunction) (I : Instruction) :
    isRedundantCast F I ≠ .error .diverges := by
  unfold isRedundantCast
  split
  · split
    · simp
    · split
      · split
        · simp
        · rename_i e he
          intro h; cases h
          exact width_nodiv _ _ he
      · simp
  · simp

/-- Where no chain of casts leads back into itself, a scan never asks `ReplaceUsesUnsafe` to
replace a cast by itself. -/
theorem scanCasts_nodiv (rank : Nat → Nat) (F : IRFunction) (B : List Instruction)
    (hB : ∀ X ∈ B, X ∈ allInsts F) (hord : CastsOrdered rank F) :
    scanCasts F B ≠ .error .diverges := by
  induction B with
  | nil => simp [scanCasts]
  | cons I B ih =>
    have hI := hB I (List.mem_cons_self _ _)
    unfold scanCasts
    split
    · rename_i e he
      intro h; cases h
      exact isRedundantCast_nodiv _ _ he
    · exact ih (fun X hX => hB X (List.mem_cons_of_mem _ hX))
    · rename_i hred
      split
      · simp
      · rename_i v rest hops
        have hne : v ≠ .inst I.id := by
          intro hvI
          have := hord I hI (isWidthCast_of_redundant F I hred) I.id rest (by rw [hops, hvI])
          omega
        unfold ReplaceUsesUnsafe
        rw [if_neg (fun hc => hne hc.1)]
        simp

theorem removeInBlock_nodiv (rank : Nat → Nat) (b fuel : Nat) (F : IRFunction) (changed : Bool)
    (hord : CastsOrdered rank F) :
    removeInBlock b fuel F changed ≠ .error .diverges ∧
    (∀ F1 changed1, removeInBlock b fuel F changed = .ok (F1, changed1) →
      CastsOrdered rank F1) := by
  induction fuel generalizing F changed with
  | zero => unfold removeInBlock; exact ⟨by simp, fun _ _ h => by cases h⟩
  | succ fuel ih =>
    unfold removeInBlock
    split
    · rename_i e he
      refine ⟨?_, fun _ _ h => by cases h⟩
      intro h; cases h
      exact scanCasts_nodiv rank F _ (fun X hX => mem_allInsts_of_mem_getD F b X hX) hord he
    · rename_i F2 hscan
      obtain ⟨C, hCB, hred, v, rest, hops, hok, rfl⟩ := scanCasts_some F F2 _ hscan
      exact ih _ true
        (hord.removal_ordered rank F C v rest (mem_allInsts_of_mem_getD F b C hCB) hops hred)
    · exact ⟨by simp, fun F1 ch1 h => by cases h; exact hord⟩

theorem removeInBlocks_nodiv (rank : Nat → Nat) (n b : Nat) (F : IRFunction) (changed : Bool)
    (hord : CastsOrdered rank F) :
    removeInBlocks n b F changed ≠ .error .diverges := by
  induction n generalizing F changed b with
  | zero => simp [removeInBlocks]
  | succ n ih =>
    unfold removeInBlocks
    obtain ⟨h1, h2⟩ := removeInBlock_nodiv rank b ((F.getD b []).length + 1) F changed hord
    split
    · rename_i e he
      intro h; cases h
      exact h1 he
    · rename_i F2 ch2 hblk
      exact ih (b + 1) F2 ch2 (h2 F2 ch2 hblk)

/-- Where no chain of casts leads back into itself the eliminator ends: when it gives no
result, an LLVM assertion has failed. -/
theorem RedundantCastRemove_ends (rank : Nat → Nat) (F : IRFunction)
    (hord : CastsOrdered rank F) (e : Fault) (h : RedundantCastRemove F = .error e) :
    e = .assertion := by
  cases e with
  | assertion => rfl
  | diverges => exact absurd h (removeInBlocks_nodiv rank _ 0 F false hord)
  | fuel => exact absurd h (RedundantCastRemove_fuel F)

theorem eq_of_unique_id (F : IRFunction) (huniq : ∀ k, cnt k F ≤ 1) (X Y : Instruction)
    (hX : X ∈ allInsts F) (hY : Y ∈ allInsts F) (hid : Y.id = X.id) : Y = X := by
  have hnodup : ((allInsts F).map (fun Z => Z.id)).Nodup := by
    apply List.nodup_iff_count_le_one.mpr
    intro k
    rw [← cnt_eq_count]
    exact huniq k
  exact List.inj_on_of_nodup_map hnodup hY hX hid

/-- The cast eliminator on a cast that is its own operand 0 (`selfCastF`): the scan finds it
removable and calls `ReplaceUsesUnsafe` with the cast as both `from` and `to`, whose loop
then never ends.  Such a cast is what `CastsOrdered` rules out. -/
theorem RedundantCastRemove_cast_of_itself :
    RedundantCastRemove selfCastF = .error .diverges ∧
    isRedundantCast selfCastF ⟨1, .Cast .Trunc, .integer 8, [.inst 1]⟩ = .ok true ∧
    ReplaceUsesUnsafe selfCastF 1 (.inst 1) = .error .diverges := by
  refine ⟨by rfl, by rfl, by rfl⟩

/-- C16: on a function with unique instruction identities in which no chain of truncate /
zero-extend / sign-extend casts leads back into itself, `RedundantCastRemove` ends: it
returns, unless an LLVM assertion fails, and it does return when each such cast has an
integer result type and an operand 0 of an integer width.  When it has returned, no block
holds an instruction that its width test accepts (a truncate, zero-extend or sign-extend
whose output width equals the width of its input); every instruction the test rejected at the
start -- casts of any other kind and casts whose widths differ among them -- is still in its
block under its identity, kind and type; and the result is true exactly when some cast that
the test accepted at the start is no longer in the function. -/
theorem C16_cast_eliminator_ends_clean (rank : Nat → Nat) (F : IRFunction)
    (huniq : ∀ k, cnt k F ≤ 1) (hord : CastsOrdered rank F) :
    (∀ e, RedundantCastRemove F = .error e → e = .assertion) ∧
    (CastsTyped F → ∃ F1 changed, RedundantCastRemove F = .ok (F1, changed)) ∧
    (∀ F1 changed, RedundantCastRemove F = .ok (F1, changed) →
      (∀ i, ∀ X ∈ F1.getD i [], isRedundantCast F1 X = .ok false) ∧
      (∀ i, ∀ X ∈ F.getD i [], isRedundantCast F X = .ok false →
        ∃ X1 ∈ F1.getD i [], X1.id = X.id ∧ X1.kind = X.kind ∧ X1.ty = X.ty) ∧
      (changed = true ↔
        ∃ C ∈ allInsts F, isRedundantCast F C = .ok true ∧
          ∀ Y ∈ allInsts F1, Y.id ≠ C.id)) := by
  refine ⟨RedundantCastRemove_ends rank F hord,
    fun hwt => RedundantCastRemove_total rank F huniq hwt hord, ?_⟩
  intro F1 changed h
  refine ⟨?_, ?_, ?_⟩
  · intro i
    exact (scanCasts_none_iff F1 _).mp (RedundantCastRemove_clean F F1 changed huniq h i)
  · intro i X hX hnot
    have hXF := mem_allInsts_of_mem_getD F i X hX
    have hv := removeInBlocks_kept X.id _ 0 F F1 false changed huniq
      (fun Y hY hid => by rw [eq_of_unique_id F huniq X Y hXF hY hid]; exact hnot) h
    exact exists_of_view_eq X.id i F F1 X hX rfl hv
  · obtain ⟨_, b2, _, b4⟩ := removeInBlocks_changed _ 0 F F1 false changed h
    constructor
    · intro hch
      obtain ⟨C, hC, hred, h0⟩ := b4 rfl hch
      exact ⟨C, hC, hred, (cnt_eq_zero_iff C.id F1).mp h0⟩
    · rintro ⟨C, hC, _, hgone⟩
      cases hch : changed with
      | true => rfl
      | false =>
        rw [b2 hch] at hgone
        exact absurd rfl (hgone C hC)

theorem mixCastF_typed : CastsTyped mixCastF := by
  intro X hX hk
  simp only [allInsts, mixCastF, List.flatten, List.append_nil, List.mem_cons,
    List.mem_singleton, List.not_mem_nil, or_false] at hX
  rcases hX with rfl | rfl | rfl | rfl
  · cases hk
  · exact ⟨8, .inst 1, [], 8, rfl, rfl, by rfl⟩
  · exact ⟨16, .inst 2, [], 8, rfl, rfl, by rfl⟩
  · cases hk

theorem mixCastF_ordered : CastsOrdered (fun k => k) mixCastF := by
  intro X hX hk k rest hops
  simp only [allInsts, mixCastF, List.flatten, List.append_nil, List.mem_cons,
    List.mem_singleton, List.not_mem_nil, or_false] at hX
  rcases hX with rfl | rfl | rfl | rfl
  · cases hk
  · cases hops; decide
  · cases hops; decide
  · cases hk

/-- Witness of C16 on `mixCastF`: the eliminator returns; the truncation of 8 bits to 8 bits
(2) is removed, the zero-extension to 16 bits (3) stays. -/
theorem C16_cast_eliminator_ends_clean_witness :
    (∀ e, RedundantCastRemove mixCastF = .error e → e = .assertion) ∧
    (∃ F1 changed, RedundantCastRemove mixCastF = .ok (F1, changed)) ∧
    (∀ F1 changed, RedundantCastRemove mixCastF = .ok (F1, changed) →
      (∀ i, ∀ X ∈ F1.getD i [], isRedundantCast F1 X = .ok false) ∧
      (∀ i, ∀ X ∈ mixCastF.getD i [], isRedundantCast mixCastF X = .ok false →
        ∃ X1 ∈ F1.getD i [], X1.id = X.id ∧ X1.kind = X.kind ∧ X1.ty = X.ty) ∧
      (changed = true ↔
        ∃ C ∈ allInsts mixCastF, isRedundantCast mixCastF C = .ok true ∧
          ∀ Y ∈ allInsts F1, Y.id ≠ C.id)) :=
  have h := C16_cast_eliminator_ends_clean (fun k => k) mixCastF
    (IdsOk.of_nodup mixCastF 10 (by decide) (by unfold Fresh; decide)).1 mixCastF_ordered
  ⟨h.1, h.2.1 mixCastF_typed, h.2.2⟩

/-! ## The n-ary fold and the range cache -/

/-- C17, evaluated on `foldS`, the sum of a pointer-to-integer conversion (operand 0) and a
value the engine knows to lie in `[0, 16)`: the source seeds its fold with the range of
operand 0 without asking `bypassPTI` (lines 660, 672, 684, 696), so the folded range is
`add(full, [0, 16))`, the full set, and the full set is what `HI_getSignedRangeRef` returns;
the fold over the operands that are not pointer-to-integer conversions is `[0, 16)`. -/
theorem C17_first_operand_is_not_skipped :
    bypassPTI (.Unknown 1 64 true) = true ∧
    (HI_getSignedRangeRef foldSv foldS []).1 = ConstantRange.full 64 ∧
    (foldOperands foldSv foldSv.add [.Unknown 2 64 false]
        (HI_getSignedRangeRef foldSv (.Unknown 1 64 true) []).1
        (HI_getSignedRangeRef foldSv (.Unknown 1 64 true) []).2).1 = ConstantRange.full 64 ∧
    specNAryFold foldSv.add (fun o => (HI_getSignedRangeRef foldSv o []).1)
        [.Unknown 1 64 true, .Unknown 2 64 false] = some ⟨⟨64, 0⟩, ⟨64, 16⟩⟩ := by
  refine ⟨rfl, by rfl, by rfl, by rfl⟩

theorem setRange_lookup (S : SCEV) (CR : ConstantRange) (Cache : RangeCache) :
    (setRange S CR Cache).2.lookup S.key = some (setRange S CR Cache).1 := by
  simp [setRange, List.lookup]

/-- C18, amended: one call of `HI_getSignedRangeRef`, on any cache.  When the range the
external engine gives for the expression is not the full set, it is returned and the cache is
left as it is.  When it is the full set, and the expression is not a division or a width
change over a pointer-to-integer operand, the range returned is afterwards in the cache under
the identity of the expression. -/
theorem C18_slow_path_result_is_cached (sv : Services) (S : SCEV) (Cache : RangeCache) :
    ((sv.getSignedRange S).isFullSet = false →
      HI_getSignedRangeRef sv S Cache = (sv.getSignedRange S, Cache)) ∧
    ((sv.getSignedRange S).isFullSet = true →
      (match S with
        | .UDiv _ _ LHS RHS => bypassPTI LHS = false ∧ bypassPTI RHS = false
        | .Cast _ _ _ op => bypassPTI op = false
        | _ => True) →
      (HI_getSignedRangeRef sv S Cache).2.lookup S.key
        = some (HI_getSignedRangeRef sv S Cache).1) := by
  constructor
  · intro hf
    unfold HI_getSignedRangeRef
    simp [hf]
  · intro hf hS
    unfold HI_getSignedRangeRef
    simp only [hf, Bool.not_true, Bool.false_eq_true, if_false]
    cases hlook : Cache.lookup S.key with
    | some r => simp only [hlook]
    | none =>
      simp only
      cases S with
      | Constant k V => exact setRange_lookup _ _ _
      | NAry k kind w op0 ops => exact setRange_lookup _ _ _
      | UDiv k w L R =>
        simp only at hS
        simp only [hS.1, hS.2, Bool.false_eq_true, if_false]
        exact setRange_lookup _ _ _
      | Cast k kind w op =>
        simp only at hS
        simp only [hS, Bool.false_eq_true, if_false]
        exact setRange_lookup _ _ _
      | AddRec k w => exact setRange_lookup _ _ _
      | Unknown k w p => exact setRange_lookup _ _ _

/-- Witness of the amended C18: for a value of which nothing is known, the full set that the
call returns is stored under the identity of its expression. -/
theorem C18_slow_path_result_is_cached_witness :
    (HI_getSignedRangeRef agreeSv (.Unknown 1 32 false) []).2.lookup 1
      = some (HI_getSignedRangeRef agreeSv (.Unknown 1 32 false) []).1 :=
  (C18_slow_path_result_is_cached agreeSv (.Unknown 1 32 false) []).2 (by rfl) trivial

/-- C18 as stated fails.  From the empty cache, a call for a value of which nothing is known
(no trailing zero bits) stores the full set in the cache; and a call for a value whose range
the external engine knows (`[0, 16)`) returns that range and stores nothing. -/
theorem C18_counterexample_full_set_entry_and_uncached_result :
    (HI_getSignedRangeRef agreeSv (agreeSv.getSCEV 1) []).2 = [(1, ConstantRange.full 32)] ∧
    (ConstantRange.full 32).isFullSet = true ∧
    HI_getSignedRangeRef loadAddSv (loadAddSv.getSCEV 2) [] = (⟨⟨32, 0⟩, ⟨32, 16⟩⟩, []) := by
  refine ⟨by rfl, by rfl, by rfl⟩

/-! ## The operand loop: constants and instruction operands -/

/-- One round of the operand loop on an integer constant `c` of at most 64 bits (its value
within its width), for a need `w` that `IntegerType::get` accepts.  The round returns, the
state is left as it is, and the replacement operand is the `w`-bit constant with the value of
`c` modulo `2 ^ w`: when `w` is smaller than the width of `c` it is the low `w` bits of `c`
(`APInt::trunc`), and when `w` is at least the width of `c` it is `c` zero-extended
(`APInt::zext`). -/
theorem retargetOperand_constInt (isNeg : Bool) (need : Nat) (st : PassState) (C : APInt)
    (hC : C.VAL < 2 ^ C.BitWidth) (h64 : C.BitWidth ≤ 64)
    (hneed : 1 ≤ need ∧ need ≤ 16777215) :
    retargetOperand isNeg need st (.constInt C)
      = .ok (.constInt ⟨need, C.VAL % 2 ^ need⟩, st) ∧
    (need < C.BitWidth → (⟨need, C.VAL % 2 ^ need⟩ : APInt) = C.trunc need) ∧
    (C.BitWidth ≤ need → (⟨need, C.VAL % 2 ^ need⟩ : APInt) = C.zext need ∧
      C.VAL % 2 ^ need = C.VAL) := by
  have h64' : C.VAL % 2 ^ 64 = C.VAL :=
    Nat.mod_eq_of_lt (lt_of_lt_of_le hC (Nat.pow_le_pow_right (by norm_num) h64))
  refine ⟨?_, fun _ => rfl, fun hle => ?_⟩
  · simp only [retargetOperand, IntegerType_get, if_pos hneed, h64']
  · have : C.VAL % 2 ^ need = C.VAL :=
      Nat.mod_eq_of_lt (lt_of_lt_of_le hC (Nat.pow_le_pow_right (by norm_num) hle))
    exact ⟨by rw [this]; rfl, this⟩

/-- The need `Bitwidth_Analysis` records for an integer-typed instruction: its declared width
when it may read from memory, else `bitNeededFor` of the range found at its turn. -/
theorem needOf_Bitwidth_Analysis (sv : Services) (st : PassState)
    (pre post : List Instruction) (I : Instruction) (w : Nat)
    (hF : allInsts st.F = pre ++ I :: post)
    (hnodup : ((allInsts st.F).map (fun J => J.id)).Nodup)
    (hty : I.ty = .integer w) :
    needOf (Bitwidth_Analysis sv st).Instruction_BitNeeded I.id
      = (if I.kind.mayReadFromMemory then w
          else bitNeededFor
            (HI_getSignedRangeRef sv (sv.getSCEV I.id)
              (analyseInsts sv pre st).SignedRanges).1) := by
  have hpost : ∀ J ∈ post, J.id ≠ I.id := by
    intro J hJ heq
    rw [hF, List.map_append, List.map_cons] at hnodup
    have h2 := (List.nodup_append.mp hnodup).2.1
    rw [List.nodup_cons] at h2
    exact h2.1 (heq ▸ List.mem_map_of_mem _ hJ)
  have hrun : Bitwidth_Analysis sv st
      = analyseInsts sv post (analyseInst sv (analyseInsts sv pre st) I) := by
    unfold Bitwidth_Analysis
    rw [hF, analyseInsts_append, analyseInsts_cons]
  have hstep : (analyseInst sv (analyseInsts sv pre st) I).Instruction_BitNeeded.filter
      (fun p => p.1 == I.id)
      = [(I.id,
          if I.kind.mayReadFromMemory then w
          else bitNeededFor
            (HI_getSignedRangeRef sv (sv.getSCEV I.id)
              (analyseInsts sv pre st).SignedRanges).1)] := by
    unfold analyseInst
    rw [hty]
    exact mapSet_filter_self _ _ _
  have hfilter := (analyseInsts_filter_other sv post _ I.id hpost).trans hstep
  rw [hrun]; unfold needOf; rw [lookup_of_filter_eq _ _ _ hfilter]; rfl

/-- The width a rewrite casts to is at most the declared width of the instruction whenever
the recorded need is. -/
theorem prepareCast_need_le (sv : Services) (st st1 : PassState) (I : Instruction)
    (isNeg : Bool) (need W : Nat) (hty : I.ty = .integer W)
    (hle : needOf st.Instruction_BitNeeded I.id ≤ W)
    (h : prepareCast sv st I = .ok (isNeg, need, st1)) : need ≤ W := by
  unfold prepareCast at h
  simp only at h
  split at h
  · split at h
    · cases h
    · rename_i w hw
      cases h
      rw [hty] at hw
      simp only [Ty.getIntegerBitWidth] at hw
      cases hw
      simp only [needOf_mapSet]
      exact le_refl _
  · cases h; exact hle

/-! ## The need table under the rewrites -/

theorem lookup_filter_ne (id k : Nat) (tbl : List (Nat × Nat)) (h : id ≠ k) :
    (tbl.filter (fun p => p.1 != id)).lookup k = tbl.lookup k := by
  induction tbl with
  | nil => rfl
  | cons p tbl ih =>
    obtain ⟨a, b⟩ := p
    by_cases ha : a = id
    · subst ha
      have hk : (k == a) = false := by
        rw [beq_eq_false_iff_ne]; exact fun hc => h hc.symm
      simp [List.filter_cons, List.lookup, hk, ih]
    · have hne : (a != id) = true := by simp [ha]
      rw [List.filter_cons, if_pos hne]
      by_cases hk : k = a
      · subst hk; simp [List.lookup]
      · have hk' : (k == a) = false := by rw [beq_eq_false_iff_ne]; exact hk
        simp only [List.lookup, hk']
        exact ih

theorem needOf_mapSet_other (id v k : Nat) (tbl : List (Nat × Nat)) (h : id ≠ k) :
    needOf (mapSet id v tbl) k = needOf tbl k := by
  have hk : (k == id) = false := by rw [beq_eq_false_iff_ne]; exact fun hc => h hc.symm
  unfold needOf mapSet
  simp only [List.lookup, hk]
  rw [lookup_filter_ne id k tbl h]

theorem prepareCast_need_other (sv : Services) (st st1 : PassState) (I : Instruction)
    (isNeg : Bool) (need k : Nat) (hk : I.id ≠ k)
    (h : prepareCast sv st I = .ok (isNeg, need, st1)) :
    needOf st1.Instruction_BitNeeded k = needOf st.Instruction_BitNeeded k := by
  unfold prepareCast at h
  simp only at h
  split at h
  · split at h
    · cases h
    · cases h
      exact needOf_mapSet_other _ _ _ _ hk
  · cases h; rfl

theorem retargetOperand_table (isNeg : Bool) (need : Nat) (st st1 : PassState)
    (v v1 : Value) (h : retargetOperand isNeg need st v = .ok (v1, st1)) :
    st1.Instruction_BitNeeded = st.Instruction_BitNeeded := by
  unfold retargetOperand at h
  split at h
  · split at h
    · cases h
    · cases h; rfl
  · split at h
    · cases h
    · split at h
      · cases h
      · split at h
        · cases h
        · split at h
          · cases h
          · split at h
            · cases h; rfl
            · split at h
              · cases h; rfl
              · cases h; rfl
  · cases h; rfl

theorem retargetOperands_table (isNeg : Bool) (need : Nat) (vs vs1 : List Value)
    (st st1 : PassState) (h : retargetOperands isNeg need vs st = .ok (vs1, st1)) :
    st1.Instruction_BitNeeded = st.Instruction_BitNeeded := by
  induction vs generalizing st vs1 with
  | nil => unfold retargetOperands at h; cases h; rfl
  | cons v vs ih =>
    unfold retargetOperands at h
    split at h
    · cases h
    · rename_i v' st' hv
      split at h
      · cases h
      · rename_i vs' st'' hvs
        cases h
        exact (ih _ _ hvs).trans (retargetOperand_table _ _ _ _ _ _ hv)

theorem BOI_WidthCast_need_other (sv : Services) (st st1 : PassState) (I : Instruction)
    (opcode k : Nat) (hk : I.id ≠ k) (h : BOI_WidthCast sv st I opcode = .ok st1) :
    needOf st1.Instruction_BitNeeded k = needOf st.Instruction_BitNeeded k := by
  unfold BOI_WidthCast at h
  split at h
  · cases h
  · rename_i isNeg need sta hprep
    split at h
    · cases h
    · rename_i ops stb hops
      split at h
      · split at h
        · split at h
          · rw [replaceInst_table _ _ _ _ h, retargetOperands_table _ _ _ _ _ _ hops]
            exact prepareCast_need_other _ _ _ _ _ _ _ hk hprep
          · cases h
        · cases h
      · cases h

theorem ICMP_WidthCast_need_other (sv : Services) (st st1 : PassState) (I : Instruction)
    (predicate k : Nat) (hk : I.id ≠ k) (h : ICMP_WidthCast sv st I predicate = .ok st1) :
    needOf st1.Instruction_BitNeeded k = needOf st.Instruction_BitNeeded k := by
  unfold ICMP_WidthCast at h
  split at h
  · cases h
  · rename_i isNeg need sta hprep
    split at h
    · cases h
    · rename_i ops stb hops
      split at h
      · split at h
        · split at h
          · rw [replaceInst_table _ _ _ _ h, retargetOperands_table _ _ _ _ _ _ hops]
            exact prepareCast_need_other _ _ _ _ _ _ _ hk hprep
          · cases h
        · cases h
      · cases h

theorem PHI_WidthCast_need_other (sv : Services) (st st1 : PassState) (I : Instruction)
    (blocks : List Nat) (k : Nat) (hk : I.id ≠ k)
    (h : PHI_WidthCast sv st I blocks = .ok st1) :
    needOf st1.Instruction_BitNeeded k = needOf st.Instruction_BitNeeded k := by
  unfold PHI_WidthCast at h
  split at h
  · cases h
  · rename_i isNeg need sta hprep
    split at h
    · cases h
    · rename_i ops stb hops
      split at h
      · cases h
      · split at h
        · cases h
        · split at h
          · rw [replaceInst_table _ _ _ _ h, retargetOperands_table _ _ _ _ _ _ hops]
            exact prepareCast_need_other _ _ _ _ _ _ _ hk hprep
          · cases h

/-- A visit leaves the recorded need of every instruction that is still pending as it is. -/
theorem visit_need_pending (sv : Services) (st st1 : PassState) (changed changed1 brk : Bool)
    (I : Instruction) (h : visit sv st changed I = .ok (st1, changed1, brk)) :
    ∀ k ∈ st1.Instruction_id,
      needOf st1.Instruction_BitNeeded k = needOf st.Instruction_BitNeeded k := by
  unfold visit at h
  simp only at h
  have hne : ∀ k ∈ st.Instruction_id.filter (fun k => k != I.id), I.id ≠ k := by
    intro k hk hc
    have := (List.mem_filter.mp hk).2
    simp [hc] at this
  split at h
  · split at h
    · cases h; exact fun _ _ => rfl
    · split at h
      · cases h; exact fun _ _ => rfl
      · split at h
        · cases h; exact fun _ _ => rfl
        · split at h
          · cases h
          · cases h; exact fun _ _ => rfl
          · split at h
            · cases h
            · cases h; exact fun _ _ => rfl
            · split at h
              · split at h
                · cases h
                · rename_i st2 hb
                  cases h
                  intro k hk
                  rw [BOI_WidthCast_pending _ _ _ _ _ hb] at hk
                  exact BOI_WidthCast_need_other sv
                    { st with Instruction_id := st.Instruction_id.filter (fun k => k != I.id) }
                    _ I _ k (hne k hk) hb
              · split at h
                · cases h
                · rename_i st2 hb
                  cases h
                  intro k hk
                  rw [ICMP_WidthCast_pending _ _ _ _ _ hb] at hk
                  exact ICMP_WidthCast_need_other sv
                    { st with Instruction_id := st.Instruction_id.filter (fun k => k != I.id) }
                    _ I _ k (hne k hk) hb
              · split at h
                · cases h
                · rename_i st2 hb
                  cases h
                  intro k hk
                  rw [PHI_WidthCast_pending _ _ _ _ _ hb] at hk
                  exact PHI_WidthCast_need_other sv
                    { st with Instruction_id := st.Instruction_id.filter (fun k => k != I.id) }
                    _ I _ k (hne k hk) hb
              · cases h; exact fun _ _ => rfl
  · cases h; exact fun _ _ => rfl

/-- C19: constant re-encoding.  One round of the operand loop on an integer constant `c` of at
most 64 bits, for a target width `w` that `IntegerType::get` accepts, where `w` is at most the
width of `c` (as it is in every rewrite, see the last two parts), or the lower bound of the
instruction's range is not negative, or `c` is not negative.  The round returns, leaves the
state as it is, and replaces the operand by a `w`-bit constant: the low `w` bits of `c` when
`w` is smaller than the width of `c`; `c` itself when the widths agree; and when `w` is
larger, a constant whose value is the value of `c`, read as signed when the lower bound of
the range is negative and as unsigned otherwise.  Last parts: right after `Bitwidth_Analysis`,
on a function with unique identities, for an instruction of declared width `W` whose range at
its turn of the analysis is a well-formed range of width `W`, the width `prepareCast` gives
to a rewrite is at most `W`, hence at most the width of any constant operand at least `W`
bits wide (the operands of a binary operator or phi have its type, and a comparison has one
bit); and a visit of the rewriter leaves the recorded need of every instruction that is still
pending as it is, so a later rewrite starts from the need the analysis recorded. -/
theorem C19_constant_reencoded (isNeg : Bool) (need : Nat) (st : PassState) (C : APInt)
    (hC : C.VAL < 2 ^ C.BitWidth) (h64 : C.BitWidth ≤ 64)
    (hneed : 1 ≤ need ∧ need ≤ 16777215)
    (hreach : need ≤ C.BitWidth ∨ isNeg = false ∨ C.isNegative = false) :
    retargetOperand isNeg need st (.constInt C)
      = .ok (.constInt ⟨need, C.VAL % 2 ^ need⟩, st) ∧
    (need < C.BitWidth → (⟨need, C.VAL % 2 ^ need⟩ : APInt) = C.trunc need) ∧
    (need = C.BitWidth → (⟨need, C.VAL % 2 ^ need⟩ : APInt) = C) ∧
    (C.BitWidth < need →
      (isNeg = true → (⟨need, C.VAL % 2 ^ need⟩ : APInt).toInt = C.toInt) ∧
      (isNeg = false → C.VAL % 2 ^ need = C.VAL)) ∧
    (∀ (sv : Services) (st0 : PassState) (pre post : List Instruction) (I : Instruction)
      (W : Nat),
      allInsts st0.F = pre ++ I :: post →
      ((allInsts st0.F).map (fun J => J.id)).Nodup →
      I.ty = .integer W →
      (HI_getSignedRangeRef sv (sv.getSCEV I.id) (analyseInsts sv pre st0).SignedRanges).1.WF →
      (HI_getSignedRangeRef sv (sv.getSCEV I.id)
        (analyseInsts sv pre st0).SignedRanges).1.getBitWidth = W →
      ∀ (isNeg1 : Bool) (need1 : Nat) (st1 : PassState),
        prepareCast sv (Bitwidth_Analysis sv st0) I = .ok (isNeg1, need1, st1) →
        need1 ≤ W ∧
        ∀ C1 : APInt, Value.constInt C1 ∈ I.operands → W ≤ C1.BitWidth →
          need1 ≤ C1.BitWidth) ∧
    (∀ (sv : Services) (st2 st3 : PassState) (changed changed1 brk : Bool) (J : Instruction),
      visit sv st2 changed J = .ok (st3, changed1, brk) →
      ∀ k ∈ st3.Instruction_id,
        needOf st3.Instruction_BitNeeded k = needOf st2.Instruction_BitNeeded k) := by
  obtain ⟨hret, htr, hzx⟩ := retargetOperand_constInt isNeg need st C hC h64 hneed
  refine ⟨hret, htr, ?_, ?_, ?_,
    fun sv st2 st3 changed changed1 brk J hv => visit_need_pending sv _ _ _ _ _ J hv⟩
  · intro heq
    rw [(hzx (le_of_eq heq.symm)).2, heq]
  · intro hlt
    have hval := (hzx (le_of_lt hlt)).2
    refine ⟨fun hneg => ?_, fun _ => hval⟩
    have hCn : C.isNegative = false := by
      rcases hreach with h1 | h1 | h1
      · omega
      · rw [hneg] at h1; cases h1
      · exact h1
    have hlow : C.VAL < 2 ^ (need - 1) :=
      lt_of_lt_of_le hC (Nat.pow_le_pow_right (by norm_num) (by omega))
    have hbit : (C.VAL).testBit (need - 1) = false := Nat.testBit_lt_two_pow hlow
    have hCn1 : (C.VAL).testBit (C.BitWidth - 1) = false := hCn
    simp [APInt.toInt, APInt.isNegative, hval, hbit, hCn1]
  · intro sv st0 pre post I W hF hnodup hty hwf hbw isNeg1 need1 st1 hprep
    have hrec := needOf_Bitwidth_Analysis sv st0 pre post I W hF hnodup hty
    have hle : needOf (Bitwidth_Analysis sv st0).Instruction_BitNeeded I.id ≤ W := by
      rw [hrec]
      split
      · exact le_refl _
      · rw [← hbw]
        exact bitNeededFor_le _ hwf
    have h1 := prepareCast_need_le sv _ _ I isNeg1 need1 W hty hle hprep
    exact ⟨h1, fun C1 _ hW => le_trans h1 hW⟩

theorem C19_constant_reencoded_witness :
    retargetOperand true 5 loadAddSt (.constInt ⟨8, 255⟩)
      = .ok (.constInt ⟨5, 31⟩, loadAddSt) ∧
    (⟨5, 31⟩ : APInt) = (⟨8, 255⟩ : APInt).trunc 5 ∧
    retargetOperand false 16 loadAddSt (.constInt ⟨8, 255⟩)
      = .ok (.constInt ⟨16, 255⟩, loadAddSt) ∧
    retargetOperand true 16 loadAddSt (.constInt ⟨8, 100⟩)
      = .ok (.constInt ⟨16, 100⟩, loadAddSt) ∧
    (⟨16, 100⟩ : APInt).toInt = (⟨8, 100⟩ : APInt).toInt :=
  ⟨(C19_constant_reencoded true 5 loadAddSt ⟨8, 255⟩ (by decide) (by decide)
      ⟨by decide, by decide⟩ (Or.inl (by decide))).1,
   (C19_constant_reencoded true 5 loadAddSt ⟨8, 255⟩ (by decide) (by decide)
      ⟨by decide, by decide⟩ (Or.inl (by decide))).2.1 (by decide),
   (C19_constant_reencoded false 16 loadAddSt ⟨8, 255⟩ (by decide) (by decide)
      ⟨by decide, by decide⟩ (Or.inr (Or.inl rfl))).1,
   (C19_constant_reencoded true 16 loadAddSt ⟨8, 100⟩ (by decide) (by decide)
      ⟨by decide, by decide⟩ (Or.inr (Or.inr (by decide)))).1,
   ((C19_constant_reencoded true 16 loadAddSt ⟨8, 100⟩ (by decide) (by decide)
      ⟨by decide, by decide⟩ (Or.inr (Or.inr (by decide)))).2.2.2.1 (by decide)).1 rfl⟩

/-- Outside the conditions of the re-encoding, with the need table set by hand to ask for 16
bits for an 8-bit sum (a need that `Bitwidth_Analysis` does not record for an 8-bit range):
the sum (2) of `negF` has the range `[-5, 5)`, whose lower bound is negative; rewritten at 16
bits, its operand the load is sign-extended and its operand the 8-bit constant -1 is
re-created as the 16-bit constant 255. -/
theorem constant_zero_extended_above_width_on_negF :
    (BOI_WidthCast negSv negSt
        ⟨2, .BinaryOperator 13, .integer 8, [.inst 1, .constInt ⟨8, 255⟩]⟩ 13).toOption.map
      (fun s => s.F) = some negF1 ∧
    (HI_getSignedRangeRef negSv (negSv.getSCEV 2) []).1.getLower.isNegative = true ∧
    (⟨8, 255⟩ : APInt).toInt = -1 ∧ (⟨16, 255⟩ : APInt).toInt = 255 := by
  refine ⟨by rfl, by rfl, by decide, by decide⟩

/-! ## Where the operand loop puts a cast -/

theorem insertAfterL_split (id : Nat) (new X : Instruction) (pre post : List Instruction)
    (hX : X.id = id) (hpre : ∀ Y ∈ pre, Y.id ≠ id) :
    insertAfterL id new (pre ++ X :: post) = pre ++ X :: new :: post := by
  induction pre with
  | nil => simp [insertAfterL, hX]
  | cons Y pre ih =>
    have hY : Y.id ≠ id := hpre Y (List.mem_cons_self _ _)
    have := ih (fun Z hZ => hpre Z (List.mem_cons_of_mem _ hZ))
    simp only [List.cons_append, insertAfterL, if_neg hY]
    exact congrArg _ this

theorem insertAfterL_absent (id : Nat) (new : Instruction) (B : List Instruction)
    (h : ∀ Y ∈ B, Y.id ≠ id) : insertAfterL id new B = B := by
  induction B with
  | nil => rfl
  | cons Y B ih =>
    have hY : Y.id ≠ id := h Y (List.mem_cons_self _ _)
    simp only [insertAfterL, if_neg hY]
    rw [ih (fun Z hZ => h Z (List.mem_cons_of_mem _ hZ))]

theorem getD_insertAfter (F : IRFunction) (id : Nat) (new : Instruction) (i : Nat) :
    (insertAfter F id new).getD i [] = insertAfterL id new (F.getD i []) := by
  unfold insertAfter
  rw [getD_map_nil _ _ rfl]

/-- C20, amended: one round of the operand loop of a rewrite (`prepareCast` having given the
sign test and the need) on an operand that is an instruction.  The round gives a result
whenever the need is a width `IntegerType::get` accepts and the operand's defining instruction
has an integer type and a next node.  Whenever it gives a result, the defining instruction is
in the function with an integer width `w`; when `w` equals the need, the operand is kept and
nothing is inserted; otherwise the operand becomes a new cast to the need width of the old
operand -- a truncation when `w` exceeds the need, else a sign-extension when the lower bound
of the range `HI_getSignedRangeRef` gives for the rewritten instruction is negative, else a
zero-extension -- which is put right after the defining instruction in its block, every block
that does not hold the defining instruction being left as it is. -/
theorem C20_operand_cast_after_definition (sv : Services) (st sta : PassState)
    (I : Instruction) (isNeg : Bool) (need : Nat) (stm : PassState) (id : Nat)
    (hprep : prepareCast sv st I = .ok (isNeg, need, sta)) :
    (1 ≤ need ∧ need ≤ 16777215 → Castable stm.F need (.inst id) →
      ∃ v1 stn, retargetOperand isNeg need stm (.inst id) = .ok (v1, stn)) ∧
    (∀ v1 stn, retargetOperand isNeg need stm (.inst id) = .ok (v1, stn) →
      ∃ Op w, getInst stm.F id = some Op ∧ Op.ty = .integer w ∧
        (w = need → v1 = .inst id ∧ stn = stm) ∧
        (w ≠ need →
          v1 = .inst stm.nextId ∧ stn.nextId = stm.nextId + 1 ∧
          stn.F.length = stm.F.length ∧
          (∀ i pre X post, stm.F.getD i [] = pre ++ X :: post → X.id = id →
            (∀ Y ∈ pre, Y.id ≠ id) →
            stn.F.getD i [] = pre ++ X ::
              ⟨stm.nextId,
                .Cast (if need < w then .Trunc
                  else if (HI_getSignedRangeRef sv (sv.getSCEV I.id)
                    st.SignedRanges).1.getLower.isNegative then .SExt else .ZExt),
                .integer need, [.inst id]⟩ :: post) ∧
          (∀ i, (∀ Y ∈ stm.F.getD i [], Y.id ≠ id) →
            stn.F.getD i [] = stm.F.getD i []))) := by
  refine ⟨fun hneed hc => retargetOperand_total isNeg need stm (.inst id) hneed hc, ?_⟩
  intro v1 stn h
  have hneg := prepareCast_isNeg sv st sta I isNeg need hprep
  subst hneg
  unfold retargetOperand at h
  simp only at h
  split at h
  · cases h
  · rename_i Op hOp
    split at h
    · cases h
    · split at h
      · cases h
      · rename_i NewTy hNewTy
        obtain ⟨hNew, _⟩ := IntegerType_get_ok hNewTy
        subst hNew
        split at h
        · cases h
        · rename_i w hw
          have hty := getIntegerBitWidth_ok hw
          refine ⟨Op, w, hOp, hty, ?_, ?_⟩
          · intro hwn
            rw [if_neg (by omega), if_neg (by omega)] at h
            cases h
            exact ⟨rfl, rfl⟩
          · intro hwn
            by_cases hlt : w < need
            · rw [if_pos hlt] at h
              cases h
              refine ⟨rfl, rfl, by simp [insertAfter], ?_, ?_⟩
              · intro i pre X post hB hX hpre
                simp only
                rw [getD_insertAfter, hB, insertAfterL_split id _ X pre post hX hpre,
                  if_neg (show ¬ need < w by omega)]
              · intro i hB
                simp only
                rw [getD_insertAfter, insertAfterL_absent id _ _ hB]
            · rw [if_neg hlt, if_pos (by omega)] at h
              cases h
              refine ⟨rfl, rfl, by simp [insertAfter], ?_, ?_⟩
              · intro i pre X post hB hX hpre
                simp only
                rw [getD_insertAfter, hB, insertAfterL_split id _ X pre post hX hpre,
                  if_pos (show need < w by omega)]
              · intro i hB
                simp only
                rw [getD_insertAfter, insertAfterL_absent id _ _ hB]

/-- Witness of the amended C20 on `loadAddF`: the addition (2) with need 5 has the 32-bit load
(1) as its operand; the round gives a result, and a truncation to 5 bits (10) is put right
after the load. -/
theorem C20_operand_cast_after_definition_witness :
    (∃ v1 stn, retargetOperand false 5 loadAddSt (.inst 1) = .ok (v1, stn)) ∧
    (∃ Op w, getInst loadAddF 1 = some Op ∧ Op.ty = .integer w ∧
      (w = 5 → Value.inst 10 = .inst 1 ∧
        (⟨loadAddFm, [1, 2], [(1, 3), (2, 5)], [], 11⟩ : PassState) = loadAddSt) ∧
      (w ≠ 5 →
        Value.inst 10 = .inst 10 ∧ 11 = 10 + 1 ∧
        loadAddFm.length = loadAddF.length ∧
        (∀ i pre X post, loadAddF.getD i [] = pre ++ X :: post → X.id = 1 →
          (∀ Y ∈ pre, Y.id ≠ 1) →
          loadAddFm.getD i [] = pre ++ X ::
            ⟨10,
              .Cast (if 5 < w then .Trunc
                else if (HI_getSignedRangeRef loadAddSv (loadAddSv.getSCEV 2)
                  []).1.getLower.isNegative then .SExt else .ZExt),
              .integer 5, [.inst 1]⟩ :: post) ∧
        (∀ i, (∀ Y ∈ loadAddF.getD i [], Y.id ≠ 1) →
          loadAddFm.getD i [] = loadAddF.getD i []))) :=
  have h := C20_operand_cast_after_definition loadAddSv loadAddSt loadAddSt
    ⟨2, .BinaryOperator 13, .integer 32, [.inst 1, .constInt ⟨32, 1⟩]⟩ false 5
    loadAddSt 1 (by rfl)
  ⟨h.1 ⟨by decide, by decide⟩ ⟨by rfl, 32, by rfl⟩,
   h.2 (.inst 10) ⟨loadAddFm, [1, 2], [(1, 3), (2, 5)], [], 11⟩ (by rfl)⟩

/-- C20 as stated fails on `ptrF`: the analysis records need 7 for the addition (2), whose
range is `[0, 100)`; the addition has a pointer-to-integer conversion (1) as its operand, so
it is rewritten at its declared 64 bits.  Its operand (1) is an instruction, already 64 bits
wide: the rebuilt addition (10) takes it as it is, and the function holds no truncation or
extension afterwards. -/
theorem C20_counterexample_no_cast_for_operand_of_need_width :
    needOf (Bitwidth_Analysis ptrSv ⟨ptrF, [], [], [], 10⟩).Instruction_BitNeeded 2 = 7 ∧
    (InsturctionUpdate_WidthCast ptrSv
        (Bitwidth_Analysis ptrSv ⟨ptrF, [], [], [], 10⟩)).toOption.map (fun r => (r.1.F, r.2))
      = some (ptrF1, true) ∧
    (⟨10, .BinaryOperator 13, .integer 64, [.inst 1, .constInt ⟨64, 8⟩]⟩ : Instruction)
      ∈ allInsts ptrF1 ∧
    (∀ X ∈ allInsts ptrF1,
      X.kind ≠ .Cast .Trunc ∧ X.kind ≠ .Cast .ZExt ∧ X.kind ≠ .Cast .SExt) ∧
    (allInsts ptrF1).length = (allInsts ptrF).length := by
  refine ⟨by rfl, by rfl, by decide, by decide, by decide⟩

/-! ## The conservative range under known trailing zeros -/

theorem pow_split (W TZ : Nat) (hW : TZ < W) :
    2 ^ (W - 1) = 2 ^ TZ * 2 ^ (W - 1 - TZ) ∧ 2 ^ W = 2 * 2 ^ (W - 1) := by
  constructor
  · rw [← pow_add]; congr 1; omega
  · rw [← pow_succ']; congr 1; omega

/-- The signed maximum shifted right and back left by `TZ` is the signed maximum with its low
`TZ` bits cleared, `2 ^ (W - 1) - 2 ^ TZ`. -/
theorem signedMax_cleared (W TZ : Nat) (hW : TZ < W) :
    ((2 ^ (W - 1) - 1) >>> TZ) <<< TZ = 2 ^ (W - 1) - 2 ^ TZ ∧
    (2 ^ (W - 1) - 1) % 2 ^ TZ = 2 ^ TZ - 1 := by
  obtain ⟨hP, _⟩ := pow_split W TZ hW
  have hA : 0 < 2 ^ TZ := Nat.pow_pos (by norm_num)
  have hB : 0 < 2 ^ (W - 1 - TZ) := Nat.pow_pos (by norm_num)
  have hsplit : 2 ^ (W - 1) - 1 = (2 ^ TZ - 1) + 2 ^ TZ * (2 ^ (W - 1 - TZ) - 1) := by
    rw [hP, Nat.mul_sub_one]
    have : 2 ^ TZ ≤ 2 ^ TZ * 2 ^ (W - 1 - TZ) := Nat.le_mul_of_pos_right _ hB
    omega
  constructor
  · rw [Nat.shiftRight_eq_div_pow, Nat.shiftLeft_eq, hsplit, Nat.add_mul_div_left _ _ hA,
      Nat.div_eq_of_lt (by omega), Nat.zero_add, hP, Nat.sub_one_mul, Nat.mul_comm]
  · rw [hsplit, Nat.add_mul_mod_self_left, Nat.mod_eq_of_lt (by omega)]

theorem testBit_top (W v : Nat) (hW : 0 < W) (hv : v < 2 ^ W) :
    v.testBit (W - 1) = decide (2 ^ (W - 1) ≤ v) := by
  have h2 : 2 ^ W = 2 * 2 ^ (W - 1) := by rw [← pow_succ']; congr 1; omega
  have hpos : 0 < 2 ^ (W - 1) := Nat.pow_pos (by norm_num)
  rw [Nat.testBit_to_div_mod]
  have hlt : v / 2 ^ (W - 1) < 2 := by
    rw [Nat.div_lt_iff_lt_mul hpos]; omega
  by_cases hle : 2 ^ (W - 1) ≤ v
  · have : 0 < v / 2 ^ (W - 1) := Nat.div_pos hle hpos
    have h1 : v / 2 ^ (W - 1) = 1 := by omega
    simp [h1, hle]
  · have h0 : v / 2 ^ (W - 1) = 0 := Nat.div_eq_of_lt (by omega)
    simp [h0, hle]

theorem conservativeResult_eq (W TZ : Nat) (hTZ : 0 < TZ) (hW : TZ < W) :
    conservativeResult W TZ = ⟨⟨W, 2 ^ (W - 1)⟩, ⟨W, 2 ^ (W - 1) - 2 ^ TZ + 1⟩⟩ := by
  obtain ⟨hP, h2⟩ := pow_split W TZ hW
  have hA : 0 < 2 ^ TZ := Nat.pow_pos (by norm_num)
  have hpos : 0 < 2 ^ (W - 1) := Nat.pow_pos (by norm_num)
  have hne : (TZ != 0) = true := by simpa using Nat.pos_iff_ne_zero.mp hTZ
  unfold conservativeResult
  rw [if_pos hne]
  simp only [APInt.getSignedMinValue, APInt.getSignedMaxValue, (signedMax_cleared W TZ hW).1]
  have h1 : 2 ^ (W - 1) - 2 ^ TZ < 2 ^ W := by omega
  have h3 : 2 ^ (W - 1) - 2 ^ TZ + 1 < 2 ^ W := by omega
  rw [Nat.mod_eq_of_lt h1, Nat.mod_eq_of_lt h3]

/-- C21: for a width `W` and `TZ` known trailing zero bits, `0 < TZ < W`, the conservative
range of `HI_getSignedRangeRef` (what it returns as it is for a recurrence the engine knows
nothing of) has the signed minimum of width `W` as its lower bound and, as its upper bound,
one past the signed maximum with its low `TZ` bits cleared.  A `W`-bit value belongs to it
exactly when, read as signed, it lies between the signed minimum and that cleared maximum,
both included; and every `W`-bit value whose low `TZ` bits are zero belongs to it. -/
theorem C21_trailing_zero_tightening (W TZ : Nat) (hTZ : 0 < TZ) (hW : TZ < W) :
    (conservativeResult W TZ).Lower = APInt.getSignedMinValue W ∧
    (conservativeResult W TZ).Upper =
      ⟨W, (APInt.getSignedMaxValue W).VAL - (APInt.getSignedMaxValue W).VAL % 2 ^ TZ + 1⟩ ∧
    (∀ V : APInt, V.BitWidth = W → V.VAL < 2 ^ W →
      ((conservativeResult W TZ).contains V = true ↔
        (APInt.getSignedMinValue W).toInt ≤ V.toInt ∧
        V.toInt ≤ (((APInt.getSignedMaxValue W).VAL
          - (APInt.getSignedMaxValue W).VAL % 2 ^ TZ : Nat) : Int))) ∧
    (∀ V : APInt, V.BitWidth = W → V.VAL < 2 ^ W → V.VAL % 2 ^ TZ = 0 →
      (conservativeResult W TZ).contains V = true) ∧
    (∀ (sv : Services) (key : Nat) (Cache : RangeCache),
      (sv.getSignedRange (.AddRec key W)).isFullSet = true → Cache.lookup key = none →
      sv.GetMinTrailingZeros (.AddRec key W) = TZ →
      (HI_getSignedRangeRef sv (.AddRec key W) Cache).1 = conservativeResult W TZ) := by
  obtain ⟨hP, h2⟩ := pow_split W TZ hW
  obtain ⟨_, hmod⟩ := signedMax_cleared W TZ hW
  have hA : 1 < 2 ^ TZ := Nat.one_lt_two_pow (by omega)
  have hB : 0 < 2 ^ (W - 1 - TZ) := Nat.pow_pos (by norm_num)
  have hpos : 0 < 2 ^ (W - 1) := Nat.pow_pos (by norm_num)
  have hAP : 2 ^ TZ ≤ 2 ^ (W - 1) := by rw [hP]; exact Nat.le_mul_of_pos_right _ hB
  have hmax : (APInt.getSignedMaxValue W).VAL - (APInt.getSignedMaxValue W).VAL % 2 ^ TZ
      = 2 ^ (W - 1) - 2 ^ TZ := by
    simp only [APInt.getSignedMaxValue, hmod]; omega
  have hcr := conservativeResult_eq W TZ hTZ hW
  -- membership, in terms of the stored value
  have hcont : ∀ V : APInt, (conservativeResult W TZ).contains V
      = (decide (2 ^ (W - 1) ≤ V.VAL) || decide (V.VAL < 2 ^ (W - 1) - 2 ^ TZ + 1)) := by
    intro V
    rw [hcr]
    have hneq : ((⟨W, 2 ^ (W - 1)⟩ : APInt) == ⟨W, 2 ^ (W - 1) - 2 ^ TZ + 1⟩) = false := by
      rw [beq_eq_false_iff_ne]
      intro hc
      injection hc with _ hv
      omega
    have hwrap : (ConstantRange.mk ⟨W, 2 ^ (W - 1)⟩
        ⟨W, 2 ^ (W - 1) - 2 ^ TZ + 1⟩).isUpperWrapped = true := by
      simp only [ConstantRange.isUpperWrapped, APInt.ugt, decide_eq_true_eq]
      omega
    simp only [ConstantRange.contains, hneq, hwrap, Bool.false_eq_true, if_false, Bool.not_true,
      APInt.ule, APInt.ult]
  -- the signed reading of a value of width `W`
  have htoInt : ∀ V : APInt, V.BitWidth = W → V.VAL < 2 ^ W →
      V.toInt = if 2 ^ (W - 1) ≤ V.VAL then (V.VAL : Int) - ((2 ^ W : Nat) : Int)
        else (V.VAL : Int) := by
    intro V hVW hV
    unfold APInt.toInt APInt.isNegative
    rw [hVW, testBit_top W V.VAL (by omega) hV]
    by_cases hle : 2 ^ (W - 1) ≤ V.VAL
    · simp only [hle, decide_True, if_true]; push_cast; rfl
    · simp only [hle, decide_False, Bool.false_eq_true, if_false]
  have hmin : (APInt.getSignedMinValue W).toInt = -((2 ^ (W - 1) : Nat) : Int) := by
    rw [htoInt _ rfl (by simp only [APInt.getSignedMinValue]; omega)]
    simp only [APInt.getSignedMinValue, le_refl, if_true]
    rw [h2]; push_cast; ring
  refine ⟨by rw [hcr]; rfl, by rw [hcr, hmax], ?_, ?_, ?_⟩
  · intro V hVW hV
    rw [hcont V, hmin, htoInt V hVW hV, hmax]
    by_cases hle : 2 ^ (W - 1) ≤ V.VAL
    · simp only [hle, decide_True, Bool.true_or, if_true, true_iff]
      constructor <;> omega
    · simp only [hle, decide_False, Bool.false_or, decide_eq_true_eq, if_false]
      constructor
      · intro h; constructor <;> omega
      · intro h; omega
  · intro V hVW hV hz
    rw [hcont V]
    by_cases hle : 2 ^ (W - 1) ≤ V.VAL
    · simp [hle]
    · simp only [hle, decide_False, Bool.false_or, decide_eq_true_eq]
      -- a multiple of `2 ^ TZ` below `2 ^ (W - 1)` is at most `2 ^ (W - 1) - 2 ^ TZ`
      obtain ⟨q, hq⟩ := Nat.dvd_of_mod_eq_zero hz
      have hqlt : q < 2 ^ (W - 1 - TZ) := by
        by_contra hc
        have : 2 ^ TZ * 2 ^ (W - 1 - TZ) ≤ 2 ^ TZ * q := Nat.mul_le_mul_left _ (by omega)
        omega
      have : 2 ^ TZ * (q + 1) ≤ 2 ^ TZ * 2 ^ (W - 1 - TZ) := Nat.mul_le_mul_left _ (by omega)
      rw [Nat.mul_add, Nat.mul_one] at this
      omega
  · intro sv key Cache hfull hlook htz
    unfold HI_getSignedRangeRef
    simp only [hfull, Bool.not_true, Bool.false_eq_true, if_false, SCEV.key, hlook, setRange,
      SCEV.getTypeSizeInBits, htz]

/-- Witness of C21 at width 8 with 2 known trailing zero bits: the conservative range runs
from -128 up to and including 124 (its stored upper bound is 125), and holds 124 and the
bit pattern of -128. -/
theorem C21_trailing_zero_tightening_witness :
    (conservativeResult 8 2).Lower = ⟨8, 128⟩ ∧
    (conservativeResult 8 2).Upper = ⟨8, 125⟩ ∧
    (conservativeResult 8 2).contains ⟨8, 124⟩ = true ∧
    (conservativeResult 8 2).contains ⟨8, 128⟩ = true :=
  have h := C21_trailing_zero_tightening 8 2 (by decide) (by decide)
  ⟨h.1, h.2.1, h.2.2.2.1 ⟨8, 124⟩ rfl (by decide) (by decide),
    h.2.2.2.1 ⟨8, 128⟩ rfl (by decide) (by decide)⟩

/-! ## Registered instructions of a block under the rewrite steps -/

theorem pendingIn_insertAfterL (ids : List Nat) (id : Nat) (new : Instruction)
    (B : List Instruction) (hnew : new.id ∉ ids) :
    pendingIn ids (insertAfterL id new B) = pendingIn ids B := by
  induction B with
  | nil => rfl
  | cons X B ih =>
    unfold pendingIn at ih ⊢
    unfold insertAfterL
    split
    · simp [List.filter_cons, hnew]
    · simp only [List.filter_cons]
      split <;> simp [ih]

theorem pendingIn_insertBeforeL (ids : List Nat) (id : Nat) (new : Instruction)
    (B : List Instruction) (hnew : new.id ∉ ids) :
    pendingIn ids (insertBeforeL id new B) = pendingIn ids B := by
  induction B with
  | nil => rfl
  | cons X B ih =>
    unfold pendingIn at ih ⊢
    unfold insertBeforeL
    split
    · simp [List.filter_cons, hnew]
    · simp only [List.filter_cons]
      split <;> simp [ih]

theorem pendingIn_redirect (ids : List Nat) (frm : Nat) (dst : Value) (B : List Instruction) :
    pendingIn ids (B.map (redirect frm dst)) = pendingIn ids B := by
  induction B with
  | nil => rfl
  | cons X B ih =>
    unfold pendingIn at ih ⊢
    simp only [List.map_cons, List.filter_cons, redirect]
    split <;> simp [ih]

theorem pendingIn_erase (ids : List Nat) (c : Nat) (B : List Instruction) (hc : c ∉ ids) :
    pendingIn ids (B.filter (fun X => X.id != c)) = pendingIn ids B := by
  unfold pendingIn
  rw [List.filter_filter]
  congr 1
  apply List.filter_congr
  intro X _
  by_cases h : X.id ∈ ids
  · have : X.id ≠ c := fun e => hc (e ▸ h)
    simp [h, this]
  · simp [h]

/-- With fewer pending identities there are no more registered instructions; and strictly
fewer when an instruction of the block has lost its registration. -/
theorem pendingIn_mono (ids ids1 : List Nat) (B : List Instruction)
    (hsub : ∀ k ∈ ids1, k ∈ ids) : pendingIn ids1 B ≤ pendingIn ids B := by
  induction B with
  | nil => exact le_refl _
  | cons X B ih =>
    unfold pendingIn at ih ⊢
    simp only [List.filter_cons]
    by_cases h1 : X.id ∈ ids1
    · simp only [h1, hsub _ h1, decide_True, if_true, List.length_cons]
      omega
    · by_cases h : X.id ∈ ids
      · simp only [h1, h, decide_True, decide_False, Bool.false_eq_true, if_true, if_false,
          List.length_cons]
        omega
      · simp only [h1, h, decide_False, Bool.false_eq_true, if_false]
        exact ih

theorem pendingIn_lt (ids ids1 : List Nat) (B : List Instruction)
    (hsub : ∀ k ∈ ids1, k ∈ ids) (I : Instruction) (hI : I ∈ B) (hIin : I.id ∈ ids)
    (hIout : I.id ∉ ids1) : pendingIn ids1 B < pendingIn ids B := by
  induction B with
  | nil => cases hI
  | cons X B ih =>
    have hmono := pendingIn_mono ids ids1 B hsub
    unfold pendingIn at ih hmono ⊢
    simp only [List.filter_cons]
    rcases List.mem_cons.mp hI with rfl | hI'
    · simp only [hIin, hIout, decide_True, decide_False, Bool.false_eq_true, if_true, if_false,
        List.length_cons]
      omega
    · have := ih hI'
      by_cases h1 : X.id ∈ ids1
      · simp only [h1, hsub _ h1, decide_True, if_true, List.length_cons]
        omega
      · by_cases h : X.id ∈ ids
        · simp only [h1, h, decide_True, decide_False, Bool.false_eq_true, if_true, if_false,
            List.length_cons]
          omega
        · simp only [h1, h, decide_False, Bool.false_eq_true, if_false]
          exact this

theorem getD_insertBefore (F : IRFunction) (id : Nat) (new : Instruction) (i : Nat) :
    (insertBefore F id new).getD i [] = insertBeforeL id new (F.getD i []) := by
  unfold insertBefore
  rw [getD_map_nil _ _ rfl]

/-! ## No rewrite step loops for ever -/

theorem IntegerType_get_nodiv (n : Nat) : IntegerType_get n ≠ .error .diverges := by
  unfold IntegerType_get; split <;> simp

theorem widths_nodiv (F : IRFunction) (vs : List Value) : widths F vs ≠ .error .diverges := by
  induction vs with
  | nil => simp [widths]
  | cons v vs ih =>
    unfold widths
    split
    · rename_i e he
      intro h; cases h
      exact width_nodiv F v he
    · split
      · rename_i e he
        intro h; cases h
        exact ih he
      · simp

theorem sameWidthCmp_nodiv (F : IRFunction) (I : Instruction) :
    sameWidthCmp F I ≠ .error .diverges := by
  unfold sameWidthCmp
  split
  · split
    · split <;> simp
    · simp
  · simp

theorem allSameWidth_nodiv (F : IRFunction) (need curBW : Nat) (I : Instruction) :
    allSameWidth F need curBW I ≠ .error .diverges := by
  unfold allSameWidth
  split
  · split
    · rename_i e he
      intro h; cases h
      exact widths_nodiv F _ he
    · simp
  · simp

theorem prepareCast_nodiv (sv : Services) (st : PassState) (I : Instruction) :
    prepareCast sv st I ≠ .error .diverges := by
  unfold prepareCast
  simp only
  split
  · split
    · rename_i e he
      intro h; cases h
      exact getIntegerBitWidth_nodiv _ he
    · simp
  · simp

theorem retargetOperand_nodiv (isNeg : Bool) (need : Nat) (st : PassState) (v : Value) :
    retargetOperand isNeg need st v ≠ .error .diverges := by
  unfold retargetOperand
  split
  · split
    · rename_i e he
      intro h; cases h
      exact IntegerType_get_nodiv _ he
    · simp
  · split
    · simp
    · split
      · simp
      · split
        · rename_i e he
          intro h; cases h
          exact IntegerType_get_nodiv _ he
        · split
          · rename_i e he
            intro h; cases h
            exact getIntegerBitWidth_nodiv _ he
          · split
            · simp
            · split <;> simp
  · simp

theorem retargetOperands_nodiv (isNeg : Bool) (need : Nat) (vs : List Value) (st : PassState) :
    retargetOperands isNeg need vs st ≠ .error .diverges := by
  induction vs generalizing st with
  | nil => simp [retargetOperands]
  | cons v vs ih =>
    unfold retargetOperands
    split
    · rename_i e he
      intro h; cases h
      exact retargetOperand_nodiv _ _ _ _ he
    · split
      · rename_i e he
        intro h; cases h
        exact ih _ he
      · simp

theorem replaceInst_nodiv (st : PassState) (I new : Instruction) (hne : new.id ≠ I.id) :
    replaceInst st I new ≠ .error .diverges := by
  unfold replaceInst ReplaceUsesUnsafe
  rw [if_neg (fun hc => hne (by injection hc.1))]
  simp

theorem BOI_WidthCast_nodiv (sv : Services) (st : PassState) (I : Instruction) (opcode : Nat)
    (hI : I.id < st.nextId) : BOI_WidthCast sv st I opcode ≠ .error .diverges := by
  unfold BOI_WidthCast
  split
  · rename_i e he
    intro h; cases h
    exact prepareCast_nodiv _ _ _ he
  · rename_i isNeg need sta hprep
    have hna := (prepareCast_F _ _ _ _ _ _ hprep).2
    split
    · rename_i e he
      intro h; cases h
      exact retargetOperands_nodiv _ _ _ _ he
    · rename_i ops stb hops
      have hmono := (retargetOperands_view I.id _ _ _ _ _ _ (by omega) hops).2
      split
      · split
        · split
          · exact replaceInst_nodiv _ _ _ (by simp only; omega)
          · simp
        · simp
      · simp

theorem ICMP_WidthCast_nodiv (sv : Services) (st : PassState) (I : Instruction)
    (predicate : Nat) (hI : I.id < st.nextId) :
    ICMP_WidthCast sv st I predicate ≠ .error .diverges := by
  unfold ICMP_WidthCast
  split
  · rename_i e he
    intro h; cases h
    exact prepareCast_nodiv _ _ _ he
  · rename_i isNeg need sta hprep
    have hna := (prepareCast_F _ _ _ _ _ _ hprep).2
    split
    · rename_i e he
      intro h; cases h
      exact retargetOperands_nodiv _ _ _ _ he
    · rename_i ops stb hops
      have hmono := (retargetOperands_view I.id _ _ _ _ _ _ (by omega) hops).2
      split
      · split
        · split
          · exact replaceInst_nodiv _ _ _ (by simp only; omega)
          · simp
        · simp
      · simp

theorem PHI_WidthCast_nodiv (sv : Services) (st : PassState) (I : Instruction)
    (blocks : List Nat) (hI : I.id < st.nextId) :
    PHI_WidthCast sv st I blocks ≠ .error .diverges := by
  unfold PHI_WidthCast
  split
  · rename_i e he
    intro h; cases h
    exact prepareCast_nodiv _ _ _ he
  · rename_i isNeg need sta hprep
    have hna := (prepareCast_F _ _ _ _ _ _ hprep).2
    split
    · rename_i e he
      intro h; cases h
      exact retargetOperands_nodiv _ _ _ _ he
    · rename_i ops stb hops
      have hmono := (retargetOperands_view I.id _ _ _ _ _ _ (by omega) hops).2
      split
      · simp
      · split
        · rename_i e he
          intro h; cases h
          exact IntegerType_get_nodiv _ he
        · split
          · exact replaceInst_nodiv _ _ _ (by simp only; omega)
          · simp

/-- A visit never loops: the instruction it replaces is registered, so its identity is below
the identity of the instruction that replaces it. -/
theorem visit_nodiv (sv : Services) (st : PassState) (changed : Bool) (I : Instruction)
    (hpend : ∀ k ∈ st.Instruction_id, k < st.nextId) :
    visit sv st changed I ≠ .error .diverges := by
  unfold visit
  simp only
  split
  · rename_i hreg
    have hI : I.id < st.nextId := hpend _ hreg
    split
    · simp
    · split
      · simp
      · split
        · simp
        · split
          · rename_i e he
            intro h; cases h
            exact sameWidthCmp_nodiv _ _ he
          · simp
          · split
            · rename_i e he
              intro h; cases h
              exact allSameWidth_nodiv _ _ _ _ he
            · simp
            · split
              · split
                · rename_i e he
                  intro h; cases h
                  exact BOI_WidthCast_nodiv sv { st with Instruction_id := st.Instruction_id.filter (fun k => k != I.id) } I _ hI he
                · simp
              · split
                · rename_i e he
                  intro h; cases h
                  exact ICMP_WidthCast_nodiv sv { st with Instruction_id := st.Instruction_id.filter (fun k => k != I.id) } I _ hI he
                · simp
              · split
                · rename_i e he
                  intro h; cases h
                  exact PHI_WidthCast_nodiv sv { st with Instruction_id := st.Instruction_id.filter (fun k => k != I.id) } I _ hI he
                · simp
              · simp
  · simp

/-! ## The rewrites never add a pending instruction to a block -/

theorem retargetOperand_count (ids : List Nat) (isNeg : Bool) (need : Nat) (st st1 : PassState)
    (v v1 : Value) (hids : ∀ k ∈ ids, k < st.nextId)
    (h : retargetOperand isNeg need st v = .ok (v1, st1)) :
    (∀ b, pendingIn ids (st1.F.getD b []) = pendingIn ids (st.F.getD b [])) ∧
      st.nextId ≤ st1.nextId := by
  have hfresh : st.nextId ∉ ids := fun hc => Nat.lt_irrefl _ (hids _ hc)
  unfold retargetOperand at h
  split at h
  · split at h
    · cases h
    · cases h; exact ⟨fun _ => rfl, le_refl _⟩
  · split at h
    · cases h
    · split at h
      · cases h
      · split at h
        · cases h
        · split at h
          · cases h
          · split at h
            · cases h
              refine ⟨fun b => ?_, Nat.le_succ _⟩
              simp only
              rw [getD_insertAfter, pendingIn_insertAfterL _ _ _ _ hfresh]
            · split at h
              · cases h
                refine ⟨fun b => ?_, Nat.le_succ _⟩
                simp only
                rw [getD_insertAfter, pendingIn_insertAfterL _ _ _ _ hfresh]
              · cases h; exact ⟨fun _ => rfl, le_refl _⟩
  · cases h; exact ⟨fun _ => rfl, le_refl _⟩

theorem retargetOperands_count (ids : List Nat) (isNeg : Bool) (need : Nat)
    (vs vs1 : List Value) (st st1 : PassState) (hids : ∀ k ∈ ids, k < st.nextId)
    (h : retargetOperands isNeg need vs st = .ok (vs1, st1)) :
    (∀ b, pendingIn ids (st1.F.getD b []) = pendingIn ids (st.F.getD b [])) ∧
      st.nextId ≤ st1.nextId := by
  induction vs generalizing st vs1 with
  | nil =>
    unfold retargetOperands at h
    cases h; exact ⟨fun _ => rfl, le_refl _⟩
  | cons v vs ih =>
    unfold retargetOperands at h
    split at h
    · cases h
    · rename_i v' st' hv
      split at h
      · cases h
      · rename_i vs' st'' hvs
        cases h
        have h1 := retargetOperand_count ids isNeg need st st' v v' hids hv
        have h1' := h1.2
        have h2 := ih _ _ (fun k hk => Nat.lt_of_lt_of_le (hids k hk) h1') hvs
        exact ⟨fun b => (h2.1 b).trans (h1.1 b), by omega⟩

theorem replaceInst_count (ids : List Nat) (st st1 : PassState) (I new : Instruction)
    (hnew : new.id ∉ ids) (hI : I.id ∉ ids) (h : replaceInst st I new = .ok st1) :
    (∀ b, pendingIn ids (st1.F.getD b []) = pendingIn ids (st.F.getD b [])) ∧
      st.nextId ≤ st1.nextId := by
  unfold replaceInst at h
  split at h
  · cases h
  · rename_i F2 hF2
    cases h
    refine ⟨fun b => ?_, Nat.le_succ _⟩
    simp only
    unfold ReplaceUsesUnsafe at hF2
    split at hF2
    · cases hF2
    · cases hF2
      rw [getD_erase_replace, pendingIn_erase _ _ _ hI, pendingIn_redirect, getD_insertBefore,
        pendingIn_insertBeforeL _ _ _ _ hnew]

theorem BOI_WidthCast_count (ids : List Nat) (sv : Services) (st st1 : PassState)
    (I : Instruction) (opcode : Nat) (hids : ∀ k ∈ ids, k < st.nextId) (hI : I.id ∉ ids)
    (h : BOI_WidthCast sv st I opcode = .ok st1) :
    (∀ b, pendingIn ids (st1.F.getD b []) = pendingIn ids (st.F.getD b [])) ∧
      st.nextId ≤ st1.nextId := by
  unfold BOI_WidthCast at h
  split at h
  · cases h
  · rename_i isNeg need sta hprep
    obtain ⟨hF, hn⟩ := prepareCast_F _ _ _ _ _ _ hprep
    split at h
    · cases h
    · rename_i ops stb hops
      have h1 := retargetOperands_count ids isNeg need _ _ sta stb (by rw [hn]; exact hids) hops
      have hfresh : stb.nextId ∉ ids := fun hc => by
        have := hids _ hc
        omega
      split at h
      · split at h
        · split at h
          · have h2 := replaceInst_count ids stb st1 I _ hfresh hI h
            refine ⟨fun b => ?_, by omega⟩
            rw [h2.1 b, h1.1 b, hF]
          · cases h
        · cases h
      · cases h

theorem ICMP_WidthCast_count (ids : List Nat) (sv : Services) (st st1 : PassState)
    (I : Instruction) (predicate : Nat) (hids : ∀ k ∈ ids, k < st.nextId) (hI : I.id ∉ ids)
    (h : ICMP_WidthCast sv st I predicate = .ok st1) :
    (∀ b, pendingIn ids (st1.F.getD b []) = pendingIn ids (st.F.getD b [])) ∧
      st.nextId ≤ st1.nextId := by
  unfold ICMP_WidthCast at h
  split at h
  · cases h
  · rename_i isNeg need sta hprep
    obtain ⟨hF, hn⟩ := prepareCast_F _ _ _ _ _ _ hprep
    split at h
    · cases h
    · rename_i ops stb hops
      have h1 := retargetOperands_count ids isNeg need _ _ sta stb (by rw [hn]; exact hids) hops
      have hfresh : stb.nextId ∉ ids := fun hc => by
        have := hids _ hc
        omega
      split at h
      · split at h
        · split at h
          · have h2 := replaceInst_count ids stb st1 I _ hfresh hI h
            refine ⟨fun b => ?_, by omega⟩
            rw [h2.1 b, h1.1 b, hF]
          · cases h
        · cases h
      · cases h

theorem PHI_WidthCast_count (ids : List Nat) (sv : Services) (st st1 : PassState)
    (I : Instruction) (blocks : List Nat) (hids : ∀ k ∈ ids, k < st.nextId) (hI : I.id ∉ ids)
    (h : PHI_WidthCast sv st I blocks = .ok st1) :
    (∀ b, pendingIn ids (st1.F.getD b []) = pendingIn ids (st.F.getD b [])) ∧
      st.nextId ≤ st1.nextId := by
  unfold PHI_WidthCast at h
  split at h
  · cases h
  · rename_i isNeg need sta hprep
    obtain ⟨hF, hn⟩ := prepareCast_F _ _ _ _ _ _ hprep
    split at h
    · cases h
    · rename_i ops stb hops
      have h1 := retargetOperands_count ids isNeg need _ _ sta stb (by rw [hn]; exact hids) hops
      have hfresh : stb.nextId ∉ ids := fun hc => by
        have := hids _ hc
        omega
      split at h
      · cases h
      · split at h
        · cases h
        · split at h
          · have h2 := replaceInst_count ids stb st1 I _ hfresh hI h
            refine ⟨fun b => ?_, by omega⟩
            rw [h2.1 b, h1.1 b, hF]
          · cases h

/-! ## Each restart removes a pending instruction from the block -/

theorem visit_count_aux (st st1 : PassState) (I : Instruction) (brk : Bool)
    (hpend : ∀ k ∈ st.Instruction_id, k < st.nextId)
    (hids : ∀ k ∈ st1.Instruction_id, k ∈ st.Instruction_id)
    (hmono : st.nextId ≤ st1.nextId)
    (hcount : ∀ b, pendingIn st1.Instruction_id (st1.F.getD b [])
      = pendingIn st1.Instruction_id (st.F.getD b []))
    (hbrk : brk = true → I.id ∈ st.Instruction_id ∧ I.id ∉ st1.Instruction_id)
    (hF : brk = false → st1.F = st.F) :
    (∀ k ∈ st1.Instruction_id, k < st1.nextId) ∧
    (∀ k ∈ st1.Instruction_id, k ∈ st.Instruction_id) ∧
    (∀ b, pendingIn st1.Instruction_id (st1.F.getD b [])
      ≤ pendingIn st.Instruction_id (st.F.getD b [])) ∧
    (brk = true → ∀ b, I ∈ st.F.getD b [] →
      pendingIn st1.Instruction_id (st1.F.getD b [])
        < pendingIn st.Instruction_id (st.F.getD b [])) ∧
    (brk = false → st1.F = st.F) := by
  refine ⟨fun k hk => Nat.lt_of_lt_of_le (hpend k (hids k hk)) hmono, hids, fun b => ?_,
    fun hb b hI => ?_, hF⟩
  · rw [hcount b]
    exact pendingIn_mono _ _ _ hids
  · rw [hcount b]
    exact pendingIn_lt _ _ _ hids I hI (hbrk hb).1 (hbrk hb).2

theorem mem_filter_ne (c : Nat) (ids : List Nat) :
    ∀ k ∈ ids.filter (fun k => k != c), k ∈ ids := fun _ hk => (List.mem_filter.mp hk).1

theorem not_mem_filter_ne (c : Nat) (ids : List Nat) : c ∉ ids.filter (fun k => k != c) := by
  intro hc
  have := (List.mem_filter.mp hc).2
  simp at this

/-- A visit keeps every pending identity below the fresh counter, adds no pending instruction
to any block, leaves the function as it is when it does not ask for a restart, and when it
does, the block of the visited instruction has one pending instruction less at least. -/
theorem visit_count (sv : Services) (st st1 : PassState) (changed changed1 brk : Bool)
    (I : Instruction) (hpend : ∀ k ∈ st.Instruction_id, k < st.nextId)
    (h : visit sv st changed I = .ok (st1, changed1, brk)) :
    (∀ k ∈ st1.Instruction_id, k < st1.nextId) ∧
    (∀ k ∈ st1.Instruction_id, k ∈ st.Instruction_id) ∧
    (∀ b, pendingIn st1.Instruction_id (st1.F.getD b [])
      ≤ pendingIn st.Instruction_id (st.F.getD b [])) ∧
    (brk = true → ∀ b, I ∈ st.F.getD b [] →
      pendingIn st1.Instruction_id (st1.F.getD b [])
        < pendingIn st.Instruction_id (st.F.getD b [])) ∧
    (brk = false → st1.F = st.F) := by
  unfold visit at h
  simp only at h
  have hsub := mem_filter_ne I.id st.Instruction_id
  have hout := not_mem_filter_ne I.id st.Instruction_id
  have keep : ∀ s : PassState, s = { st with
      Instruction_id := st.Instruction_id.filter (fun k => k != I.id) } →
      (∀ k ∈ s.Instruction_id, k < s.nextId) ∧
      (∀ k ∈ s.Instruction_id, k ∈ st.Instruction_id) ∧
      (∀ b, pendingIn s.Instruction_id (s.F.getD b [])
        ≤ pendingIn st.Instruction_id (st.F.getD b [])) ∧
      (false = true → ∀ b, I ∈ st.F.getD b [] →
        pendingIn s.Instruction_id (s.F.getD b [])
          < pendingIn st.Instruction_id (st.F.getD b [])) ∧
      (false = false → s.F = st.F) := by
    intro s hs
    subst hs
    exact visit_count_aux st _ I false hpend hsub (le_refl _) (fun _ => rfl)
      (fun hc => by cases hc) (fun _ => rfl)
  split at h
  · rename_i hmem
    have hpend0 : ∀ k ∈ st.Instruction_id.filter (fun k => k != I.id), k < st.nextId :=
      fun k hk => hpend k (hsub k hk)
    split at h
    · cases h; exact keep _ rfl
    · split at h
      · cases h; exact keep _ rfl
      · split at h
        · cases h; exact keep _ rfl
        · split at h
          · cases h
          · cases h; exact keep _ rfl
          · split at h
            · cases h
            · cases h; exact keep _ rfl
            · split at h
              · split at h
                · cases h
                · rename_i st2 hb
                  cases h
                  have hid := BOI_WidthCast_pending _ _ _ _ _ hb
                  have hc := BOI_WidthCast_count _ sv
                    { st with Instruction_id := st.Instruction_id.filter (fun k => k != I.id) }
                    _ I _ hpend0 hout hb
                  simp only at hid hc
                  exact visit_count_aux st _ I true hpend (by rw [hid]; exact hsub) hc.2
                    (by rw [hid]; exact hc.1) (fun _ => ⟨hmem, by rw [hid]; exact hout⟩)
                    (fun hc => by cases hc)
              · split at h
                · cases h
                · rename_i st2 hb
                  cases h
                  have hid := ICMP_WidthCast_pending _ _ _ _ _ hb
                  have hc := ICMP_WidthCast_count _ sv
                    { st with Instruction_id := st.Instruction_id.filter (fun k => k != I.id) }
                    _ I _ hpend0 hout hb
                  simp only at hid hc
                  exact visit_count_aux st _ I true hpend (by rw [hid]; exact hsub) hc.2
                    (by rw [hid]; exact hc.1) (fun _ => ⟨hmem, by rw [hid]; exact hout⟩)
                    (fun hc => by cases hc)
              · split at h
                · cases h
                · rename_i st2 hb
                  cases h
                  have hid := PHI_WidthCast_pending _ _ _ _ _ hb
                  have hc := PHI_WidthCast_count _ sv
                    { st with Instruction_id := st.Instruction_id.filter (fun k => k != I.id) }
                    _ I _ hpend0 hout hb
                  simp only at hid hc
                  exact visit_count_aux st _ I true hpend (by rw [hid]; exact hsub) hc.2
                    (by rw [hid]; exact hc.1) (fun _ => ⟨hmem, by rw [hid]; exact hout⟩)
                    (fun hc => by cases hc)
              · cases h; exact keep _ rfl
  · cases h
    exact visit_count_aux st st I false hpend (fun _ hk => hk) (le_refl _) (fun _ => rfl)
      (fun hc => by cases hc) (fun _ => rfl)

/-- One scan of block `b`, over instructions of that block: no block gains a pending
instruction, and a scan that asks for a restart leaves block `b` with one pending instruction
less at least. -/
theorem scanBlock_count (sv : Services) (b : Nat) (Is : List Instruction) (st st1 : PassState)
    (changed changed1 brk : Bool) (hpend : ∀ k ∈ st.Instruction_id, k < st.nextId)
    (hIs : ∀ X ∈ Is, X ∈ st.F.getD b [])
    (h : scanBlock sv Is st changed = .ok (st1, changed1, brk)) :
    (∀ k ∈ st1.Instruction_id, k < st1.nextId) ∧
    (∀ c, pendingIn st1.Instruction_id (st1.F.getD c [])
      ≤ pendingIn st.Instruction_id (st.F.getD c [])) ∧
    (brk = true → pendingIn st1.Instruction_id (st1.F.getD b [])
      < pendingIn st.Instruction_id (st.F.getD b [])) := by
  induction Is generalizing st changed with
  | nil =>
    unfold scanBlock at h
    cases h
    exact ⟨hpend, fun _ => le_refl _, fun hc => by cases hc⟩
  | cons I Is ih =>
    unfold scanBlock at h
    split at h
    · cases h
    · rename_i st2 ch2 hv
      cases h
      have hv1 := visit_count sv _ _ _ _ _ I hpend hv
      exact ⟨hv1.1, hv1.2.2.1, fun _ => hv1.2.2.2.1 rfl b (hIs I (List.mem_cons_self _ _))⟩
    · rename_i st2 ch2 hv
      have hv1 := visit_count sv _ _ _ _ _ I hpend hv
      have hF := hv1.2.2.2.2 rfl
      have h2 := ih st2 ch2 hv1.1
        (fun X hX => by rw [hF]; exact hIs X (List.mem_cons_of_mem _ hX)) h
      refine ⟨h2.1, fun c => le_trans (h2.2.1 c) (hv1.2.2.1 c), fun hb => ?_⟩
      exact Nat.lt_of_lt_of_le (h2.2.2 hb) (hv1.2.2.1 b)

/-- The restart loop of block `b`: the number of restarts plus the pending instructions left
in the block is at most the number of pending instructions the block started with. -/
theorem rewriteBlockCount_bound (sv : Services) (b fuel : Nat) (st st1 : PassState)
    (changed changed1 : Bool) (k : Nat) (hpend : ∀ k ∈ st.Instruction_id, k < st.nextId)
    (h : rewriteBlockCount sv b fuel st changed = .ok (st1, changed1, k)) :
    (∀ k ∈ st1.Instruction_id, k < st1.nextId) ∧
    (∀ c, pendingIn st1.Instruction_id (st1.F.getD c [])
      ≤ pendingIn st.Instruction_id (st.F.getD c [])) ∧
    k + pendingIn st1.Instruction_id (st1.F.getD b [])
      ≤ pendingIn st.Instruction_id (st.F.getD b []) := by
  induction fuel generalizing st changed k with
  | zero => unfold rewriteBlockCount at h; cases h
  | succ fuel ih =>
    unfold rewriteBlockCount at h
    split at h
    · cases h
    · rename_i st2 ch2 hscan
      have hs := scanBlock_count sv b _ _ _ _ _ _ hpend (fun _ hX => hX) hscan
      split at h
      · cases h
      · rename_i st3 ch3 k3 hrec
        cases h
        have h3 := ih st2 ch2 k3 hs.1 hrec
        refine ⟨h3.1, fun c => le_trans (h3.2.1 c) (hs.2.1 c), ?_⟩
        have := hs.2.2 rfl
        have := h3.2.2
        omega
    · rename_i st2 ch2 hscan
      cases h
      have hs := scanBlock_count sv b _ _ _ _ _ _ hpend (fun _ hX => hX) hscan
      exact ⟨hs.1, hs.2.1, by simpa using hs.2.1 b⟩

/-- The loop over the blocks: block by block, the number of restarts is at most the number
of pending instructions the block held when the loop began. -/
theorem rewriteBlocksCount_bound (sv : Services) (n b : Nat) (st st1 : PassState)
    (changed changed1 : Bool) (ks : List Nat)
    (hpend : ∀ k ∈ st.Instruction_id, k < st.nextId)
    (h : rewriteBlocksCount sv n b st changed = .ok (st1, changed1, ks)) :
    ks.length = n ∧
    ∀ i, i < n → ks.getD i 0 ≤ pendingIn st.Instruction_id (st.F.getD (b + i) []) := by
  induction n generalizing b st changed ks with
  | zero =>
    unfold rewriteBlocksCount at h
    cases h
    exact ⟨rfl, fun i hi => by omega⟩
  | succ n ih =>
    unfold rewriteBlocksCount at h
    split at h
    · cases h
    · rename_i st2 ch2 k hblk
      have hb := rewriteBlockCount_bound sv b _ _ _ _ _ _ hpend hblk
      split at h
      · cases h
      · rename_i st3 ch3 ks3 hrec
        cases h
        have h3 := ih (b + 1) st2 ch2 ks3 hb.1 hrec
        refine ⟨by simp [h3.1], fun i hi => ?_⟩
        cases i with
        | zero =>
          have := hb.2.2
          simp only [List.getD_cons_zero, Nat.add_zero]
          omega
        | succ i =>
          simp only [List.getD_cons_succ]
          have h4 := h3.2 i (by omega)
          have h5 := hb.2.1 (b + 1 + i)
          have e : b + (i + 1) = b + 1 + i := by omega
          rw [e]
          exact le_trans h4 h5

/-! ## The counting loops are the rewriter's loops -/

theorem rewriteBlock_eq_count (sv : Services) (b fuel : Nat) (st : PassState) (changed : Bool) :
    rewriteBlock sv b fuel st changed
      = (rewriteBlockCount sv b fuel st changed).map (fun r => (r.1, r.2.1)) := by
  induction fuel generalizing st changed with
  | zero => rfl
  | succ fuel ih =>
    unfold rewriteBlock rewriteBlockCount
    cases scanBlock sv (st.F.getD b []) st changed with
    | error e => rfl
    | ok r =>
      obtain ⟨st1, ch1, brk⟩ := r
      cases brk with
      | false => rfl
      | true =>
        show rewriteBlock sv b fuel st1 ch1 = _
        rw [ih]
        dsimp only
        cases rewriteBlockCount sv b fuel st1 ch1 with
        | error e => rfl
        | ok r => rfl

theorem rewriteBlocks_eq_count (sv : Services) (n b : Nat) (st : PassState) (changed : Bool) :
    rewriteBlocks sv n b st changed
      = (rewriteBlocksCount sv n b st changed).map (fun r => (r.1, r.2.1)) := by
  induction n generalizing b st changed with
  | zero => rfl
  | succ n ih =>
    unfold rewriteBlocks rewriteBlocksCount
    rw [rewriteBlock_eq_count]
    cases rewriteBlockCount sv b (st.Instruction_id.length + 1) st changed with
    | error e => rfl
    | ok r =>
      obtain ⟨st1, ch1, k⟩ := r
      simp only [Except.map]
      rw [ih]
      cases rewriteBlocksCount sv n (b + 1) st1 ch1 with
      | error e => rfl
      | ok r => rfl

/-! ## The restart loops end -/

theorem scanBlock_nodiv (sv : Services) (Is : List Instruction) (st : PassState)
    (changed : Bool) (hpend : ∀ k ∈ st.Instruction_id, k < st.nextId) :
    scanBlock sv Is st changed ≠ .error .diverges := by
  induction Is generalizing st changed with
  | nil => simp [scanBlock]
  | cons I Is ih =>
    unfold scanBlock
    split
    · rename_i e he
      intro h; cases h
      exact visit_nodiv _ _ _ _ hpend he
    · simp
    · rename_i st2 ch2 hv
      exact ih _ _ (visit_count sv _ _ _ _ _ I hpend hv).1

theorem rewriteBlockCount_nodiv (sv : Services) (b fuel : Nat) (st : PassState)
    (changed : Bool) (hpend : ∀ k ∈ st.Instruction_id, k < st.nextId) :
    rewriteBlockCount sv b fuel st changed ≠ .error .diverges := by
  induction fuel generalizing st changed with
  | zero => simp [rewriteBlockCount]
  | succ fuel ih =>
    unfold rewriteBlockCount
    split
    · rename_i e he
      intro h; cases h
      exact scanBlock_nodiv _ _ _ _ hpend he
    · rename_i st2 ch2 hscan
      have hs := scanBlock_count sv b _ _ _ _ _ _ hpend (fun _ hX => hX) hscan
      split
      · rename_i e he
        intro h; cases h
        exact ih _ _ hs.1 he
      · simp
    · simp

theorem rewriteBlocksCount_nodiv (sv : Services) (n b : Nat) (st : PassState)
    (changed : Bool) (hpend : ∀ k ∈ st.Instruction_id, k < st.nextId) :
    rewriteBlocksCount sv n b st changed ≠ .error .diverges := by
  induction n generalizing b st changed with
  | zero => simp [rewriteBlocksCount]
  | succ n ih =>
    unfold rewriteBlocksCount
    split
    · rename_i e he
      intro h; cases h
      exact rewriteBlockCount_nodiv _ _ _ _ _ hpend he
    · rename_i st2 ch2 k hblk
      have hb := rewriteBlockCount_bound sv b _ _ _ _ _ _ hpend hblk
      split
      · rename_i e he
        intro h; cases h
        exact ih _ _ _ hb.1 he
      · simp

/-- With every pending identity below the fresh counter, the rewriter stops: it gives a
result or raises an assertion. -/
theorem InsturctionUpdate_WidthCast_stops (sv : Services) (st : PassState)
    (hpend : ∀ k ∈ st.Instruction_id, k < st.nextId) (e : Fault)
    (h : InsturctionUpdate_WidthCast sv st = .error e) : e = .assertion := by
  cases e with
  | assertion => rfl
  | fuel => exact absurd h (InsturctionUpdate_WidthCast_fuel sv st)
  | diverges =>
    exfalso
    unfold InsturctionUpdate_WidthCast at h
    rw [rewriteBlocks_eq_count] at h
    cases hc : rewriteBlocksCount sv st.F.length 0 st false with
    | error e1 =>
      rw [hc] at h
      simp only [Except.map] at h
      cases h
      exact rewriteBlocksCount_nodiv _ _ _ _ _ hpend hc
    | ok r =>
      rw [hc] at h
      simp only [Except.map] at h
      cases h

/-! ## What the analysis registers -/

theorem analyseInst_id_rev (sv : Services) (st : PassState) (J : Instruction) (k : Nat)
    (h : k ∈ (analyseInst sv st J).Instruction_id) :
    k ∈ st.Instruction_id ∨ (J.id = k ∧ J.ty.isIntegerTy = true) := by
  unfold analyseInst at h
  split at h
  · rename_i w hw
    simp only at h
    split at h
    · exact Or.inl h
    · rcases List.mem_cons.mp h with h1 | h1
      · exact Or.inr ⟨h1.symm, by rw [hw]; rfl⟩
      · exact Or.inl h1
  · exact Or.inl h

theorem analyseInsts_id_rev (sv : Services) (Is : List Instruction) (st : PassState) (k : Nat)
    (h : k ∈ (analyseInsts sv Is st).Instruction_id) :
    k ∈ st.Instruction_id ∨ ∃ J ∈ Is, J.id = k ∧ J.ty.isIntegerTy = true := by
  induction Is generalizing st with
  | nil => exact Or.inl h
  | cons J Is ih =>
    rw [analyseInsts_cons] at h
    rcases ih _ h with h1 | ⟨X, hX, hid, hty⟩
    · rcases analyseInst_id_rev sv st J k h1 with h2 | h2
      · exact Or.inl h2
      · exact Or.inr ⟨J, List.mem_cons_self _ _, h2.1, h2.2⟩
    · exact Or.inr ⟨X, List.mem_cons_of_mem _ hX, hid, hty⟩

theorem analyseInst_id_self (sv : Services) (st : PassState) (J : Instruction)
    (hty : J.ty.isIntegerTy = true) : J.id ∈ (analyseInst sv st J).Instruction_id := by
  unfold analyseInst
  split
  · simp only
    split
    · assumption
    · exact List.mem_cons_self _ _
  · rename_i hw
    rw [hw] at hty
    cases hty

theorem analyseInsts_id_self (sv : Services) (Is : List Instruction) (st : PassState)
    (J : Instruction) (hJ : J ∈ Is) (hty : J.ty.isIntegerTy = true) :
    J.id ∈ (analyseInsts sv Is st).Instruction_id := by
  induction Is generalizing st with
  | nil => cases hJ
  | cons X Is ih =>
    rw [analyseInsts_cons]
    rcases List.mem_cons.mp hJ with h1 | h1
    · subst h1
      exact analyseInsts_mem_id _ _ _ _ (analyseInst_id_self sv st J hty)
    · exact ih _ h1

/-- After the analysis of a function with unique identities, none of them registered before,
the registered instructions of a block are its integer-typed instructions. -/
theorem pendingIn_Bitwidth_Analysis (sv : Services) (st0 : PassState)
    (huniq : ∀ k, cnt k st0.F ≤ 1)
    (hstale : ∀ k ∈ st0.Instruction_id, ∀ X ∈ allInsts st0.F, X.id ≠ k) (i : Nat) :
    pendingIn (Bitwidth_Analysis sv st0).Instruction_id (st0.F.getD i [])
      = ((st0.F.getD i []).filter (fun X => X.ty.isIntegerTy)).length := by
  unfold pendingIn
  congr 1
  apply List.filter_congr
  intro X hX
  have hXall := mem_allInsts_of_mem_getD _ _ _ hX
  cases hty : X.ty.isIntegerTy with
  | true =>
    simp only [decide_eq_true_eq]
    exact analyseInsts_id_self sv _ st0 X hXall hty
  | false =>
    simp only [decide_eq_false_iff_not]
    intro hmem
    rcases analyseInsts_id_rev sv _ st0 X.id hmem with h1 | ⟨J, hJ, hid, hJty⟩
    · exact hstale _ h1 X hXall rfl
    · have := eq_of_unique_id st0.F huniq X J hXall hJ hid
      rw [this, hty] at hJty
      cases hJty

theorem Bitwidth_Analysis_pending (sv : Services) (st0 : PassState)
    (hfresh : Fresh st0.F st0.nextId) (hreg : ∀ k ∈ st0.Instruction_id, k < st0.nextId) :
    ∀ k ∈ (Bitwidth_Analysis sv st0).Instruction_id, k < (Bitwidth_Analysis sv st0).nextId := by
  intro k hk
  unfold Bitwidth_Analysis at hk ⊢
  rw [analyseInsts_nextId]
  rcases analyseInsts_id_rev sv _ st0 k hk with h1 | ⟨J, hJ, hid, _⟩
  · exact hreg k h1
  · rw [← hid]; exact hfresh J hJ

/-- A visit removes the visited instruction from the pending set. -/
theorem visit_removes (sv : Services) (st st1 : PassState) (changed changed1 brk : Bool)
    (I : Instruction) (h : visit sv st changed I = .ok (st1, changed1, brk)) :
    I.id ∉ st1.Instruction_id := by
  unfold visit at h
  simp only at h
  have hout := not_mem_filter_ne I.id st.Instruction_id
  split at h
  · split at h
    · cases h; exact hout
    · split at h
      · cases h; exact hout
      · split at h
        · cases h; exact hout
        · split at h
          · cases h
          · cases h; exact hout
          · split at h
            · cases h
            · cases h; exact hout
            · split at h
              · split at h
                · cases h
                · rename_i st2 hb
                  cases h
                  rw [BOI_WidthCast_pending _ _ _ _ _ hb]
                  exact hout
              · split at h
                · cases h
                · rename_i st2 hb
                  cases h
                  rw [ICMP_WidthCast_pending _ _ _ _ _ hb]
                  exact hout
              · split at h
                · cases h
                · rename_i st2 hb
                  cases h
                  rw [PHI_WidthCast_pending _ _ _ _ _ hb]
                  exact hout
              · cases h; exact hout
  · rename_i hno
    cases h
    exact hno

/-- C22: the restart-after-replacement loop of the rewriter ends on every function.  From a
function with unique instruction identities, all below the fresh counter, and a pending set
whose earlier entries are below the fresh counter and name no instruction of the function,
run the analysis and then the rewriter.  The rewriter stops: it gives a result or raises an
assertion, and neither runs out of the fuel of one scan per pending instruction and one more
nor loops for ever.  Every visit removes the visited instruction from the pending set and
adds nothing to it, so the instructions the rewrites create are never pending.  The
instructions of a block the analysis registered are its integer-typed instructions, and when
the rewriter gives a result, the number of replacements in each block (counted by
`rewriteBlocksCount`, which is the rewriter's loop with a counter) is at most the number of
integer-typed instructions of that block. -/
theorem C22_restart_loop_terminates (sv : Services) (st0 : PassState)
    (hok : IdsOk st0.F st0.nextId)
    (hstale : ∀ k ∈ st0.Instruction_id, k < st0.nextId ∧ ∀ X ∈ allInsts st0.F, X.id ≠ k) :
    (∀ e, InsturctionUpdate_WidthCast sv (Bitwidth_Analysis sv st0) = .error e →
      e = .assertion) ∧
    (∀ (st st1 : PassState) (changed changed1 brk : Bool) (I : Instruction),
      visit sv st changed I = .ok (st1, changed1, brk) →
      I.id ∉ st1.Instruction_id ∧ ∀ k ∈ st1.Instruction_id, k ∈ st.Instruction_id) ∧
    InsturctionUpdate_WidthCast sv (Bitwidth_Analysis sv st0)
      = (rewriteBlocksCount sv st0.F.length 0 (Bitwidth_Analysis sv st0) false).map
          (fun r => (r.1, r.2.1)) ∧
    (∀ i, pendingIn (Bitwidth_Analysis sv st0).Instruction_id (st0.F.getD i [])
      = ((st0.F.getD i []).filter (fun X => X.ty.isIntegerTy)).length) ∧
    (∀ (st1 : PassState) (changed : Bool) (ks : List Nat),
      rewriteBlocksCount sv st0.F.length 0 (Bitwidth_Analysis sv st0) false
        = .ok (st1, changed, ks) →
      ks.length = st0.F.length ∧
      ∀ i, i < st0.F.length →
        ks.getD i 0 ≤ ((st0.F.getD i []).filter (fun X => X.ty.isIntegerTy)).length) := by
  have hF : (Bitwidth_Analysis sv st0).F = st0.F := analyseInsts_F sv _ st0
  have hpend := Bitwidth_Analysis_pending sv st0 hok.fresh (fun k hk => (hstale k hk).1)
  have hreg := pendingIn_Bitwidth_Analysis sv st0 hok.1 (fun k hk => (hstale k hk).2)
  refine ⟨fun e he => InsturctionUpdate_WidthCast_stops sv _ hpend e he, ?_, ?_, hreg, ?_⟩
  · intro st st1 changed changed1 brk I hv
    refine ⟨visit_removes sv _ _ _ _ _ I hv, ?_⟩
    unfold visit at hv
    simp only at hv
    have hsub := mem_filter_ne I.id st.Instruction_id
    split at hv
    · split at hv
      · cases hv; exact hsub
      · split at hv
        · cases hv; exact hsub
        · split at hv
          · cases hv; exact hsub
          · split at hv
            · cases hv
            · cases hv; exact hsub
            · split at hv
              · cases hv
              · cases hv; exact hsub
              · split at hv
                · split at hv
                  · cases hv
                  · rename_i st2 hb
                    cases hv
                    rw [BOI_WidthCast_pending _ _ _ _ _ hb]
                    exact hsub
                · split at hv
                  · cases hv
                  · rename_i st2 hb
                    cases hv
                    rw [ICMP_WidthCast_pending _ _ _ _ _ hb]
                    exact hsub
                · split at hv
                  · cases hv
                  · rename_i st2 hb
                    cases hv
                    rw [PHI_WidthCast_pending _ _ _ _ _ hb]
                    exact hsub
                · cases hv; exact hsub
    · cases hv
      exact fun _ hk => hk
  · unfold InsturctionUpdate_WidthCast
    rw [rewriteBlocks_eq_count, hF]
  · intro st1 changed ks hrun
    have hb := rewriteBlocksCount_bound sv _ 0 _ _ _ _ ks hpend hrun
    refine ⟨hb.1, fun i hi => ?_⟩
    have h1 := hb.2 i hi
    rw [Nat.zero_add, hF, hreg i] at h1
    exact h1

theorem C22_restart_loop_terminates_witness :
    (rewriteBlocksCount loadAddSv 1 0
      (Bitwidth_Analysis loadAddSv ⟨loadAddF, [], [], [], 10⟩) false).toOption.map
        (fun r => r.2.2) = some [1] ∧
    ((loadAddF.getD 0 []).filter (fun X => X.ty.isIntegerTy)).length = 2 ∧
    (InsturctionUpdate_WidthCast loadAddSv
      (Bitwidth_Analysis loadAddSv ⟨loadAddF, [], [], [], 10⟩)).toOption.map (fun r => r.1.F)
      = some loadAddF1 ∧
    (∀ (st1 : PassState) (changed : Bool) (ks : List Nat),
      rewriteBlocksCount loadAddSv 1 0
        (Bitwidth_Analysis loadAddSv ⟨loadAddF, [], [], [], 10⟩) false
        = .ok (st1, changed, ks) →
      ks.length = 1 ∧
      ∀ i, i < 1 →
        ks.getD i 0 ≤ ((loadAddF.getD i []).filter (fun X => X.ty.isIntegerTy)).length) :=
  ⟨by decide, by decide, by decide,
    (C22_restart_loop_terminates loadAddSv ⟨loadAddF, [], [], [], 10⟩
      (IdsOk.of_nodup loadAddF 10 (by decide) (by unfold Fresh; decide))
      (fun _ hk => by cases hk)).2.2.2.2⟩

/-! ## Bounds of `bitNeededFor` -/

theorem clz_zero (w : Nat) : countLeadingZerosAux w 0 = w := by
  induction w with
  | zero => rfl
  | succ w ih => simp [countLeadingZerosAux, ih]

theorem APInt.getActiveBits_pos (a : APInt) (h : a.WF) (hv : a.VAL ≠ 0) :
    1 ≤ a.getActiveBits := by
  have := a.lt_pow_getActiveBits h
  by_contra hc
  have h0 : a.getActiveBits = 0 := by omega
  rw [h0] at this
  simp only [pow_zero, Nat.lt_one_iff] at this
  exact hv this

theorem APInt.getMinSignedBits_pos (a : APInt) : 1 ≤ a.getMinSignedBits := by
  unfold APInt.getMinSignedBits
  split <;> omega

/-- C23: for every well-formed range `CR` (what the `ConstantRange` constructor accepts),
`bitNeededFor CR` is at most the bit width of `CR`; it is at least 1 whenever `CR` is not the
empty range; and for the empty range (both stored bounds zero) it is 0, a width that
`IntegerType::get` rejects. -/
theorem C23_bitNeededFor_bounds (CR : ConstantRange) (h : CR.WF) :
    bitNeededFor CR ≤ CR.getBitWidth ∧
    (CR.isEmptySet = false → 1 ≤ bitNeededFor CR) ∧
    (CR.isEmptySet = true →
      bitNeededFor CR = 0 ∧ IntegerType_get (bitNeededFor CR) = .error .assertion) := by
  refine ⟨bitNeededFor_le CR h, ?_, ?_⟩
  · intro hne
    obtain ⟨hL, hU, hW, _⟩ := h
    rw [bitNeededFor_cases]
    split
    · exact hL.1
    · split
      · -- the lower bound is non-negative: one of the two bounds is not zero
        by_cases hL0 : CR.Lower.VAL = 0
        · have hU0 : CR.Upper.VAL ≠ 0 := by
            intro hU0
            have heq : CR.Lower = CR.Upper := by
              cases hl : CR.Lower with
              | mk lw lv =>
                cases hu : CR.Upper with
                | mk uw uv =>
                  rw [hl] at hW hL0
                  rw [hu] at hW hU0
                  simp only at hW hL0 hU0
                  rw [hW, hL0, hU0]
            have h1 : (CR.Lower == CR.Upper) = true := by rw [beq_iff_eq]; exact heq
            have h2 : CR.Lower.isMinValue = true := by simp [APInt.isMinValue, hL0]
            simp [ConstantRange.isEmptySet, h1, h2] at hne
          have := CR.Upper.getActiveBits_pos hU hU0
          split <;> omega
        · have := CR.Lower.getActiveBits_pos hL hL0
          split <;> omega
      · have := CR.Lower.getMinSignedBits_pos
        split <;> omega
  · intro he
    have hb : bitNeededFor CR = 0 := by
      simp only [ConstantRange.isEmptySet, Bool.and_eq_true, beq_iff_eq,
        APInt.isMinValue] at he
      obtain ⟨hLU, hL0⟩ := he
      have hW := h.1.1
      rw [bitNeededFor_cases]
      have hfull : CR.isFullSet = false := by
        simp only [ConstantRange.isFullSet, APInt.isMaxValue, hL0, Bool.and_eq_false_imp,
          beq_iff_eq]
        intro _
        have : 1 < 2 ^ CR.Lower.BitWidth := Nat.one_lt_two_pow (by omega)
        simp only [beq_eq_false_iff_ne, ne_eq]
        omega
      have hnn : CR.Lower.isNonNegative = true := by
        simp [APInt.isNonNegative, APInt.isNegative, hL0]
      have hab : CR.Lower.getActiveBits = 0 := by
        simp [APInt.getActiveBits, APInt.countLeadingZeros, hL0, clz_zero]
      rw [hfull, hnn, ← hLU, hab]
      simp
    rw [hb]
    exact ⟨rfl, rfl⟩

/-- Witness of C23: the 8-bit range `[0, 16)` needs between 1 and 8 bits, and the empty 8-bit
range needs 0 bits. -/
theorem C23_bitNeededFor_bounds_witness :
    (bitNeededFor ⟨⟨8, 0⟩, ⟨8, 16⟩⟩ ≤ 8 ∧ 1 ≤ bitNeededFor ⟨⟨8, 0⟩, ⟨8, 16⟩⟩) ∧
    (bitNeededFor ⟨⟨8, 0⟩, ⟨8, 0⟩⟩ = 0 ∧
      IntegerType_get (bitNeededFor ⟨⟨8, 0⟩, ⟨8, 0⟩⟩) = .error .assertion) :=
  ⟨⟨(C23_bitNeededFor_bounds ⟨⟨8, 0⟩, ⟨8, 16⟩⟩ (by decide)).1,
    (C23_bitNeededFor_bounds ⟨⟨8, 0⟩, ⟨8, 16⟩⟩ (by decide)).2.1 (by decide)⟩,
   (C23_bitNeededFor_bounds ⟨⟨8, 0⟩, ⟨8, 0⟩⟩ (by decide)).2.2 (by decide)⟩

end HI_VarWidthReduce
